import Mathlib

/-!
# The server-side rendering runtime of `entry.mjs`

A shallow embedding of the parts of
`src/frontend/.netlify/functions-internal/entry.mjs` that deal with markup
escaping, string marking, attribute serialization and the serialization of
props for hydration, followed by theorems about them.

Conventions of the embedding.

* JavaScript strings are Lean strings (sequences of characters).
* JavaScript numbers are modelled by integers: the numbers whose `String()`
  and `JSON.stringify` form is their plain decimal expansion.
* A promise is identified with the value it resolves to; an `async`
  function is the function of its results.
* A thrown exception is the constructor `thrown` of `Outcome`.
-/

namespace Entry

/-! ## Strings -/

/-- The characters removed by `String.prototype.trim` and matched by `\s` in
a regular expression: the ECMAScript WhiteSpace and LineTerminator
code points. -/
def isJSWhitespace (c : Char) : Bool :=
  c.val = 0x09 || c.val = 0x0A || c.val = 0x0B || c.val = 0x0C || c.val = 0x0D ||
  c.val = 0x20 || c.val = 0xA0 || c.val = 0x1680 ||
  (0x2000 ≤ c.val && c.val ≤ 0x200A) ||
  c.val = 0x2028 || c.val = 0x2029 || c.val = 0x202F || c.val = 0x205F ||
  c.val = 0x3000 || c.val = 0xFEFF

/-- The method `String.prototype.trim`. -/
def jsTrim (s : String) : String :=
  ⟨((s.data.dropWhile isJSWhitespace).reverse.dropWhile isJSWhitespace).reverse⟩

/-- The loop of `splitWhitespace`: `cur` is the token being read, reversed. -/
def splitWhitespaceAux : List Char → List Char → List String
  | [], cur => if cur.isEmpty then [] else [⟨cur.reverse⟩]
  | c :: cs, cur =>
    if isJSWhitespace c then
      (if cur.isEmpty then [] else [⟨cur.reverse⟩]) ++ splitWhitespaceAux cs []
    else splitWhitespaceAux cs (c :: cur)

/-- The call `s.split(/\s+/)` on a trimmed, non-empty string `s`: the maximal
runs of characters that are not white space. -/
def splitWhitespace (s : String) : List String :=
  splitWhitespaceAux s.data []

/-- The call `s.replace(/c/g, r)` for a single character `c` and a
replacement text `r` without `$`: every occurrence of `c` becomes `r`. -/
def replaceAllChar (c : Char) (r : String) (s : String) : String :=
  ⟨s.data.flatMap fun x => if x = c then r.data else [x]⟩

/-- ASCII lower-casing of a string. -/
def asciiLower (s : String) : String :=
  ⟨s.data.map Char.toLower⟩

/-- The test `/^(n1|n2|...)$/i.test(key)` for a list of ASCII names: without
the `u` flag a letter of the pattern matches exactly its two ASCII cases. -/
def testNamesIgnoreCase (names : List String) (key : String) : Bool :=
  names.any fun n => asciiLower n == asciiLower key

/-- The decimal digits of a key that is an array index. -/
def digitsValue (cs : List Char) : Nat :=
  cs.foldl (fun n c => 10 * n + (c.toNat - 48)) 0

/-- The integer of a property key that is an array index: a canonical
decimal numeral below `2^32 - 1`. -/
def indexOfKey (k : String) : Option Nat :=
  if k.data ≠ [] ∧ k.data.all Char.isDigit ∧ (k.data.head? ≠ some '0' ∨ k.data.length = 1) ∧
      digitsValue k.data < 4294967295 then some (digitsValue k.data)
  else none

/-! ## Markup escaping (`html-escaper`) -/

/-- The table `esca` of `html-escaper`: the entity of one character. -/
def escapeChar (c : Char) : List Char :=
  if c = '&' then "&amp;".data
  else if c = '<' then "&lt;".data
  else if c = '>' then "&gt;".data
  else if c = '\'' then "&#39;".data
  else if c = '"' then "&quot;".data
  else [c]

/-- Modelled from the spec: `escape` of the package `html-escaper`, imported
at line 4 of `entry.mjs` and absent from the sources. The spec says that it
returns its argument with `&`, `<`, `>`, `"` and `'` replaced by entities;
the entities are those of the package (`&amp;`, `&lt;`, `&gt;`, `&quot;`,
`&#39;`), each match of `/[&<>'"]/g` being replaced on its own. -/
def escape (s : String) : String :=
  ⟨s.data.flatMap escapeChar⟩

/-- The definition `const escapeHTML = escape;` (line 328). -/
def escapeHTML (s : String) : String := escape s

/-- The five entities that `escape` writes. -/
def entities : List (List Char) :=
  ["&amp;".data, "&lt;".data, "&gt;".data, "&#39;".data, "&quot;".data]

/-! ## Values of the renderer -/

/-- The JavaScript values that the renderer functions below receive.
`htmlString` is an instance of the class `HTMLString` (a `String` object
whose `Symbol.toStringTag` is `"HTMLString"`), `slotString` an instance of
its subclass `SlotString` with its `instructions` field (`null` or an array).
A function is given by its source text and by what a call without arguments
returns; a call of it calls no function that it is given. Objects list their own enumerable properties in `Object.entries`
order. -/
inductive Val where
  | undefined
  | null
  | bool (b : Bool)
  | num (n : Int)
  | str (s : String)
  | htmlString (s : String)
  | slotString (s : String) (instructions : Option (List Val))
  | arr (xs : List Val)
  | obj (es : List (String × Val))
  | func (src : String) (ret : Val)
  deriving Repr, Inhabited

/-- The test `value instanceof HTMLString`. -/
def Val.instanceofHTMLString : Val → Bool
  | .htmlString _ => true
  | .slotString _ _ => true
  | _ => false

/-- The test `typeof value === "string"`. -/
def Val.isPrimitiveString : Val → Bool
  | .str _ => true
  | _ => false

/-- The test `typeof value === "object"` (which holds of `null`). -/
def Val.typeofObject : Val → Bool
  | .null => true
  | .htmlString _ => true
  | .slotString _ _ => true
  | .arr _ => true
  | .obj _ => true
  | _ => false

/-- JavaScript truthiness. -/
def Val.truthy : Val → Bool
  | .undefined => false
  | .null => false
  | .bool b => b
  | .num n => n != 0
  | .str s => s != ""
  | _ => true

/-- The characters of a `String` object, or `none` for another value. -/
def Val.content? : Val → Option String
  | .htmlString s => some s
  | .slotString s _ => some s
  | _ => none

mutual
/-- The conversion `String(value)`, also applied by a template literal. -/
def toStringJS : Val → String
  | .undefined => "undefined"
  | .null => "null"
  | .bool b => if b then "true" else "false"
  | .num n => toString n
  | .str s => s
  | .htmlString s => s
  | .slotString s _ => s
  | .arr xs => ",".intercalate (joinItems xs)
  | .obj _ => "[object Object]"
  | .func src _ => src
/-- The items of `Array.prototype.join`: `undefined` and `null` are written
as the empty string. -/
def joinItems : List Val → List String
  | [] => []
  | .undefined :: xs => "" :: joinItems xs
  | .null :: xs => "" :: joinItems xs
  | x :: xs => toStringJS x :: joinItems xs
end

/-! ## String marking -/

/-- The function `markHTMLString` (lines 334-342). -/
def markHTMLString (value : Val) : Val :=
  if value.instanceofHTMLString then value
  else match value with
    | .str s => .htmlString s
    | _ => value

/-- The function `isHTMLString` (lines 343-345):
`Object.prototype.toString.call(value) === "[object HTMLString]"`. -/
def isHTMLString (value : Val) : Bool :=
  value.instanceofHTMLString

/-- The test `child instanceof SlotString`. -/
def Val.instanceofSlotString : Val → Bool
  | .slotString _ _ => true
  | _ => false

/-! ## Results of calls -/

/-- The result of a call: a returned value, a thrown exception (the name of
its constructor and its message), or `pending` when the call needs a deeper
call stack than the fuel allows. -/
inductive Outcome (α : Type) where
  | ok (a : α)
  | thrown (name : String) (message : String)
  | pending
  deriving DecidableEq, Repr, Inhabited

/-- Running `f` on the items of a list from left to right, threading a state
and stopping at the first call that does not return. -/
def mapOutcome {α β σ : Type} (f : α → σ → Outcome (β × σ)) :
    List α → σ → Outcome (List β × σ)
  | [], s => .ok ([], s)
  | x :: xs, s =>
    match f x s with
    | .ok (y, s1) =>
      match mapOutcome f xs s1 with
      | .ok (ys, s2) => .ok (y :: ys, s2)
      | .thrown n m => .thrown n m
      | .pending => .pending
    | .thrown n m => .thrown n m
    | .pending => .pending

/-! ## The renderers of children -/

/-- What the asynchronous generator `renderChild` yields: a value, or (from
the array branch) the generator object of a nested call, given by what it
yields in turn. -/
inductive Chunk where
  | val (v : Val)
  | gen (cs : List Chunk)
  deriving Repr, Inhabited

mutual
/-- The generator `renderChild` (lines 1061-1089) as the list of what it
yields. The branches for template results, component instances, byte views
and iterable objects take values that are not in `Val`. -/
def renderChild : Val → List Chunk
  | .slotString s instructions =>
    (match instructions with
      | some is => is.map Chunk.val
      | none => []) ++ [.val (.slotString s instructions)]
  | .htmlString s => [.val (.htmlString s)]
  | .arr xs => renderChildItems xs
  | .func _ ret => renderChild ret
  | .str s => [.val (markHTMLString (.str (escapeHTML s)))]
  | .undefined => []
  | .null => []
  | .bool b => if b then [.val (.bool b)] else []
  | .num n => [.val (.num n)]
  | .obj es => [.val (.obj es)]
/-- The loop `for (const value of child) yield markHTMLString(await renderChild(value))`:
the awaited generator object is no string, so it is yielded itself. -/
def renderChildItems : List Val → List Chunk
  | [] => []
  | v :: vs => .gen (renderChild v) :: renderChildItems vs
end

mutual
/-- The function `renderJSX` (lines 1214-1243). The code after the `switch`
(the choice of the `Skip` counter and the call of `renderJSXVNode`) is the
parameter `renderJSXVNode`. A promise is given by what it settles to, a
rejected one by a thrown result; when several renders of an array fail, the
error of the leftmost is kept. The times at which the promises settle are
told by `renderJSXAsync`. -/
def renderJSX (renderJSXVNode : Val → Outcome Val) : Val → Outcome Val
  | .htmlString s =>
    if jsTrim s = "" then .ok (.str "") else .ok (.htmlString s)
  | .slotString s instructions =>
    if jsTrim s = "" then .ok (.str "") else .ok (.slotString s instructions)
  | .str s => .ok (markHTMLString (.str (escapeHTML s)))
  | .func src ret => .ok (.func src ret)
  | .undefined => .ok (.str "")
  | .null => .ok (.str "")
  | .bool false => .ok (.str "")
  | .arr xs =>
    match renderJSXItems renderJSXVNode xs with
    | .ok rs => .ok (markHTMLString (.str ("".intercalate (joinItems rs))))
    | .thrown n m => .thrown n m
    | .pending => .pending
  | .bool true => renderJSXVNode (.bool true)
  | .num n => renderJSXVNode (.num n)
  | .obj es => renderJSXVNode (.obj es)
/-- The call `Promise.all(vnode.map((v) => renderJSX(result, v)))`. -/
def renderJSXItems (renderJSXVNode : Val → Outcome Val) : List Val → Outcome (List Val)
  | [] => .ok []
  | v :: vs =>
    match renderJSX renderJSXVNode v with
    | .ok r =>
      match renderJSXItems renderJSXVNode vs with
      | .ok rs => .ok (r :: rs)
      | .thrown n m => .thrown n m
      | .pending => .pending
    | .thrown n m => .thrown n m
    | .pending => .pending
end

/-! ## Promises -/

/-- A promise, by the time at which it settles, counted in turns of the
event loop from the call that made it, and by what it settles to: `ok` for a
promise that is fulfilled, `thrown` for one that is rejected, `pending` for
one that never settles. Of two promises of an array with the same time, the
one that comes first in the array settles first. -/
structure Promise (α : Type) where
  time : Nat
  outcome : Outcome α
  deriving Repr

/-- The rejection that settles `Promise.all(promises)`: the time and the
reason of the promise that is rejected before every other one. -/
def firstRejection : List (Promise Val) → Option (Nat × String × String)
  | [] => none
  | p :: ps =>
    match p.outcome, firstRejection ps with
    | .thrown n m, some (t, n1, m1) => if p.time ≤ t then some (p.time, n, m) else some (t, n1, m1)
    | .thrown n m, none => some (p.time, n, m)
    | _, r => r

/-- The values of the promises of an array in the order of the array, when
all are fulfilled. -/
def fulfilledValues : List (Promise Val) → Option (List Val)
  | [] => some []
  | p :: ps =>
    match p.outcome, fulfilledValues ps with
    | .ok v, some vs => some (v :: vs)
    | _, _ => none

/-- The call `Promise.all(promises)`: rejected as soon as one of the promises
is rejected, with its reason; fulfilled, once the last of the promises is
fulfilled, with the array of their values in the order of the array. -/
def promiseAll (promises : List (Promise Val)) : Promise (List Val) :=
  match firstRejection promises with
  | some (t, n, m) => ⟨t, .thrown n m⟩
  | none =>
    match fulfilledValues promises with
    | some vs => ⟨(promises.map fun p => p.time).foldl max 0, .ok vs⟩
    | none => ⟨0, .pending⟩

/-- The expression `markHTMLString((await Promise.all(promises)).join(""))`
of `renderJSX` (lines 1228-1230) on the array `promises` of the renders of
the items. -/
def renderJSXArray (promises : List (Promise Val)) : Promise Val :=
  match promiseAll promises with
  | ⟨t, .ok rs⟩ => ⟨t, .ok (markHTMLString (.str ("".intercalate (joinItems rs))))⟩
  | ⟨t, .thrown n m⟩ => ⟨t, .thrown n m⟩
  | ⟨t, .pending⟩ => ⟨t, .pending⟩

mutual
/-- The function `renderJSX` (lines 1214-1243) as the async function that it
is: the result is the promise that the call returns. A case that returns
without an `await` settles at time 0. The code after the `switch` (the
choice of the `Skip` counter and the call of `renderJSXVNode`) is the
parameter `renderJSXVNode`, which gives the promise of the render of a vnode
and so the order in which the renders of an array complete. -/
def renderJSXAsync (renderJSXVNode : Val → Promise Val) : Val → Promise Val
  | .htmlString s =>
    ⟨0, if jsTrim s = "" then .ok (.str "") else .ok (.htmlString s)⟩
  | .slotString s instructions =>
    ⟨0, if jsTrim s = "" then .ok (.str "") else .ok (.slotString s instructions)⟩
  | .str s => ⟨0, .ok (markHTMLString (.str (escapeHTML s)))⟩
  | .func src ret => ⟨0, .ok (.func src ret)⟩
  | .undefined => ⟨0, .ok (.str "")⟩
  | .null => ⟨0, .ok (.str "")⟩
  | .bool false => ⟨0, .ok (.str "")⟩
  | .arr xs => renderJSXArray (renderJSXPromises renderJSXVNode xs)
  | .bool true => renderJSXVNode (.bool true)
  | .num n => renderJSXVNode (.num n)
  | .obj es => renderJSXVNode (.obj es)
/-- The array `vnode.map((v) => renderJSX(result, v))`. -/
def renderJSXPromises (renderJSXVNode : Val → Promise Val) : List Val → List (Promise Val)
  | [] => []
  | v :: vs => renderJSXAsync renderJSXVNode v :: renderJSXPromises renderJSXVNode vs
end

/-! ## Attribute serialization -/

/-- The names of `voidElementNames` (line 1462). -/
def voidElementNames : List String :=
  ["area", "base", "br", "col", "command", "embed", "hr", "img", "input", "keygen",
   "link", "meta", "param", "source", "track", "wbr"]

/-- The names of `htmlBooleanAttributes` (line 1463). -/
def htmlBooleanAttributes : List String :=
  ["allowfullscreen", "async", "autofocus", "autoplay", "controls", "default", "defer",
   "disabled", "disablepictureinpicture", "disableremoteplayback", "formnovalidate",
   "hidden", "loop", "nomodule", "novalidate", "open", "playsinline", "readonly",
   "required", "reversed", "scoped", "seamless", "itemscope"]

/-- The names of `htmlEnumAttributes` (line 1464). -/
def htmlEnumAttributes : List String :=
  ["contenteditable", "draggable", "spellcheck", "value"]

/-- The names of `svgEnumAttributes` (line 1465). -/
def svgEnumAttributes : List String :=
  ["autoReverse", "externalResourcesRequired", "focusable", "preserveAlpha"]

/-- The set `STATIC_DIRECTIVES` (line 1466). -/
def STATIC_DIRECTIVES : List String := ["set:html", "set:text"]

/-- The function `toAttributeString` (line 1472): with escaping,
`String(value).replace(/&/g, "&#38;").replace(/"/g, "&#34;")`, otherwise the
value itself. -/
def toAttributeString (value : Val) (shouldEscape : Bool) : Val :=
  if shouldEscape then
    .str (replaceAllChar '"' "&#34;" (replaceAllChar '&' "&#38;" (toStringJS value)))
  else value

/-- The function `kebab` (line 1473). The comparison `k.toLowerCase() === k`
is made on the ASCII letters, the only ones that `/[A-Z]/g` rewrites. -/
def kebab (k : String) : String :=
  if asciiLower k = k then k
  else ⟨k.data.flatMap fun c => if c.isUpper then ['-', c.toLower] else [c]⟩

/-- The index keys `"0"`, `"1"`, ... paired with the items of a list. -/
def indexEntries {α : Type} (xs : List α) : List (String × α) :=
  xs.enum.map fun p => (toString p.1, p.2)

/-- The call `Object.entries(value)` on a value other than `undefined` and
`null`: a string, primitive or not, lists its characters under their
indices. -/
def objectEntries : Val → List (String × Val)
  | .obj es => es
  | .arr xs => indexEntries xs
  | .str s => indexEntries (s.data.map fun c => Val.str c.toString)
  | .htmlString s => indexEntries (s.data.map fun c => Val.str c.toString)
  | .slotString s instructions =>
    indexEntries (s.data.map fun c => Val.str c.toString) ++
      [("instructions", match instructions with
        | some is => Val.arr is
        | none => Val.null)]
  | _ => []

/-- The function `toStyleString` (line 1474). -/
def toStyleString (obj : Val) : String :=
  ";".intercalate ((objectEntries obj).map fun p => kebab p.1 ++ ":" ++ toStringJS p.2)

/-- The assignment `hash[name] = true` on the object `hash`, given by its
own keys in insertion order. Assigning `true` to `__proto__` does nothing. -/
def hashSet (hash : List String) (name : String) : List String :=
  if name = "__proto__" then hash
  else if hash.contains name then hash
  else hash ++ [name]

/-- The call `Object.keys(hash)`: the array-index keys in ascending order,
then the other keys in insertion order. -/
def hashKeys (hash : List String) : List String :=
  ((hash.filter fun k => (indexOfKey k).isSome).insertionSort
      (fun p q => (indexOfKey p).getD 0 ≤ (indexOfKey q).getD 0)) ++
    hash.filter fun k => (indexOfKey k).isNone

/-- The last branch of `push` in `serializeListValue`, for an item that is
neither iterable nor an object. -/
def pushPrimitive (hash : List String) (item : Val) : List String :=
  let text : String :=
    match item with
    | .bool false => ""
    | .null => ""
    | .undefined => ""
    | v => jsTrim (toStringJS v)
  if text ≠ "" then (splitWhitespace text).foldl hashSet hash else hash

/-- The middle branch of `push`: `Object.keys(item).forEach(...)`, which
pushes the keys whose values are truthy. -/
def pushKeys (hash : List String) (es : List (String × Val)) : List String :=
  es.foldl (fun h p => if p.2.truthy then pushPrimitive h (.str p.1) else h) hash

/-- The test `typeof item.forEach === "function"` of `push` (line 405) on an
object given by its entries: the property `forEach` of the object itself is
a function. -/
def hasForEachMethod (es : List (String × Val)) : Bool :=
  match es.find? fun p => p.1 == "forEach" with
  | some (_, .func _ _) => true
  | _ => false

mutual
/-- The inner function `push` of `serializeListValue` (lines 404-421),
threading the keys of `hash`. The first branch, `item.forEach(push)`, is
taken by an array and by an object with a method `forEach` of its own; the
call of such a method, a function of the model, calls `push` on nothing. -/
def push (hash : List String) : Val → List String
  | .arr xs => pushItems hash xs
  | .obj es => if hasForEachMethod es then hash else pushKeys hash es
  | .htmlString s => pushKeys hash (objectEntries (.htmlString s))
  | .slotString s instructions => pushKeys hash (objectEntries (.slotString s instructions))
  | .func _ _ => hash
  | v => pushPrimitive hash v
/-- The call `item.forEach(push)`. -/
def pushItems (hash : List String) : List Val → List String
  | [] => hash
  | x :: xs => pushItems (push hash x) xs
end

/-- The function `serializeListValue` (lines 401-422). -/
def serializeListValue (value : Val) : String :=
  " ".intercalate (hashKeys (push [] value))

/-- The test `value == null`. -/
def Val.isNullish : Val → Bool
  | .undefined => true
  | .null => true
  | _ => false

/-- The test `value === b` for a boolean `b`. -/
def Val.isBool (b : Bool) : Val → Bool
  | .bool c => c == b
  | _ => false

/-- The test `value === ""`. -/
def Val.isEmptyString : Val → Bool
  | .str s => s == ""
  | _ => false

/-- The function `addAttribute` (lines 1489-1523). The warning that the
branch of the static directives writes to the console is left out. -/
def addAttribute (value : Val) (key : String) (shouldEscape : Bool) : Val :=
  if value.isNullish then .str ""
  else if value.isBool false then
    if testNamesIgnoreCase htmlEnumAttributes key || testNamesIgnoreCase svgEnumAttributes key then
      markHTMLString (.str (" " ++ key ++ "=\"false\""))
    else .str ""
  else if STATIC_DIRECTIVES.contains key then .str ""
  else if key = "class:list" then
    let listValue := toAttributeString (.str (serializeListValue value)) shouldEscape
    if listValue.isEmptyString then .str ""
    else markHTMLString (.str (" " ++ key.dropRight 5 ++ "=\"" ++ toStringJS listValue ++ "\""))
  else if key = "style" && !value.instanceofHTMLString && value.typeofObject then
    markHTMLString (.str (" " ++ key ++ "=\"" ++
      toStringJS (toAttributeString (.str (toStyleString value)) shouldEscape) ++ "\""))
  else if key = "className" then
    markHTMLString (.str (" class=\"" ++ toStringJS (toAttributeString value shouldEscape) ++ "\""))
  else if value.isBool true && ("data-".data.isPrefixOf key.data ||
      testNamesIgnoreCase htmlBooleanAttributes key) then
    markHTMLString (.str (" " ++ key))
  else
    markHTMLString (.str (" " ++ key ++ "=\"" ++
      toStringJS (toAttributeString value shouldEscape) ++ "\""))

/-! ## Props on the heap -/

/-- A value that a prop can hold: a primitive, or a reference to an object. -/
inductive PVal where
  | undefined
  | null
  | bool (b : Bool)
  | num (n : Int)
  | str (s : String)
  | bigint (n : Int)
  | ref (a : Nat)
  deriving DecidableEq, Repr, Inhabited

/-- The objects that `convertToSerializedForm` tells apart by
`Object.prototype.toString`. A valid `Date` is given by the text of its
`toISOString()` and `date none` is the invalid date; a `URL` is given by its
`href`; a regular expression by its `source` and `flags`. Plain objects
list their own enumerable properties in `Object.entries` order. -/
inductive HObj where
  | plain (es : List (String × PVal))
  | array (xs : List PVal)
  | date (iso : Option String)
  | regexp (source : String) (flags : String)
  | map (es : List (PVal × PVal))
  | set (xs : List PVal)
  | url (href : String)
  | uint8Array (xs : List Nat)
  | uint16Array (xs : List Nat)
  | uint32Array (xs : List Nat)
  deriving DecidableEq, Repr, Inhabited

/-- The heap: the object at each address. -/
abbrev Heap := List HObj

/-- The object at an address; an address beyond the list holds an empty
plain object. -/
def Heap.obj (heap : Heap) (a : Nat) : HObj :=
  heap.getD a (.plain [])

/-- The call `Object.entries(value)` on a heap object. -/
def HObj.entries : HObj → List (String × PVal)
  | .plain es => es
  | .array xs => indexEntries xs
  | .uint8Array xs => indexEntries (xs.map fun n => PVal.num n)
  | .uint16Array xs => indexEntries (xs.map fun n => PVal.num n)
  | .uint32Array xs => indexEntries (xs.map fun n => PVal.num n)
  | _ => []

/-! ## JSON -/

/-- The values that the serializer builds and that `JSON.parse` returns. -/
inductive Json where
  | undefined
  | null
  | bool (b : Bool)
  | num (n : Int)
  | str (s : String)
  | arr (xs : List Json)
  | obj (es : List (String × Json))
  deriving Repr, Inhabited

/-- A hexadecimal digit, in lower case. -/
def hexDigit (n : Nat) : Char :=
  if n < 10 then Char.ofNat (48 + n) else Char.ofNat (87 + n)

/-- The escape of one character in `QuoteJSONString`. -/
def quoteJSONChar (c : Char) : List Char :=
  if c = '"' then ['\\', '"']
  else if c = '\\' then ['\\', '\\']
  else if c.val = 8 then ['\\', 'b']
  else if c.val = 9 then ['\\', 't']
  else if c.val = 10 then ['\\', 'n']
  else if c.val = 12 then ['\\', 'f']
  else if c.val = 13 then ['\\', 'r']
  else if c.val < 32 then
    ['\\', 'u', '0', '0', hexDigit (c.toNat / 16), hexDigit (c.toNat % 16)]
  else [c]

/-- The abstract operation `QuoteJSONString`. -/
def quoteJSONString (s : String) : String :=
  ⟨'"' :: s.data.flatMap quoteJSONChar ++ ['"']⟩

mutual
/-- The text that `JSON.stringify` writes (without indentation) for a value
other than `undefined`, and for any item of an array, where `undefined` is
written `null`. -/
def jsonText : Json → String
  | .undefined => "null"
  | .null => "null"
  | .bool b => if b then "true" else "false"
  | .num n => toString n
  | .str s => quoteJSONString s
  | .arr xs => "[" ++ ",".intercalate (jsonItems xs) ++ "]"
  | .obj es => "\x7b" ++ ",".intercalate (jsonMembers es) ++ "\x7d"
/-- The texts of the items of an array. -/
def jsonItems : List Json → List String
  | [] => []
  | x :: xs => jsonText x :: jsonItems xs
/-- The texts of the members of an object; a member whose value is
`undefined` is left out. -/
def jsonMembers : List (String × Json) → List String
  | [] => []
  | (_, .undefined) :: es => jsonMembers es
  | (k, v) :: es => (quoteJSONString k ++ ":" ++ jsonText v) :: jsonMembers es
end

/-- Writing the property `k` of an object given by its entries: an own
property keeps its place and takes the new value. -/
def setEntry {α : Type} (es : List (String × α)) (k : String) (v : α) : List (String × α) :=
  if es.any (fun p => p.1 == k) then es.map fun p => if p.1 == k then (k, v) else p
  else es ++ [(k, v)]

/-- The order of `Object.entries`: the array-index keys in ascending order,
then the other keys in the order in which they were created. -/
def orderEntries {α : Type} (es : List (String × α)) : List (String × α) :=
  ((es.filter fun p => (indexOfKey p.1).isSome).insertionSort
      (fun p q => (indexOfKey p.1).getD 0 ≤ (indexOfKey q.1).getD 0)) ++
    es.filter fun p => (indexOfKey p.1).isNone

/-- The entries of the object that `Object.fromEntries` (or the members of a
JSON text) creates from a list of key-value pairs. -/
def objectFromEntries {α : Type} (es : List (String × α)) : List (String × α) :=
  orderEntries (es.foldl (fun acc p => setEntry acc p.1 p.2) [])

/-! ## Serialization of props -/

/-- The table `PROP_TYPE` (lines 803-815). -/
inductive PROP_TYPE where
  | Value | JSON | RegExp | Date | Map | Set | BigInt | URL
  | Uint8Array | Uint16Array | Uint32Array
  deriving DecidableEq, Repr

/-- The number of a type code. -/
def PROP_TYPE.code : PROP_TYPE → Int
  | .Value => 0
  | .JSON => 1
  | .RegExp => 2
  | .Date => 3
  | .Map => 4
  | .Set => 5
  | .BigInt => 6
  | .URL => 7
  | .Uint8Array => 8
  | .Uint16Array => 9
  | .Uint32Array => 10

/-- The fields of `metadata` that the serializer reads, as the template
literal of the error message writes them. -/
structure Metadata where
  displayName : String
  hydrate : String
  deriving DecidableEq, Repr, Inhabited

/-- The message of the error thrown by `serializeArray` and
`serializeObject` (lines 818-820 and 831-833). -/
def cyclicMessage (metadata : Metadata) : String :=
  "Cyclic reference detected while serializing props for <" ++ metadata.displayName ++
    " client:" ++ metadata.hydrate ++ ">!\n\n" ++
    "Cyclic references cannot be safely serialized for client-side usage. " ++
    "Please remove the cyclic reference."

/-- The identity of an object: an object of the heap, or an array that
`Array.from` created during the serialization (numbered in order of
creation). -/
inductive Ident where
  | heap (a : Nat)
  | fresh (n : Nat)
  deriving DecidableEq, Repr, Inhabited

/-- An argument of `convertToSerializedForm`: a prop value, or an array
created by `Array.from` with its identity and items. -/
inductive Target where
  | val (v : PVal)
  | array (id : Nat) (elems : List Target)
  deriving Repr, Inhabited

/-- The state of a serialization: the members of the WeakSet `parents` and
the number of arrays created so far. -/
structure SerState where
  parents : List Ident
  next : Nat
  deriving DecidableEq, Repr, Inhabited

/-- The call `Array.from(value)` on a Map: a new array of new two-item
arrays `[key, value]`, and the number of arrays created after it. -/
def arrayFromMap (es : List (PVal × PVal)) (next : Nat) : Target × Nat :=
  (.array next (es.enum.map fun p => .array (next + 1 + p.1) [.val p.2.1, .val p.2.2]),
    next + 1 + es.length)

/-- The call `Array.from(value)` on a Set: a new array of its items. -/
def arrayFromSet (xs : List PVal) (next : Nat) : Target × Nat :=
  (.array next (xs.map Target.val), next + 1)

/-- The identity and the items of a new array. -/
def Target.items : Target → Ident × List Target
  | .array id elems => (.fresh id, elems)
  | .val _ => (.fresh 0, [])

/-- A tuple `[typeCode, payload]`. -/
def tagged (t : PROP_TYPE) (payload : Json) : Json :=
  .arr [.num t.code, payload]

/-- The embedding of a primitive in the serialized form. -/
def PVal.toJson : PVal → Json
  | .undefined => .undefined
  | .null => .null
  | .bool b => .bool b
  | .num n => .num n
  | .str s => .str s
  | _ => .undefined

mutual
/-- The function `serializeArray` (lines 816-828) on the array of identity
`id` and items `elems`. -/
def serializeArray (heap : Heap) (metadata : Metadata) :
    Nat → Ident → List Target → SerState → Outcome (Json × SerState)
  | 0, _, _, _ => .pending
  | fuel + 1, id, elems, st =>
    if st.parents.contains id then .thrown "Error" (cyclicMessage metadata)
    else
      match mapOutcome (convertToSerializedForm heap metadata fuel) elems
          { st with parents := id :: st.parents } with
      | .ok (serialized, st1) =>
        .ok (.arr serialized, { st1 with parents := st1.parents.erase id })
      | .thrown n m => .thrown n m
      | .pending => .pending
/-- The function `serializeObject` (lines 829-843) on the object of identity
`id` and entries `entries`. -/
def serializeObject (heap : Heap) (metadata : Metadata) :
    Nat → Ident → List (String × PVal) → SerState → Outcome (Json × SerState)
  | 0, _, _, _ => .pending
  | fuel + 1, id, entries, st =>
    if st.parents.contains id then .thrown "Error" (cyclicMessage metadata)
    else
      match mapOutcome (fun (p : String × PVal) s =>
          match convertToSerializedForm heap metadata fuel (.val p.2) s with
          | .ok (j, s1) => .ok ((p.1, j), s1)
          | .thrown n m => .thrown n m
          | .pending => .pending) entries
          { st with parents := id :: st.parents } with
      | .ok (serialized, st1) =>
        .ok (.obj (objectFromEntries serialized), { st1 with parents := st1.parents.erase id })
      | .thrown n m => .thrown n m
      | .pending => .pending
/-- The function `convertToSerializedForm` (lines 844-891). -/
def convertToSerializedForm (heap : Heap) (metadata : Metadata) :
    Nat → Target → SerState → Outcome (Json × SerState)
  | 0, _, _ => .pending
  | fuel + 1, .array id elems, st =>
    match serializeArray heap metadata fuel (.fresh id) elems st with
    | .ok (j, st1) => .ok (tagged .JSON (.str (jsonText j)), st1)
    | .thrown n m => .thrown n m
    | .pending => .pending
  | fuel + 1, .val (.ref a), st =>
    match heap.obj a with
    | .date (some iso) => .ok (tagged .Date (.str iso), st)
    | .date none => .thrown "RangeError" "Invalid time value"
    | .regexp source _ => .ok (tagged .RegExp (.str source), st)
    | .map es =>
      match serializeArray heap metadata fuel (arrayFromMap es st.next).1.items.1
          (arrayFromMap es st.next).1.items.2 { st with next := (arrayFromMap es st.next).2 } with
      | .ok (j, st1) => .ok (tagged .Map (.str (jsonText j)), st1)
      | .thrown n m => .thrown n m
      | .pending => .pending
    | .set xs =>
      match serializeArray heap metadata fuel (arrayFromSet xs st.next).1.items.1
          (arrayFromSet xs st.next).1.items.2 { st with next := (arrayFromSet xs st.next).2 } with
      | .ok (j, st1) => .ok (tagged .Set (.str (jsonText j)), st1)
      | .thrown n m => .thrown n m
      | .pending => .pending
    | .url href => .ok (tagged .URL (.str href), st)
    | .array xs =>
      match serializeArray heap metadata fuel (.heap a) (xs.map Target.val) st with
      | .ok (j, st1) => .ok (tagged .JSON (.str (jsonText j)), st1)
      | .thrown n m => .thrown n m
      | .pending => .pending
    | .uint8Array xs =>
      .ok (tagged .Uint8Array (.str (jsonText (.arr (xs.map fun n => Json.num n)))), st)
    | .uint16Array xs =>
      .ok (tagged .Uint16Array (.str (jsonText (.arr (xs.map fun n => Json.num n)))), st)
    | .uint32Array xs =>
      .ok (tagged .Uint32Array (.str (jsonText (.arr (xs.map fun n => Json.num n)))), st)
    | .plain es =>
      match serializeObject heap metadata fuel (.heap a) es st with
      | .ok (j, st1) => .ok (tagged .Value j, st1)
      | .thrown n m => .thrown n m
      | .pending => .pending
  | _ + 1, .val (.bigint n), st => .ok (tagged .BigInt (.str (toString n)), st)
  | _ + 1, .val v, st => .ok (tagged .Value v.toJson, st)
end

/-- The function `serializeProps` (lines 892-895) on the props object at
address `props`, with a new WeakSet `parents`. -/
def serializeProps (heap : Heap) (fuel : Nat) (props : Nat) (metadata : Metadata) :
    Outcome String :=
  match serializeObject heap metadata fuel (.heap props) (heap.obj props).entries ⟨[], 0⟩ with
  | .ok (j, _) => .ok (jsonText j)
  | .thrown n m => .thrown n m
  | .pending => .pending

/-! ## `JSON.parse` -/

/-- Skipping the white space of a JSON text. -/
def skipWs : List Char → List Char
  | [] => []
  | c :: cs => if c = ' ' ∨ c = '\t' ∨ c = '\n' ∨ c = '\r' then skipWs cs else c :: cs

/-- The value of a hexadecimal digit. -/
def hexValue (c : Char) : Option Nat :=
  if c.isDigit then some (c.toNat - 48)
  else if 'a'.toNat ≤ c.toNat ∧ c.toNat ≤ 'f'.toNat then some (c.toNat - 87)
  else if 'A'.toNat ≤ c.toNat ∧ c.toNat ≤ 'F'.toNat then some (c.toNat - 55)
  else none

/-- The code unit of the four hexadecimal digits of a `\u` escape. -/
def hex4 (a b c d : Char) : Option Nat :=
  match hexValue a, hexValue b, hexValue c, hexValue d with
  | some x, some y, some z, some w => some (((x * 16 + y) * 16 + z) * 16 + w)
  | _, _, _, _ => none

/-- The characters of a JSON string after its opening quote, read up to
the closing quote; `acc` holds the characters read, in reverse. The escape
of a surrogate code unit is not in the model and gives `none`. -/
def parseStringBody : List Char → List Char → Option (String × List Char)
  | [], _ => none
  | '"' :: rest, acc => some (⟨acc.reverse⟩, rest)
  | '\\' :: '"' :: rest, acc => parseStringBody rest ('"' :: acc)
  | '\\' :: '\\' :: rest, acc => parseStringBody rest ('\\' :: acc)
  | '\\' :: '/' :: rest, acc => parseStringBody rest ('/' :: acc)
  | '\\' :: 'b' :: rest, acc => parseStringBody rest (Char.ofNat 8 :: acc)
  | '\\' :: 'f' :: rest, acc => parseStringBody rest (Char.ofNat 12 :: acc)
  | '\\' :: 'n' :: rest, acc => parseStringBody rest ('\n' :: acc)
  | '\\' :: 'r' :: rest, acc => parseStringBody rest ('\r' :: acc)
  | '\\' :: 't' :: rest, acc => parseStringBody rest ('\t' :: acc)
  | '\\' :: 'u' :: a :: b :: c :: d :: rest, acc =>
    match hex4 a b c d with
    | some n =>
      if 0xD800 ≤ n ∧ n ≤ 0xDFFF then none
      else parseStringBody rest (Char.ofNat n :: acc)
    | none => none
  | '\\' :: _, _ => none
  | c :: rest, acc => if c.val < 32 then none else parseStringBody rest (c :: acc)

/-- A JSON number. Only the integers are in the model: a fraction or an
exponent gives `none`. -/
def parseNumber (cs : List Char) : Option (Int × List Char) :=
  let body := match cs with
    | '-' :: r => r
    | _ => cs
  let ds := body.takeWhile Char.isDigit
  let rest := body.dropWhile Char.isDigit
  if ds = [] ∨ (1 < ds.length ∧ ds.head? = some '0') then none
  else if rest.head? = some '.' ∨ rest.head? = some 'e' ∨ rest.head? = some 'E' then none
  else
    match cs with
    | '-' :: _ => some (-(digitsValue ds : Int), rest)
    | _ => some ((digitsValue ds : Int), rest)

mutual
/-- A JSON value at the head of a text, and the text after it. -/
def parseValue : Nat → List Char → Option (Json × List Char)
  | 0, _ => none
  | fuel + 1, cs =>
    match skipWs cs with
    | 'n' :: 'u' :: 'l' :: 'l' :: r => some (.null, r)
    | 't' :: 'r' :: 'u' :: 'e' :: r => some (.bool true, r)
    | 'f' :: 'a' :: 'l' :: 's' :: 'e' :: r => some (.bool false, r)
    | '"' :: r =>
      match parseStringBody r [] with
      | some (s, r1) => some (.str s, r1)
      | none => none
    | '[' :: r =>
      match skipWs r with
      | ']' :: r1 => some (.arr [], r1)
      | r1 =>
        match parseElements fuel r1 with
        | some (xs, r2) => some (.arr xs, r2)
        | none => none
    | '\x7b' :: r =>
      match skipWs r with
      | '\x7d' :: r1 => some (.obj [], r1)
      | r1 =>
        match parseMembers fuel r1 with
        | some (es, r2) => some (.obj (objectFromEntries es), r2)
        | none => none
    | r =>
      match parseNumber r with
      | some (n, r1) => some (.num n, r1)
      | none => none
/-- The items of an array after `[`, up to and with the closing `]`. -/
def parseElements : Nat → List Char → Option (List Json × List Char)
  | 0, _ => none
  | fuel + 1, cs =>
    match parseValue fuel cs with
    | some (v, r) =>
      match skipWs r with
      | ',' :: r1 =>
        match parseElements fuel r1 with
        | some (vs, r2) => some (v :: vs, r2)
        | none => none
      | ']' :: r1 => some ([v], r1)
      | _ => none
    | none => none
/-- The members of an object after the opening brace, up to and with the
closing brace. -/
def parseMembers : Nat → List Char → Option (List (String × Json) × List Char)
  | 0, _ => none
  | fuel + 1, cs =>
    match skipWs cs with
    | '"' :: r =>
      match parseStringBody r [] with
      | some (k, r1) =>
        match skipWs r1 with
        | ':' :: r2 =>
          match parseValue fuel r2 with
          | some (v, r3) =>
            match skipWs r3 with
            | ',' :: r4 =>
              match parseMembers fuel r4 with
              | some (es, r5) => some ((k, v) :: es, r5)
              | none => none
            | '\x7d' :: r4 => some ([(k, v)], r4)
            | _ => none
          | none => none
        | _ => none
      | none => none
    | _ => none
end

/-- The call `JSON.parse(text)` without a reviver; `none` is a SyntaxError
(or a text outside the model). Every call of the parser consumes a
character, so the length of the text is fuel enough. -/
def jsonParse (text : String) : Option Json :=
  match parseValue (text.data.length + 1) text.data with
  | some (v, rest) => if skipWs rest = [] then some v else none
  | none => none

/-! ## The deserializer of the island -/

/-- The values that the deserializer of `astro_island_prebuilt_default`
(line 357) builds: the values of a JSON text and the objects that its
type-code table creates. Every object is a new one. -/
inductive Data where
  | undefined
  | null
  | bool (b : Bool)
  | num (n : Int)
  | str (s : String)
  | bigint (n : Int)
  | arr (xs : List Data)
  | obj (es : List (String × Data))
  | regexp (source : String) (flags : String)
  | date (iso : Option String)
  | map (es : List (Data × Data))
  | set (xs : List Data)
  | url (href : String)
  | uint8Array (xs : List Nat)
  | uint16Array (xs : List Nat)
  | uint32Array (xs : List Nat)
  deriving Repr, Inhabited

/-- The embedding of a value without items. -/
def Json.leaf : Json → Data
  | .undefined => .undefined
  | .null => .null
  | .bool b => .bool b
  | .num n => .num n
  | .str s => .str s
  | .arr _ => .arr []
  | .obj _ => .obj []

/-- The comparison SameValueZero of the keys of a Map and the items of a
Set: primitives are compared by value, and an object is equal to itself
only, so never to another entry of the list it comes from. -/
def Data.sameValueZero : Data → Data → Bool
  | .undefined, .undefined => true
  | .null, .null => true
  | .bool a, .bool b => a == b
  | .num a, .num b => a == b
  | .str a, .str b => a == b
  | .bigint a, .bigint b => a == b
  | _, _ => false

/-- The call `map.set(k, v)` on the entries of a Map. -/
def mapSet (es : List (Data × Data)) (k v : Data) : List (Data × Data) :=
  if es.any (fun p => p.1.sameValueZero k) then
    es.map fun p => if p.1.sameValueZero k then (p.1, v) else p
  else es ++ [(k, v)]

/-- The call `set.add(x)` on the items of a Set. -/
def setAdd (xs : List Data) (x : Data) : List Data :=
  if xs.any (fun y => y.sameValueZero x) then xs else xs ++ [x]

/-- The property `name` of an entry object, read by the Map constructor;
`none` when the entry is not an object. -/
def entryItem (entry : Data) (i : Nat) : Option Data :=
  match entry with
  | .arr xs => some (xs.getD i .undefined)
  | .obj es => some (((es.find? fun p => p.1 == toString i).map Prod.snd).getD .undefined)
  | .undefined => none
  | .null => none
  | .bool _ => none
  | .num _ => none
  | .str _ => none
  | .bigint _ => none
  | _ => some .undefined

/-- The call `new Map(iterable)` for the results of `JSON.parse`. -/
def newMap : Data → Outcome Data
  | .arr xs =>
    xs.foldl (fun acc entry =>
      match acc, entryItem entry 0, entryItem entry 1 with
      | .ok (.map es), some k, some v => .ok (.map (mapSet es k v))
      | .ok _, _, _ => .thrown "TypeError" "Iterator value is not an entry object"
      | other, _, _ => other) (.ok (.map []))
  | .undefined => .ok (.map [])
  | .null => .ok (.map [])
  | .str s =>
    if s = "" then .ok (.map []) else .thrown "TypeError" "Iterator value is not an entry object"
  | _ => .thrown "TypeError" "object is not iterable"

/-- The call `new Set(iterable)` for the results of `JSON.parse`. -/
def newSet : Data → Outcome Data
  | .arr xs => .ok (.set (xs.foldl setAdd []))
  | .undefined => .ok (.set [])
  | .null => .ok (.set [])
  | .str s => .ok (.set ((s.data.map fun c => Data.str c.toString).foldl setAdd []))
  | _ => .thrown "TypeError" "object is not iterable"

/-- The numbers of an array given to the constructor of a typed array with
items of `bits` bits; `none` for an argument outside the model. -/
def typedItems (bits : Nat) : Data → Option (List Nat)
  | .arr xs =>
    xs.foldr (fun x acc =>
      match x, acc with
      | .num n, some ns => some ((n % (2 ^ bits : Int)).toNat :: ns)
      | _, _ => none) (some [])
  | .null => some []
  | .undefined => some []
  | _ => none

/-- The conversion `ToString` of a primitive payload; `none` for an object. -/
def payloadText : Data → Option String
  | .undefined => some "undefined"
  | .null => some "null"
  | .bool b => some (if b then "true" else "false")
  | .num n => some (toString n)
  | .str s => some s
  | .bigint n => some (toString n)
  | _ => none

/-- The result for an input that the model does not cover. -/
def unmodelled {α : Type} (what : String) : Outcome α :=
  .thrown "Unmodelled" what

/-- The test `e in c` on the type-code table `c` and the key it selects:
the own keys of `c` are `"0"` to `"10"`. A key that `c` inherits from
`Object.prototype`, or an object used as a key, gives `none`. -/
def typeCodeOf : Data → Option (Option Nat)
  | .num n => some (if 0 ≤ n ∧ n ≤ 10 then some n.toNat else none)
  | .str s =>
    match indexOfKey s with
    | some n => some (if n ≤ 10 then some n else none)
    | none =>
      if ["constructor", "toString", "toLocaleString", "valueOf", "hasOwnProperty",
          "isPrototypeOf", "propertyIsEnumerable", "__proto__", "__defineGetter__",
          "__defineSetter__", "__lookupGetter__", "__lookupSetter__"].contains s then none
      else some none
  | .undefined => some none
  | .null => some none
  | .bool _ => some none
  | .bigint n => some (if 0 ≤ n ∧ n ≤ 10 then some n.toNat else none)
  | _ => none

/-- The call `BigInt(t)` on a text: an optional sign and decimal digits, or
the empty text. -/
def bigIntOfText (t : String) : Outcome Data :=
  let body := match t.data with
    | '-' :: r => r
    | '+' :: r => r
    | cs => cs
  if t.data = [] then .ok (.bigint 0)
  else if body ≠ [] ∧ body.all Char.isDigit then
    match t.data with
    | '-' :: _ => .ok (.bigint (-(digitsValue body : Int)))
    | _ => .ok (.bigint (digitsValue body))
  else unmodelled "BigInt of a text that is no decimal numeral"

/-- The items of an array after each has been revived by `f` under its
index. -/
def reviveItems (f : String → Json → Outcome Data) : Nat → List Json → Outcome (List Data)
  | _, [] => .ok []
  | i, x :: xs =>
    match f (toString i) x with
    | .ok y =>
      match reviveItems f (i + 1) xs with
      | .ok ys => .ok (y :: ys)
      | .thrown n m => .thrown n m
      | .pending => .pending
    | .thrown n m => .thrown n m
    | .pending => .pending

/-- The members of an object after each has been revived by `f` under its
key; a member revived to `undefined` is deleted. -/
def reviveMembers (f : String → Json → Outcome Data) :
    List (String × Json) → Outcome (List (String × Data))
  | [] => .ok []
  | (k, x) :: es =>
    match f k x with
    | .ok y =>
      match reviveMembers f es with
      | .ok ys =>
        match y with
        | .undefined => .ok ys
        | _ => .ok ((k, y) :: ys)
      | .thrown n m => .thrown n m
      | .pending => .pending
    | .thrown n m => .thrown n m
    | .pending => .pending

mutual
/-- The operation `InternalizeJSONProperty` of `JSON.parse(text, o)`: the
items of `val` are revived first, then the reviver `o` is called with the
key and the value. -/
def internalize (newRegExp : String → Except String String) :
    Nat → String → Json → Outcome Data
  | 0, _, _ => .pending
  | fuel + 1, key, .arr xs =>
    match reviveItems (internalize newRegExp fuel) 0 xs with
    | .ok ys => reviver newRegExp fuel key (.arr ys)
    | .thrown n m => .thrown n m
    | .pending => .pending
  | fuel + 1, key, .obj es =>
    match reviveMembers (internalize newRegExp fuel) es with
    | .ok ys => reviver newRegExp fuel key (.obj ys)
    | .thrown n m => .thrown n m
    | .pending => .pending
  | fuel + 1, key, v => reviver newRegExp fuel key v.leaf
/-- The reviver `o` of the island (line 357):
`(t,s)=>{if(t===""||!Array.isArray(s))return s;const[e,n]=s;return e in c?c[e](n):void 0}`. -/
def reviver (newRegExp : String → Except String String) :
    Nat → String → Data → Outcome Data
  | 0, _, _ => .pending
  | fuel + 1, t, s =>
    if t = "" then .ok s
    else
      match s with
      | .arr xs =>
        match typeCodeOf (xs.getD 0 .undefined) with
        | some (some code) => typeCodeTable newRegExp fuel code (xs.getD 1 .undefined)
        | some none => .ok .undefined
        | none => unmodelled "a type code inherited from Object.prototype"
      | _ => .ok s
/-- The entry `c[code]` of the type-code table of the island, applied to the
payload `t`. The constructor of the platform `new RegExp(text)`, without
flags, is the parameter `newRegExp`: it gives the `source` of the regular
expression, or the message of the `SyntaxError` that it throws for a text
that is no pattern. A text given to `new Date` or `new URL` is taken to be
the ISO text or the href of the object. -/
def typeCodeTable (newRegExp : String → Except String String) :
    Nat → Nat → Data → Outcome Data
  | 0, _, _ => .pending
  | fuel + 1, code, t =>
    match code with
    | 0 => .ok t
    | 1 => jsonParseWith newRegExp fuel t
    | 2 =>
      match t with
      | .str s =>
        match newRegExp s with
        | .ok source => .ok (.regexp source "")
        | .error message => .thrown "SyntaxError" message
      | _ => unmodelled "new RegExp of a value that is no string"
    | 3 =>
      match t with
      | .str s => .ok (.date (some s))
      | _ => unmodelled "new Date of a value that is no string"
    | 4 =>
      match jsonParseWith newRegExp fuel t with
      | .ok d => newMap d
      | .thrown n m => .thrown n m
      | .pending => .pending
    | 5 =>
      match jsonParseWith newRegExp fuel t with
      | .ok d => newSet d
      | .thrown n m => .thrown n m
      | .pending => .pending
    | 6 =>
      match t with
      | .str s => bigIntOfText s
      | .num n => .ok (.bigint n)
      | _ => unmodelled "BigInt of a value that is no string"
    | 7 =>
      match t with
      | .str s => .ok (.url s)
      | _ => unmodelled "new URL of a value that is no string"
    | 8 => typedArray newRegExp fuel 8 t
    | 9 => typedArray newRegExp fuel 16 t
    | 10 => typedArray newRegExp fuel 32 t
    | _ => .ok .undefined
/-- The entries `t=>new Uint8Array(JSON.parse(t))` and its like, which parse
without the reviver. -/
def typedArray (newRegExp : String → Except String String) :
    Nat → Nat → Data → Outcome Data
  | 0, _, _ => .pending
  | fuel + 1, bits, t =>
    match payloadText t with
    | none => unmodelled "JSON.parse of an object"
    | some text =>
      match jsonParse text with
      | none => .thrown "SyntaxError" "JSON.parse"
      | some j =>
        match internalizeRaw newRegExp fuel j with
        | .ok d =>
          match typedItems bits d with
          | some ns =>
            if bits = 8 then .ok (.uint8Array ns)
            else if bits = 16 then .ok (.uint16Array ns)
            else .ok (.uint32Array ns)
          | none => unmodelled "a typed array of a value that is no array of numbers"
        | .thrown n m => .thrown n m
        | .pending => .pending
/-- The result of `JSON.parse` without a reviver, as a value. -/
def internalizeRaw (newRegExp : String → Except String String) :
    Nat → Json → Outcome Data
  | 0, _ => .pending
  | fuel + 1, .arr xs =>
    match reviveItems (fun _ x => internalizeRaw newRegExp fuel x) 0 xs with
    | .ok ys => .ok (.arr ys)
    | .thrown n m => .thrown n m
    | .pending => .pending
  | fuel + 1, .obj es =>
    match reviveMembers (fun _ x => internalizeRaw newRegExp fuel x) es with
    | .ok ys => .ok (.obj ys)
    | .thrown n m => .thrown n m
    | .pending => .pending
  | _ + 1, v => .ok v.leaf
/-- The call `JSON.parse(t, o)`. -/
def jsonParseWith (newRegExp : String → Except String String) :
    Nat → Data → Outcome Data
  | 0, _ => .pending
  | fuel + 1, t =>
    match payloadText t with
    | none => unmodelled "JSON.parse of an object"
    | some text =>
      match jsonParse text with
      | none => .thrown "SyntaxError" "JSON.parse"
      | some j => internalize newRegExp fuel "" j
end

/-- The props that the island reads back from its `props` attribute:
`JSON.parse(this.getAttribute("props"), o)`. -/
def deserializeProps (newRegExp : String → Except String String) (fuel : Nat)
    (text : String) : Outcome Data :=
  jsonParseWith newRegExp fuel (.str text)

/-- Reviving one serialized form `[typeCode, payload]` found under the key
`key`: what `JSON.parse(text, o)` puts in the place of the tuple. -/
def deserializeForm (newRegExp : String → Except String String) (fuel : Nat)
    (key : String) (form : Json) : Outcome Data :=
  internalize newRegExp fuel key form

/-! ## Props as values -/

/-- Running `f` on the items of a list, stopping at the first `none`. -/
def mapOption {α β : Type} (f : α → Option β) : List α → Option (List β)
  | [] => some []
  | x :: xs =>
    match f x, mapOption f xs with
    | some y, some ys => some (y :: ys)
    | _, _ => none

/-- The value that a prop denotes, read off the heap to the depth `fuel`:
the value with which a deserialized prop is compared. -/
def unfold (heap : Heap) : Nat → PVal → Option Data
  | _, .undefined => some .undefined
  | _, .null => some .null
  | _, .bool b => some (.bool b)
  | _, .num n => some (.num n)
  | _, .str s => some (.str s)
  | _, .bigint n => some (.bigint n)
  | 0, .ref _ => none
  | fuel + 1, .ref a =>
    match heap.obj a with
    | .plain es =>
      (mapOption (fun (p : String × PVal) => (unfold heap fuel p.2).map fun d => (p.1, d)) es).map
        Data.obj
    | .array xs => (mapOption (unfold heap fuel) xs).map Data.arr
    | .date iso => some (.date iso)
    | .regexp source flags => some (.regexp source flags)
    | .map es =>
      (mapOption (fun (p : PVal × PVal) =>
        match unfold heap fuel p.1, unfold heap fuel p.2 with
        | some k, some v => some (k, v)
        | _, _ => none) es).map Data.map
    | .set xs => (mapOption (unfold heap fuel) xs).map Data.set
    | .url href => some (.url href)
    | .uint8Array xs => some (.uint8Array xs)
    | .uint16Array xs => some (.uint16Array xs)
    | .uint32Array xs => some (.uint32Array xs)

/-! ## The spec's wording of some operations -/

/-- The escaping of an attribute value as the spec words it: one pass over
the value in which every `&` becomes `&#38;` and every `"` becomes `&#34;`,
the text written for one character never being looked at again. -/
def escapeAttributeSinglePass (v : String) : String :=
  ⟨v.data.flatMap fun c =>
    if c = '&' then "&#38;".data else if c = '"' then "&#34;".data else [c]⟩

/-- The instructions that a `SlotString` carries: the items of its
`instructions` array, none for `null` and for another value. -/
def Val.instructionList : Val → List Val
  | .slotString _ (some is) => is
  | _ => []

/-- Every array that `Array.from` created and that is a member of `parents`
was created before the next one. -/
def FreshBelow (st : SerState) : Prop :=
  ∀ n, Ident.fresh n ∈ st.parents → n < st.next

/-- What a call that returns leaves of the state: the members of `parents`
are those before the call, and no array that was created is forgotten. -/
def Restores (st st1 : SerState) : Prop :=
  st1.parents = st.parents ∧ st.next ≤ st1.next

/-! ## The graph of the props -/

/-- The prop values that an object holds itself: the values of the
properties of a plain object, the items of an array or a Set, the keys and
values of a Map. -/
def HObj.values : HObj → List PVal
  | .plain es => es.map Prod.snd
  | .array xs => xs
  | .map es => es.flatMap fun p => [p.1, p.2]
  | .set xs => xs
  | _ => []

/-- The test for a plain object or an array. -/
def HObj.isPlainOrArray : HObj → Bool
  | .plain _ => true
  | .array _ => true
  | _ => false

/-- The test for a Map or a Set. -/
def HObj.isMapOrSet : HObj → Bool
  | .map _ => true
  | .set _ => true
  | _ => false

/-- The object at `a` holds a reference to the object at `b`. -/
def Edge (heap : Heap) (a b : Nat) : Prop :=
  PVal.ref b ∈ (heap.obj a).values

/-- The plain object or array at `a` holds a reference to the object at `b`. -/
def Child (heap : Heap) (a b : Nat) : Prop :=
  (heap.obj a).isPlainOrArray = true ∧ Edge heap a b

/-- The Map or Set at `a` holds a reference to the Map or Set at `b`. -/
def MapEdge (heap : Heap) (a b : Nat) : Prop :=
  (heap.obj a).isMapOrSet = true ∧ Edge heap a b ∧ (heap.obj b).isMapOrSet = true

/-- The number of objects of the heap that are not members of `parents`. -/
def freeCount (heap : Heap) (parents : List Ident) : Nat :=
  ((Finset.range heap.length).filter fun a => Ident.heap a ∉ parents).card

/-- The function `kebab` as the spec words it: every upper-case letter
becomes `-` followed by its lower-case form, every other character is kept. -/
def kebabSpec (k : String) : String :=
  ⟨k.data.flatMap fun c => if c.isUpper then ['-', c.toLower] else [c]⟩

/-- The text of a style object as the spec words it: the entries in order,
each written as the kebab form of its key, `:` and its value, joined by `;`. -/
def styleTextSpec (es : List (String × Val)) : String :=
  ";".intercalate (es.map fun p => kebabSpec p.1 ++ ":" ++ toStringJS p.2)

/-! ## Elements -/

/-- The characters matched by `\w`. -/
def isWordChar (c : Char) : Bool :=
  c.isAlphanum || c = '_'

/-- The replacement loop of `toIdent` on the characters of the trimmed key:
`prev` is the character before the current one. A run of characters that
are no word characters is removed, and a word character that follows such a
character is written in upper case. -/
def toIdentChars : Option Char → List Char → List Char
  | _, [] => []
  | prev, c :: cs =>
    if isWordChar c then
      (match prev with
        | some p => if isWordChar p then c else c.toUpper
        | none => c) :: toIdentChars (some c) cs
    else toIdentChars (some c) cs

/-- The function `toIdent` (lines 1467-1471). -/
def toIdent (k : String) : String :=
  ⟨toIdentChars none (jsTrim k).data⟩

mutual
/-- The value that `JSON.stringify` serializes for a value of the renderer:
a `String` object is its text, a function is `undefined`. -/
def valJson : Val → Json
  | .undefined => .undefined
  | .null => .null
  | .bool b => .bool b
  | .num n => .num n
  | .str s => .str s
  | .htmlString s => .str s
  | .slotString s _ => .str s
  | .arr xs => .arr (valJsonItems xs)
  | .obj es => .obj (valJsonMembers es)
  | .func _ _ => .undefined
/-- The items of an array. -/
def valJsonItems : List Val → List Json
  | [] => []
  | x :: xs => valJson x :: valJsonItems xs
/-- The members of an object. -/
def valJsonMembers : List (String × Val) → List (String × Json)
  | [] => []
  | (k, v) :: es => (k, valJson v) :: valJsonMembers es
end

/-- The text of `${JSON.stringify(value)}` in a template literal. -/
def jsonStringifyText (value : Val) : String :=
  match valJson value with
  | .undefined => "undefined"
  | j => jsonText j

/-- The function `defineScriptVars` (lines 1475-1482). -/
def defineScriptVars (vars : Val) : Val :=
  markHTMLString (.str ((objectEntries vars).foldl
    (fun output p => output ++ "const " ++ toIdent p.1 ++ " = " ++ jsonStringifyText p.2 ++ ";\n")
    ""))

/-- The function `internalSpreadAttributes` (lines 1524-1530). -/
def internalSpreadAttributes (values : List (String × Val)) (shouldEscape : Bool) : Val :=
  markHTMLString (.str (values.foldl
    (fun output p => output ++ toStringJS (addAttribute p.2 p.1 shouldEscape)) ""))

/-- The comparison `children == ""`. -/
def Val.looseEqEmpty : Val → Bool
  | .undefined => false
  | .null => false
  | .bool b => !b
  | .num n => n == 0
  | .str s => s == ""
  | .htmlString s => s == ""
  | .slotString s _ => s == ""
  | .arr xs => toStringJS (.arr xs) == ""
  | .obj _ => false
  | .func src _ => src == ""

/-- The property `name` of an object given by its entries. -/
def lookup (es : List (String × Val)) (name : String) : Val :=
  ((es.find? fun p => p.1 == name).map Prod.snd).getD .undefined

/-- The entries of an object without the properties of the given names. -/
def withoutKeys (es : List (String × Val)) (names : List String) : List (String × Val) :=
  es.filter fun p => !names.contains p.1

/-- The props that `renderElement` writes as attributes: `lang`,
`data-astro-id` and `define:vars` are taken out, and with `define:vars` so
are `is:global` and `is:scoped` of a `style` and `hoist` of a `script`. -/
def elementProps (name : String) (_props : List (String × Val)) : List (String × Val) :=
  let props := withoutKeys _props ["lang", "data-astro-id", "define:vars"]
  if (lookup _props "define:vars").truthy then
    let props1 := if name = "style" then withoutKeys props ["is:global", "is:scoped"] else props
    if name = "script" then withoutKeys props1 ["hoist"] else props1
  else props

/-- The children that `renderElement` writes: `""` stands in for
`undefined`, and the variables of `define:vars` come first in a `script`. -/
def elementChildren (name : String) (_props : List (String × Val)) (children : Val) : Val :=
  let children0 : Val :=
    match children with
    | .undefined => .str ""
    | c => c
  if (lookup _props "define:vars").truthy && name = "script" then
    .str (toStringJS (defineScriptVars (lookup _props "define:vars")) ++ "\n" ++
      toStringJS children0)
  else children0

/-- The function `renderElement` (lines 1531-1547), with the fields `props`
and `children` of its second argument. -/
def renderElement (name : String) (_props : List (String × Val)) (children : Val)
    (shouldEscape : Bool) : String :=
  let props := elementProps name _props
  let children1 := elementChildren name _props children
  if (children1.isNullish || children1.looseEqEmpty) &&
      testNamesIgnoreCase voidElementNames name then
    "<" ++ name ++ toStringJS (internalSpreadAttributes props shouldEscape) ++ " />"
  else
    "<" ++ name ++ toStringJS (internalSpreadAttributes props shouldEscape) ++ ">" ++
      toStringJS children1 ++ "</" ++ name ++ ">"

mutual
/-- The class names that a `class:list` value selects, as the spec words
it: the tokens of its string leaves and of the keys of its objects whose
values are truthy, through any nesting of arrays. -/
def selectedNames : Val → List String
  | .str s => splitWhitespace (jsTrim s)
  | .arr xs => selectedNamesItems xs
  | .obj es => es.flatMap fun p => if p.2.truthy then splitWhitespace (jsTrim p.1) else []
  | _ => []
/-- The names that the items of an array select. -/
def selectedNamesItems : List Val → List String
  | [] => []
  | x :: xs => selectedNames x ++ selectedNamesItems xs
end

mutual
/-- A nested mixture of strings, arrays and objects that have no method
`forEach` of their own. -/
def isClassList : Val → Bool
  | .str _ => true
  | .arr xs => isClassListItems xs
  | .obj es => !hasForEachMethod es
  | _ => false
/-- Every item is such a mixture. -/
def isClassListItems : List Val → Bool
  | [] => true
  | x :: xs => isClassList x && isClassListItems xs
end

/-! ## Hydration directives -/

/-- The list `HydrationDirectivesRaw` (line 897). -/
def HydrationDirectivesRaw : List String := ["load", "idle", "media", "visible", "only"]

/-- The record `extracted.hydration`; `componentExport` is the field
`componentExport.value`. -/
structure Hydration where
  directive : String
  value : Val
  componentUrl : Val
  componentExport : Val
  deriving Repr, Inhabited

/-- The record `extracted` of `extractDirectives`; `props` lists its
properties in the order of their creation. -/
structure Extracted where
  isPage : Bool
  hydration : Option Hydration
  props : List (String × Val)
  deriving Repr, Inhabited

/-- The text `key.split(":")[1]` for a key that starts with `client:`. -/
def directiveOfKey (key : String) : String :=
  ⟨(key.data.drop 7).takeWhile fun c => c != ':'⟩

/-- The message of the error for an unknown directive (lines 937-941). -/
def invalidDirectiveMessage (key : String) : String :=
  "Error: invalid hydration directive \"" ++ key ++ "\". Supported hydration methods: " ++
    ", ".intercalate (HydrationDirectivesRaw.map fun n => "client:" ++ n)

/-- The message of `AstroErrorData.MissingMediaQueryDirective` (line 546). -/
def missingMediaQueryMessage : String :=
  "Media query not provided for " ++ "\x60client:media\x60" ++
    " directive. A media query similar to " ++
    "\x60client:media=\"(max-width: 600px)\"\x60" ++ " must be provided"

/-- The record that `extractDirectives` creates at the first `client:` key. -/
def Hydration.empty : Hydration :=
  ⟨"", .str "", .str "", .str ""⟩

/-- The first test of the loop of `extractDirectives` (lines 907-911): the key
`server:root` marks a page. -/
def markPage (extracted : Extracted) (key : String) : Extracted :=
  if "server:".data.isPrefixOf key.data && key = "server:root" then
    { extracted with isPage := true }
  else extracted

/-- One turn of the loop of `extractDirectives` (lines 906-957), on the
entry `key`, `value`. -/
def extractStep (extracted : Extracted) (key : String) (value : Val) : Outcome Extracted :=
  let extracted1 : Extracted := markPage extracted key
  if "client:".data.isPrefixOf key.data then
    let hydration : Hydration := extracted1.hydration.getD Hydration.empty
    if key = "client:component-path" then
      .ok { extracted1 with hydration := some { hydration with componentUrl := value } }
    else if key = "client:component-export" then
      .ok { extracted1 with hydration := some { hydration with componentExport := value } }
    else if key = "client:component-hydration" then
      .ok { extracted1 with hydration := some hydration }
    else if key = "client:display-name" then
      .ok { extracted1 with hydration := some hydration }
    else if !HydrationDirectivesRaw.contains (directiveOfKey key) then
      .thrown "Error" (invalidDirectiveMessage key)
    else if directiveOfKey key = "media" && !value.isPrimitiveString then
      .thrown "MissingMediaQueryDirective" missingMediaQueryMessage
    else
      .ok { extracted1 with
        hydration := some { hydration with directive := directiveOfKey key, value := value } }
  else if key = "class:list" then
    if value.truthy then
      .ok { extracted1 with
        props := setEntry extracted1.props (key.dropRight 5) (.str (serializeListValue value)) }
    else .ok extracted1
  else .ok { extracted1 with props := setEntry extracted1.props key value }

/-- The loop of `extractDirectives` over the entries of the props. -/
def extractLoop : Extracted → List (String × Val) → Outcome Extracted
  | extracted, [] => .ok extracted
  | extracted, (key, value) :: rest =>
    match extractStep extracted key value with
    | .ok extracted1 => extractLoop extracted1 rest
    | .thrown n m => .thrown n m
    | .pending => .pending

/-- The function `extractDirectives` (lines 900-963) on the entries of
`inputProps`; the display name is not used, and no property has a symbol
for its key. -/
def extractDirectives (_displayName : String) (inputProps : List (String × Val)) :
    Outcome Extracted :=
  extractLoop ⟨false, none, []⟩ inputProps

/-- The keys starting with `client:` that carry no directive. -/
def clientBookkeepingKeys : List String :=
  ["client:component-path", "client:component-export", "client:component-hydration",
    "client:display-name"]

/-- A key that names no directive: it does not start with `client:`, or it
is one of the bookkeeping keys. -/
def isPlainKey (key : String) : Bool :=
  !"client:".data.isPrefixOf key.data || clientBookkeepingKeys.contains key

/-- An entry of the props at which `extractDirectives` throws, as the
amended specification words it: the key starts with `client:`, it is none of
the four bookkeeping keys, and the part of the key between its first and its
second colon is none of the five directives, or it is `media` and the value
is no string. -/
def throwingEntry (p : String × Val) : Bool :=
  "client:".data.isPrefixOf p.1.data &&
    !(["client:component-path", "client:component-export", "client:component-hydration",
      "client:display-name"].contains p.1) &&
    (!(["load", "idle", "media", "visible", "only"].contains (directiveOfKey p.1)) ||
      (directiveOfKey p.1 == "media" && !p.2.isPrimitiveString))

/-! ## Hydration scripts -/

/-- The texts of the prebuilt scripts (lines 347-357): those of the five
directives and `astro_island_prebuilt_default`. -/
structure Prebuilt where
  idle : String
  load : String
  only : String
  media : String
  visible : String
  island : String
  deriving Repr, Inhabited

/-- The fields `hasHydrationScript` and `hasDirectives` of
`result._metadata`. -/
structure RenderMeta where
  hasHydrationScript : Bool
  hasDirectives : List String
  deriving DecidableEq, Repr, Inhabited

/-- The function `determineIfNeedsHydrationScript` (lines 359-364). -/
def determineIfNeedsHydrationScript (m : RenderMeta) : Bool × RenderMeta :=
  if m.hasHydrationScript then (false, m)
  else (true, { m with hasHydrationScript := true })

/-- The function `determinesIfNeedsDirectiveScript` (lines 372-378). -/
def determinesIfNeedsDirectiveScript (m : RenderMeta) (directive : String) :
    Bool × RenderMeta :=
  if m.hasDirectives.contains directive then (false, m)
  else (true, { m with hasDirectives := m.hasDirectives ++ [directive] })

/-- The table `hydrationScripts` (lines 365-371); `none` for a name that is
no key of the table. -/
def hydrationScripts (p : Prebuilt) (directive : String) : Option String :=
  if directive = "idle" then some p.idle
  else if directive = "load" then some p.load
  else if directive = "only" then some p.only
  else if directive = "media" then some p.media
  else if directive = "visible" then some p.visible
  else none

/-- The function `getDirectiveScriptText` (lines 379-385). -/
def getDirectiveScriptText (p : Prebuilt) (directive : String) : Outcome String :=
  match hydrationScripts p directive with
  | some text => .ok text
  | none => .thrown "Error" ("Unknown directive: " ++ directive)

/-- The function `getPrescripts` (lines 386-394). -/
def getPrescripts (p : Prebuilt) (type : String) (directive : String) : Outcome String :=
  if type = "both" then
    match getDirectiveScriptText p directive with
    | .ok text =>
      .ok ("<style>astro-island,astro-slot\x7bdisplay:contents\x7d</style><script>" ++
        (text ++ p.island) ++ "</script>")
    | .thrown n m => .thrown n m
    | .pending => .pending
  else if type = "directive" then
    match getDirectiveScriptText p directive with
    | .ok text => .ok ("<script>" ++ text ++ "</script>")
    | .thrown n m => .thrown n m
    | .pending => .pending
  else .ok ""

/-- The branch `case "directive"` of `stringifyChunk` (lines 1148-1159), for
the value `hydration` of the chunk. The directive of the record is read as
a text. -/
def stringifyDirective (p : Prebuilt) (m : RenderMeta) (hydration : Val) :
    Outcome (Val × RenderMeta) :=
  if hydration.truthy then
    let directive := toStringJS (lookup (objectEntries hydration) "directive")
    let r1 := determineIfNeedsHydrationScript m
    let r2 := determinesIfNeedsDirectiveScript r1.2 directive
    if r1.1 then
      match getPrescripts p "both" directive with
      | .ok prescripts => .ok (markHTMLString (.str prescripts), r2.2)
      | .thrown n e => .thrown n e
      | .pending => .pending
    else if r2.1 then
      match getPrescripts p "directive" directive with
      | .ok prescripts => .ok (markHTMLString (.str prescripts), r2.2)
      | .thrown n e => .thrown n e
      | .pending => .pending
    else .ok (.str "", r2.2)
  else .ok (.str "", m)

/-- The test `chunk.type === "directive"`. -/
def isDirectiveChunk : Val → Bool
  | .obj es =>
    match lookup es "type" with
    | .str t => t == "directive"
    | _ => false
  | _ => false

mutual
/-- The function `stringifyChunk` (lines 1146-1175). Reading `chunk.type`
of `null` or `undefined` throws. -/
def stringifyChunk (p : Prebuilt) : RenderMeta → Val → Outcome (Val × RenderMeta)
  | _, .undefined => .thrown "TypeError" "Cannot read properties of undefined"
  | _, .null => .thrown "TypeError" "Cannot read properties of null"
  | m, .slotString s (some is) =>
    match stringifyInstructions p m is with
    | .ok (out, m1) => .ok (.str (out ++ s), m1)
    | .thrown n e => .thrown n e
    | .pending => .pending
  | m, .slotString s none => .ok (.str s, m)
  | m, .obj es =>
    if isDirectiveChunk (.obj es) then stringifyDirective p m (lookup es "hydration")
    else .ok (.str (toStringJS (.obj es)), m)
  | m, .bool b => .ok (.str (toStringJS (.bool b)), m)
  | m, .num n => .ok (.str (toStringJS (.num n)), m)
  | m, .str s => .ok (.str s, m)
  | m, .htmlString s => .ok (.str s, m)
  | m, .arr xs => .ok (.str (toStringJS (.arr xs)), m)
  | m, .func src ret => .ok (.str (toStringJS (.func src ret)), m)
/-- The loop over `c.instructions` in `stringifyChunk` (lines 1164-1166). -/
def stringifyInstructions (p : Prebuilt) : RenderMeta → List Val → Outcome (String × RenderMeta)
  | m, [] => .ok ("", m)
  | m, instr :: rest =>
    match stringifyChunk p m instr with
    | .ok (out, m1) =>
      match stringifyInstructions p m1 rest with
      | .ok (outs, m2) => .ok (toStringJS out ++ outs, m2)
      | .thrown n e => .thrown n e
      | .pending => .pending
    | .thrown n e => .thrown n e
    | .pending => .pending
end

/-- The chunk `{ type: "directive", hydration, result }` (line 1801), without
its field `result`. -/
def directiveChunk (hydration : Val) : Val :=
  .obj [("type", .str "directive"), ("hydration", hydration)]

/-- The hydration record of a directive, as a value. -/
def hydrationRecord (directive : String) (value : Val) : Val :=
  .obj [("directive", .str directive), ("value", value), ("componentUrl", .str ""),
    ("componentExport", .obj [("value", .str "")])]

/-- The generator `renderAll` of `renderFrameworkComponent` (lines
1797-1803), which is what the function returns for a component with a
hydration record: `island` is given by its `props` and `children`. -/
def renderAll (slotInstructions : Option (List Val)) (hydration : Val)
    (islandProps : List (String × Val)) (islandChildren : Val) : List Val :=
  (match slotInstructions with
    | some is => is
    | none => []) ++
    [directiveChunk hydration,
      markHTMLString (.str (renderElement "astro-island" islandProps islandChildren false))]

/-- The outputs that the claim on the hydration scripts predicts for the
chunks after the first: the script of a directive that was not seen yet,
the empty string for a directive that was. -/
def laterOutputs (p : Prebuilt) : List String → List String → List Val
  | _, [] => []
  | seen, d :: ds =>
    (if d ∈ seen then Val.str ""
      else .htmlString ("<script>" ++ (hydrationScripts p d).getD "" ++ "</script>")) ::
      laterOutputs p (seen ++ [d]) ds

/-- The outputs that the claim predicts for a sequence of directive chunks on
a fresh result: the first holds the style, the script of its directive and the
bootstrap script of the island. -/
def expectedOutputs (p : Prebuilt) : List String → List Val
  | [] => []
  | d :: ds =>
    .htmlString ("<style>astro-island,astro-slot\x7bdisplay:contents\x7d</style><script>" ++
      ((hydrationScripts p d).getD "" ++ p.island) ++ "</script>") :: laterOutputs p [d] ds

/-- Passing a sequence of chunks to `stringifyChunk`, one after the other, on
the same result. -/
def stringifyAll (p : Prebuilt) (m : RenderMeta) (chunks : List Val) :
    Outcome (List Val × RenderMeta) :=
  mapOutcome (fun chunk m1 => stringifyChunk p m1 chunk) chunks m

/-! ## Rendering of vnodes -/

/-- The class `Skip` (lines 1196-1211): its field `count`. -/
structure Skip where
  count : Nat
  deriving DecidableEq, Repr, Inhabited

/-- The method `increment`. -/
def Skip.increment (skip : Skip) : Skip := ⟨skip.count + 1⟩

/-- The method `haveNoTried`. -/
def Skip.haveNoTried (skip : Skip) : Bool := skip.count == 0

/-- The method `isCompleted`. -/
def Skip.isCompleted (skip : Skip) : Bool := decide (skip.count > 2)

/-- The function `isVNode` (lines 1909-1911); the marker `AstroJSX` is the
key `"astro:jsx"`. -/
def isVNode (vnode : Val) : Bool :=
  vnode.truthy && vnode.typeofObject && (lookup (objectEntries vnode) "astro:jsx").truthy

/-- The property `type` of a vnode. -/
def vnodeType (vnode : Val) : Val :=
  lookup (objectEntries vnode) "type"

/-- The entries of the property `props` of a vnode. -/
def vnodeProps (vnode : Val) : List (String × Val) :=
  objectEntries (lookup (objectEntries vnode) "props")

/-- The test `typeof value === "function"`. -/
def Val.isFunction : Val → Bool
  | .func _ _ => true
  | _ => false

/-- The block of `renderJSXVNode` that calls a function component itself
(lines 1293-1316). `call` is the result of `await vnode.type(vnode.props)`
and `nested` is `renderJSXVNode` on its output, which also returns the
counter as it left it. The result `none` means that the block was left
without a `return` or `throw`, and the rendering goes on with the slots and
the external renderers. -/
def invokeComponent (call : Outcome Val) (nested : Val → Skip → Outcome Val × Skip)
    (skip : Skip) : Option (Outcome Val) × Skip :=
  if skip.haveNoTried || skip.isCompleted then
    match call with
    | .ok output2 =>
      if (output2.truthy && (lookup (objectEntries output2) "astro:jsx").truthy) ||
          !output2.truthy then
        match nested output2 skip with
        | (.ok r, skip1) => (some (.ok r), skip1)
        | (.thrown n m, skip1) =>
          if skip1.isCompleted then (some (.thrown n m), skip1) else (none, skip1.increment)
        | (.pending, skip1) => (some .pending, skip1)
      else (none, skip)
    | .thrown n m =>
      if skip.isCompleted then (some (.thrown n m), skip) else (none, skip.increment)
    | .pending => (some .pending, skip)
  else (none, skip.increment)

/-- A property of the props of a component vnode: a value, or an array of
children that carries the mark `$$slot`. -/
inductive PropValue where
  | value (v : Val)
  | slot (children : List Val)
  deriving Repr, Inhabited

/-- The names of the properties that every object inherits from
`Object.prototype`. -/
def objectPrototypeKeys : List String :=
  ["constructor", "toString", "toLocaleString", "valueOf", "hasOwnProperty",
    "isPrototypeOf", "propertyIsEnumerable", "__proto__", "__defineGetter__",
    "__defineSetter__", "__lookupGetter__", "__lookupSetter__"]

/-- The child vnode after `delete child.props.slot`. -/
def deleteSlotProp (child : Val) : Val :=
  match child with
  | .obj es =>
    .obj (es.map fun p =>
      if p.1 = "props" then
        (p.1, match p.2 with
          | .obj ps => .obj (withoutKeys ps ["slot"])
          | v => v)
      else p)
  | v => v

/-- The test `"slot" in child.props`. -/
def hasSlotProp (child : Val) : Bool :=
  (vnodeProps child).any fun p => p.1 == "slot"

/-- The name `child.props.slot`, as a property key. -/
def slotNameOf (child : Val) : String :=
  toStringJS (lookup (vnodeProps child) "slot")

/-- The statement `_slots.default.push(child)`. -/
def pushDefault (slots : List (String × List Val)) (child : Val) : List (String × List Val) :=
  setEntry slots "default" ((((slots.find? fun p => p.1 == "default").map Prod.snd).getD []) ++
    [child])

mutual
/-- The inner function `extractSlots2` of `renderJSXVNode` (lines 1271-1285),
threading the object `_slots`. Spreading a property that `_slots` inherits
from `Object.prototype` throws. -/
def extractSlots2 : List (String × List Val) → Val → Outcome (List (String × List Val))
  | slots, .arr cs => extractSlotsItems slots cs
  | slots, .obj es =>
    if !isVNode (.obj es) then .ok (pushDefault slots (.obj es))
    else if hasSlotProp (.obj es) then
      match slots.find? fun p => p.1 == slotNameOf (.obj es) with
      | some p =>
        .ok (setEntry slots (slotNameOf (.obj es)) (p.2 ++ [deleteSlotProp (.obj es)]))
      | none =>
        if objectPrototypeKeys.contains (slotNameOf (.obj es)) then
          .thrown "TypeError" "_slots[child.props.slot] is not iterable"
        else .ok (setEntry slots (slotNameOf (.obj es)) [deleteSlotProp (.obj es)])
    else .ok (pushDefault slots (.obj es))
  | slots, .undefined => .ok (pushDefault slots .undefined)
  | slots, .null => .ok (pushDefault slots .null)
  | slots, .bool b => .ok (pushDefault slots (.bool b))
  | slots, .num n => .ok (pushDefault slots (.num n))
  | slots, .str s => .ok (pushDefault slots (.str s))
  | slots, .htmlString s => .ok (pushDefault slots (.htmlString s))
  | slots, .slotString s i => .ok (pushDefault slots (.slotString s i))
  | slots, .func src ret => .ok (pushDefault slots (.func src ret))
/-- The call `child.map((c) => extractSlots2(c))`. -/
def extractSlotsItems : List (String × List Val) → List Val →
    Outcome (List (String × List Val))
  | slots, [] => .ok slots
  | slots, c :: cs =>
    match extractSlots2 slots c with
    | .ok slots1 => extractSlotsItems slots1 cs
    | .thrown n m => .thrown n m
    | .pending => .pending
end

/-- The children given to `extractSlots2`: the property `children` of the
props, `null` when there is none. -/
def childrenOf (props : List (String × PropValue)) : Val :=
  match (props.find? fun p => p.1 == "children").map Prod.snd with
  | some (.value v) => v
  | some (.slot cs) => .arr cs
  | none => .null

/-- The loop over the props of `renderJSXVNode` (lines 1323-1328): an array
marked `$$slot` replaces the bucket of its name. Reading `$$slot` of `null`
or `undefined` throws. -/
def assignSlotProps : List (String × List Val) → List (String × PropValue) →
    Outcome (List (String × List Val))
  | slots, [] => .ok slots
  | slots, (key, .slot cs) :: rest => assignSlotProps (setEntry slots key cs) rest
  | _, (_, .value .undefined) :: _ =>
    .thrown "TypeError" "Cannot read properties of undefined (reading '$$slot')"
  | _, (_, .value .null) :: _ =>
    .thrown "TypeError" "Cannot read properties of null (reading '$$slot')"
  | slots, (_, .value _) :: rest => assignSlotProps slots rest

/-- The slot extraction of `renderJSXVNode` (lines 1318-1328) on the props of
a component vnode: the buckets of `_slots`. -/
def collectSlots (props : List (String × PropValue)) : Outcome (List (String × List Val)) :=
  match extractSlots2 [("default", [])] (childrenOf props) with
  | .ok slots => assignSlotProps slots (props.filter fun p => p.1 != "children")
  | .thrown n m => .thrown n m
  | .pending => .pending

/-- The loop of `transformSlots` over an array of children (lines
1929-1944): the children left in place and the slots, in the order of their
creation. A child tagged `__proto__` is neither left nor kept, since
`slots["__proto__"] = [child]` creates no property. -/
def transformChildren : List Val → List Val × List (String × List Val)
  | [] => ([], [])
  | child :: rest =>
    let r := transformChildren rest
    if isVNode child && hasSlotProp child then
      if slotNameOf child = "__proto__" then r
      else
        (r.1, match r.2.find? fun p => p.1 == slotNameOf child with
          | some p =>
            (slotNameOf child, deleteSlotProp child :: p.2) ::
              r.2.filter fun q => q.1 != slotNameOf child
          | none => (slotNameOf child, [deleteSlotProp child]) :: r.2)
    else (child :: r.1, r.2)

/-- The statement `Object.assign(vnode.props, slots)`. -/
def assignSlots (props : List (String × PropValue)) (slots : List (String × List Val)) :
    List (String × PropValue) :=
  slots.foldl (fun acc p => setEntry acc p.1 (PropValue.slot p.2)) props

/-- The function `transformSlots` (lines 1912-1946), which `createVNode`
applies to every new vnode, on the props of a vnode whose type is a string
(`typeIsString`) or not. -/
def transformSlots (typeIsString : Bool) (props : List (String × PropValue)) :
    List (String × PropValue) :=
  if typeIsString then props
  else
    match (props.find? fun p => p.1 == "children").map Prod.snd with
    | some (.value (.arr cs)) =>
      assignSlots (setEntry props "children" (.value (.arr (transformChildren cs).1)))
        (transformChildren cs).2
    | some (.value child) =>
      if isVNode child then
        if hasSlotProp child then
          if slotNameOf child = "__proto__" then props.filter fun p => p.1 != "children"
          else
            assignSlots (props.filter fun p => p.1 != "children")
              [(slotNameOf child, [deleteSlotProp child])]
        else props
      else props
    | _ => props

/-- The vnode `createVNode(tag, props)` for a tag name, as a value. -/
def hostVNode (tag : String) (props : List (String × Val)) : Val :=
  .obj [("astro:jsx", .bool true), ("type", .str tag), ("props", .obj props)]

/-- The parts of `renderJSXVNode` that the model does not enter: properties
of the type of a vnode, the call of a function component, the renderers of
Astro components, host elements and external frameworks, and the counter
that `renderJSX` finds under `props[Skip.symbol]` (a new one when there is
none). The symbol `Symbol.for("astro:fragment")` is no value of `Val`: the
test `vnode.type === Symbol.for("astro:fragment")` is the field `isFragment`. -/
structure JSXEnv where
  pathname : String
  isFragment : Val → Bool
  isAstroComponentFactory : Val → Bool
  hasAstroRenderer : Val → Bool
  call : Val → Val → Outcome Val
  renderAstro : Val → Outcome Val
  renderHost : Val → Outcome Val
  renderExternal : Val → Skip → Outcome Val
  skipOf : Val → Skip

/-- The message of the error for a vnode without a type (lines 1248-1249). -/
def undefinedComponentMessage (pathname : String) : String :=
  "Unable to render " ++ pathname ++ " because it contains an undefined Component!\n" ++
    "Did you forget to import the component or is it possible there is a typo?"

/-- The function `renderJSXVNode` (lines 1244-1372) under a bound on the
depth of the nested renders. The code from line 1318 on (the slot extraction
`collectSlots` and the external renderers) is the field `renderExternal`. -/
def renderJSXVNode (env : JSXEnv) : Nat → Val → Skip → Outcome Val × Skip
  | 0, _, skip => (.pending, skip)
  | fuel + 1, vnode, skip =>
    if isVNode vnode then
      if !(vnodeType vnode).truthy then
        (.thrown "Error" (undefinedComponentMessage env.pathname), skip)
      else if env.isFragment (vnodeType vnode) then
        (renderJSX (fun w => (renderJSXVNode env fuel w (env.skipOf w)).1)
          (lookup (vnodeProps vnode) "children"), skip)
      else if env.isAstroComponentFactory (vnodeType vnode) then (env.renderAstro vnode, skip)
      else if (vnodeType vnode).isPrimitiveString &&
          toStringJS (vnodeType vnode) != "astro-client-only" then
        (env.renderHost vnode, skip)
      else
        let skip1 :=
          if (vnodeType vnode).isFunction && env.hasAstroRenderer (vnodeType vnode) then
            skip.increment
          else skip
        if (vnodeType vnode).isFunction && (lookup (vnodeProps vnode) "server:root").truthy then
          match env.call (vnodeType vnode) (lookup (objectEntries vnode) "props") with
          | .ok output2 =>
            (renderJSX (fun w => (renderJSXVNode env fuel w (env.skipOf w)).1) output2, skip1)
          | .thrown n m => (.thrown n m, skip1)
          | .pending => (.pending, skip1)
        else
          match (if (vnodeType vnode).isFunction then
              invokeComponent (env.call (vnodeType vnode) (lookup (objectEntries vnode) "props"))
                (renderJSXVNode env fuel) skip1
            else (none, skip1)) with
          | (some out, skip2) => (out, skip2)
          | (none, skip2) => (env.renderExternal vnode skip2, skip2)
    else (.ok (markHTMLString (.str (toStringJS vnode))), skip)

/-- The function `renderJSX` with `renderJSXVNode` in the place of its
parameter, under a bound on the depth of the nested renders. -/
def renderJSXFull (env : JSXEnv) (fuel : Nat) (vnode : Val) : Outcome Val :=
  renderJSX (fun w => (renderJSXVNode env fuel w (env.skipOf w)).1) vnode

/-! ## The choice of a renderer -/

/-- A registered renderer as far as `renderFrameworkComponent` reads it. For
one call of the function the component, the props and the children are
fixed, so `check` and `renderToStaticMarkup` are given by what the calls
`r.ssr.check.call(...)` and `r.ssr.renderToStaticMarkup.call(...)` do; the
latter returns the pair of `html` and `attrs`. A thrown value is an `Error`
object, given by its name and message. -/
structure SSRRenderer where
  name : String
  check : Outcome Val
  renderToStaticMarkup : Outcome (Val × Val)
  clientEntrypoint : Val

/-- What lines 1619-1725 of `renderFrameworkComponent` read beside the
renderers: `hydrate`, `hydrateArgs` and `componentUrl` are the fields of
`metadata` (`hydrate` is `none` without a hydration record, `componentUrl` is
`none` for `undefined` and otherwise a primitive string, as the earlier call
of `guessRenderers` requires), `tagged` is the value of
`Component && Component[Renderer]` (`false` when reading it throws),
`htmlElement` is the result of `renderHTMLElement` when
`typeof HTMLElement === "function" && componentIsHTMLElement(Component)`
holds, and `fallback` is the result of `renderSlot(result, slots?.fallback)`. -/
structure FrameworkCall where
  renderers : List SSRRenderer
  displayName : String
  hydrate : Option String
  hydrateArgs : Val
  componentUrl : Option String
  tagged : Val
  componentIsString : Bool
  htmlElement : Option (Outcome Val)
  fallback : Outcome Val

/-- What the function has when line 1725 is reached or left early: the
output of `renderHTMLElement` that is returned at once, or the chosen
renderer with `html` and `attrs`. -/
inductive Rendered where
  | output (v : Val)
  | markup (renderer : Option SSRRenderer) (html attrs : Val)

/-- The text `componentUrl.split(".").pop()`. -/
def lastSegment (s : String) : String :=
  ⟨(s.data.reverse.takeWhile fun c => c != '.').reverse⟩

/-- The value `metadata.componentUrl?.split(".").pop()`. -/
def extnameOf (componentUrl : Option String) : Val :=
  match componentUrl with
  | none => .undefined
  | some u => .str (lastSegment u)

/-- The function `guessRenderers` (lines 1571-1591). -/
def guessRenderers (componentUrl : Option String) : List String :=
  match extnameOf componentUrl with
  | .str "svelte" => ["@astrojs/svelte"]
  | .str "vue" => ["@astrojs/vue"]
  | .str "jsx" => ["@astrojs/react", "@astrojs/preact", "@astrojs/solid", "@astrojs/vue (jsx)"]
  | .str "tsx" => ["@astrojs/react", "@astrojs/preact", "@astrojs/solid", "@astrojs/vue (jsx)"]
  | _ => ["@astrojs/react", "@astrojs/preact", "@astrojs/solid", "@astrojs/vue", "@astrojs/svelte"]

/-- The function `formatList` (lines 1483-1488) on a list that is not empty. -/
def formatList (values : List String) : String :=
  if values.length = 1 then values.headD ""
  else ", ".intercalate values.dropLast ++ " or " ++ values.getLastD "undefined"

/-- The comparison `name === value` of the name of a renderer, a primitive
string, with a value. -/
def nameIs (name : String) (value : Val) : Bool :=
  match value with
  | .str s => name == s
  | _ => false

/-- The map `rendererAliases` (line 1570) applied as in line 1653:
`rendererAliases.has(passedName) ? rendererAliases.get(passedName) : passedName`. -/
def aliasedName (passedName : Val) : Val :=
  match passedName with
  | .str "solid" => .str "solid-js"
  | v => v

/-- The test of lines 1655 and 1663:
`name === \x60@astrojs/${rendererName}\x60 || name === rendererName`. -/
def namedAfter (rendererName : Val) (r : SSRRenderer) : Bool :=
  r.name == "@astrojs/" ++ toStringJS rendererName || nameIs r.name rendererName

/-- The list `validRenderers` (line 1618). -/
def validRenderers (renderers : List SSRRenderer) : List SSRRenderer :=
  renderers.filter fun r => r.name != "astro:jsx"

/-- The loop of lines 1632-1641 from the renderers still to probe and the
error kept so far (`error ?? (error = e)`): it returns the renderer whose
check returned a truthy value, if there is one, and the error kept. -/
def probeRenderers : List SSRRenderer → Option (String × String) →
    Outcome (Option SSRRenderer × Option (String × String))
  | [], error => .ok (none, error)
  | r :: rest, error =>
    match r.check with
    | .ok v => if v.truthy then .ok (some r, error) else probeRenderers rest error
    | .thrown n m =>
      probeRenderers rest (match error with | some e => some e | none => some (n, m))
    | .pending => .pending

/-- The message of `AstroErrorData.NoClientOnlyHint` (line 568). -/
def noClientOnlyHintMessage (componentName : String) : String :=
  "Unable to render \x60" ++ componentName ++ "\x60. When using the \x60client:only\x60 " ++
    "hydration strategy, Astro needs a hint to use the correct renderer."

/-- The message of `AstroErrorData.NoMatchingRenderer` (lines 551-554). -/
def noMatchingRendererMessage (componentName : String) (componentExtension : Val)
    (plural : Bool) (validRenderersCount : Nat) : String :=
  "Unable to render \x60" ++ componentName ++ "\x60.\n\n" ++
    (if validRenderersCount > 0 then
      "There " ++ (if plural then "are." else "is.") ++ " " ++ toString validRenderersCount ++
        " renderer" ++ (if plural then "s." else "") ++
        " configured in your \x60astro.config.mjs\x60 file,\nbut " ++
        (if plural then "none were." else "it was not.") ++
        " able to server-side render \x60" ++ componentName ++ "\x60."
    else
      "No valid renderer was found " ++
        (if componentExtension.truthy then
          "for the \x60." ++ toStringJS componentExtension ++ "\x60 file extension."
        else "for this file extension."))

/-- The message of the error of lines 1705-1715. -/
def unableToRenderMessage (displayName : String) (probable : List String) : String :=
  "Unable to render " ++ displayName ++ "!\n\nThis component likely uses " ++
    formatList probable ++ ",\nbut Astro encountered an error during server-side rendering.\n\n" ++
    "Please ensure that " ++ displayName ++ ":\n" ++
    "1. Does not unconditionally access browser-specific globals like \x60window\x60 or " ++
    "\x60document\x60.\n   If this is unavoidable, use the \x60client:only\x60 hydration " ++
    "directive.\n2. Does not conditionally return \x60null\x60 or \x60undefined\x60 when " ++
    "rendered on the server.\n\nIf you\x27re still stuck, please open an issue on GitHub or " ++
    "join us at https://astro.build/chat."

/-- The renderer after lines 1619-1667 of `renderFrameworkComponent`, before
the test for an `HTMLElement`. -/
def chooseRenderer (c : FrameworkCall) : Outcome (Option SSRRenderer) :=
  if c.hydrate != some "only" then
    match (if c.tagged.truthy then c.renderers.find? fun r => nameIs r.name c.tagged
      else none) with
    | some r => .ok (some r)
    | none =>
      match probeRenderers c.renderers none with
      | .ok (some r, _) => .ok (some r)
      | .ok (none, some (n, m)) => .thrown n m
      | .ok (none, none) => .ok none
      | .thrown n m => .thrown n m
      | .pending => .pending
  else
    match (if c.hydrateArgs.truthy then c.renderers.find? (namedAfter (aliasedName c.hydrateArgs))
      else none) with
    | some r => .ok (some r)
    | none =>
      if (validRenderers c.renderers).length = 1 then .ok (validRenderers c.renderers).head?
      else .ok (c.renderers.filter (namedAfter (extnameOf c.componentUrl))).head?

/-- The call of `renderToStaticMarkup` of a renderer, which gives `html` and
`attrs`; what it throws is not caught. -/
def staticMarkup (r : SSRRenderer) : Outcome Rendered :=
  match r.renderToStaticMarkup with
  | .ok (html, attrs) => .ok (.markup (some r) html attrs)
  | .thrown n m => .thrown n m
  | .pending => .pending

/-- Lines 1619-1725 of `renderFrameworkComponent`: the choice of the
renderer and the computation of `html` and `attrs`. -/
def renderMarkup (c : FrameworkCall) : Outcome Rendered :=
  match chooseRenderer c with
  | .thrown n m => .thrown n m
  | .pending => .pending
  | .ok none =>
    match (if c.hydrate != some "only" then c.htmlElement else none) with
    | some (.ok output) => .ok (.output output)
    | some (.thrown n m) => .thrown n m
    | some .pending => .pending
    | none =>
      if c.hydrate == some "only" then
        .thrown "NoClientOnlyHint" (noClientOnlyHintMessage c.displayName)
      else if !c.componentIsString then
        match (validRenderers c.renderers).filter fun r =>
            (guessRenderers c.componentUrl).contains r.name with
        | [] =>
          .thrown "NoMatchingRenderer"
            (noMatchingRendererMessage c.displayName (extnameOf c.componentUrl)
              (decide ((validRenderers c.renderers).length > 1))
              (validRenderers c.renderers).length)
        | [r] => staticMarkup r
        | _ => .thrown "Error" (unableToRenderMessage c.displayName
            (guessRenderers c.componentUrl))
      else .ok (.markup none (.str "") .undefined)
  | .ok (some r) =>
    if c.hydrate == some "only" then
      match c.fallback with
      | .ok html => .ok (.markup (some r) html .undefined)
      | .thrown n m => .thrown n m
      | .pending => .pending
    else staticMarkup r

/-- A renderer whose check does not select it: the check throws, or it
returns a value that is not truthy. -/
def SSRRenderer.NoMatch (p : SSRRenderer) : Prop :=
  (∃ n m, p.check = .thrown n m) ∨ (∃ v, p.check = .ok v ∧ v.truthy = false)

/-! ## The cookie endpoint -/

/-- A request as far as the cookie endpoint reads it: the header list of
its `Headers` object, with the names in lower case as the object keeps them. -/
structure Request where
  headers : List (String × String)
  deriving Repr, DecidableEq

/-- A response made by `new Response(null, \x7b status, headers \x7d)`: there
is no body, and `headers` lists the appended headers. -/
structure Response where
  status : Nat
  headers : List (String × String)
  deriving Repr, DecidableEq

/-- The method `Headers.prototype.get`: the name is compared without regard
to case, the values of the headers of that name are joined by a comma and a
space, and `none` stands for `null`, returned when there is no such header. -/
def headersGet (headers : List (String × String)) (name : String) : Option String :=
  match (headers.filter fun h => h.1 == asciiLower name).map Prod.snd with
  | [] => none
  | values => some (", ".intercalate values)

/-- The handler `post` of the cookie endpoint (lines 2369-2379); the
template literal writes `null` as the text `null`. -/
def post (request : Request) : Response :=
  ⟨200, [("Set-Cookie", "jwt_token=" ++
    (match headersGet request.headers "Authorization" with
      | some value => value
      | none => "null"))]⟩

/-- The handler `get` of the cookie endpoint (lines 2380-2390). -/
def get (_params : List (String × String)) (_request : Request) : Response :=
  ⟨200, [("Set-Cookie", "jwt_token=; Max-Age=0; expires=Thu, 01 Jan 1970 00:00:00 GMT;")]⟩

/-! ## The head content -/

/-- The result of a page as far as the head is concerned: the field
`_metadata.hasRenderedHead`, and `rest` for what `renderAllHeadContent`
reads and changes (the styles, scripts, links and the extra head). -/
structure HeadResult (ρ : Type) where
  hasRenderedHead : Bool
  rest : ρ

/-- The function `createRenderHead` (lines 1875-1878), also named
`renderHead`: it sets the mark; the function it returns is
`renderAllHeadContent` bound to the result. -/
def createRenderHead {ρ : Type} (result : HeadResult ρ) : HeadResult ρ :=
  { result with hasRenderedHead := true }

/-- The call `createRenderHead(result)()`, with `renderAllHeadContent`
given by its effect on the rest of the result. -/
def renderHeadNow {ρ : Type} (renderAllHeadContent : ρ → Val × ρ) (result : HeadResult ρ) :
    Val × HeadResult ρ :=
  let content := renderAllHeadContent (createRenderHead result).rest
  (content.1, { createRenderHead result with rest := content.2 })

/-- The generator `maybeRenderHead` (lines 1880-1885), run to its end: the
list of the values it yields, and the result afterwards. -/
def maybeRenderHead {ρ : Type} (renderAllHeadContent : ρ → Val × ρ) (result : HeadResult ρ) :
    List Val × HeadResult ρ :=
  if result.hasRenderedHead then ([], result)
  else
    let out := renderHeadNow renderAllHeadContent result
    ([out.1], out.2)

/-- A call made by a component while a page renders: `renderHead` (the
returned function being called at once) or `maybeRenderHead`. -/
inductive HeadCall where
  | renderHead
  | maybeRenderHead
  deriving Repr, DecidableEq

/-- The head contents produced by a sequence of calls on one result, in
order, and the result afterwards: a call of `renderHead` produces the
content through the function it returns, a call of `maybeRenderHead`
through what it yields. -/
def runHeadCalls {ρ : Type} (renderAllHeadContent : ρ → Val × ρ) :
    List HeadCall → HeadResult ρ → List Val × HeadResult ρ
  | [], result => ([], result)
  | .renderHead :: calls, result =>
    let first := renderHeadNow renderAllHeadContent result
    let later := runHeadCalls renderAllHeadContent calls first.2
    (first.1 :: later.1, later.2)
  | .maybeRenderHead :: calls, result =>
    let first := maybeRenderHead renderAllHeadContent result
    let later := runHeadCalls renderAllHeadContent calls first.2
    (first.1 ++ later.1, later.2)

/-! ## The hash of a text -/

/-- The UTF-16 code units of a character: one unit, or a surrogate pair for
a character beyond the basic plane. -/
def codeUnits (c : Char) : List Nat :=
  if c.toNat < 65536 then [c.toNat]
  else [55296 + (c.toNat - 65536) / 1024, 56320 + (c.toNat - 65536) % 1024]

/-- The code units `str.charCodeAt(0), ..., str.charCodeAt(str.length - 1)`
of a text. -/
def charCodes (str : String) : List Nat :=
  (str.data.map codeUnits).flatten

/-- The conversion `ToInt32` of an integer: its value modulo `2^32` in the
range of the signed integers of 32 bits. -/
def toInt32 (x : Int) : Int :=
  (x + 2147483648) % 4294967296 - 2147483648

/-- One turn of the loop of `bitwise` (lines 1438-1440):
`hash = (hash << 5) - hash + ch; hash = hash & hash`. The shift and the
conjunction work on 32 bits; the subtraction and the sum are exact. -/
def bitwiseStep (hash : Int) (ch : Nat) : Int :=
  toInt32 (toInt32 (toInt32 hash * 32) - hash + ch)

/-- The function `bitwise` (lines 1433-1443) on the code units of a text. -/
def bitwiseUnits (units : List Nat) : Int :=
  if units.length = 0 then 0 else units.foldl bitwiseStep 0

/-- The function `bitwise` (lines 1433-1443). -/
def bitwise (str : String) : Int :=
  bitwiseUnits (charCodes str)

/-- The sum of `s[i] * 31^(n-1-i)` over the code units of a text of length
`n`, in the words of the specification. -/
def polynomialHash (units : List Nat) : Int :=
  ∑ i in Finset.range units.length, (units.getD i 0 : Int) * 31 ^ (units.length - 1 - i)

/-- The constant `dictionary` (line 1432). -/
def dictionary : String :=
  "0123456789abcdefghijklmnopqrstuvwxyzABCDEFGHIJKLMNOPQRSTUVWXY"

/-- The constant `binary` (line 1433), the length of the dictionary. -/
def binary : Nat :=
  dictionary.length

/-- The text `dictionary[i]` as a template or a sum writes it: the
character at the index, or `undefined` past the end. -/
def dictionaryAt (i : Nat) : String :=
  match dictionary.data.get? i with
  | some c => String.singleton c
  | none => "undefined"

/-- The loop of `shorthash` (lines 1450-1454) from the values of `integer`
and `result`, returning both as the loop leaves them. The first argument
bounds the number of turns; `shorthashOf` passes the integer itself, which
the loop never uses up since every turn divides the integer by 61. -/
def shorthashLoop : Nat → Nat → String → Nat × String
  | 0, integer, result => (integer, result)
  | fuel + 1, integer, result =>
    if integer ≥ binary then
      shorthashLoop fuel (integer / binary) (dictionaryAt (integer % binary) ++ result)
    else (integer, result)

/-- The function `shorthash` (lines 1444-1459) from the value of
`bitwise(text)`. -/
def shorthashOf (hash : Int) : String :=
  let sign := if hash < 0 then "Z" else ""
  let out := shorthashLoop hash.natAbs hash.natAbs ""
  sign ++ (if out.1 > 0 then dictionaryAt out.1 ++ out.2 else out.2)

/-- The function `shorthash` (lines 1444-1459). -/
def shorthash (text : String) : String :=
  shorthashOf (bitwise text)

/-- The character of the dictionary that stands for a digit below 61. -/
def digitChar (d : Nat) : Char :=
  dictionary.data.getD d '0'

/-- The id that the specification describes for a hash value: `Z` for a
negative value, then the digits of its absolute value in base 61, the most
significant first, over the dictionary. -/
def shorthashSpec (hash : Int) : String :=
  (if hash < 0 then "Z" else "") ++ ⟨(Nat.digits 61 hash.natAbs).reverse.map digitChar⟩

/-! ## The chunks of a framework component -/

/-- What `renderFrameworkComponent` returns: the output of
`renderHTMLElement` (line 1648), or a generator object, given by the chunks
that it yields and by the error, if there is one, that ends the iteration. -/
inductive Returned where
  | output (v : Val)
  | generator (chunks : List Val) (error : Option (String × String))
  deriving Repr, Inhabited

/-- What lines 1726-1804 of `renderFrameworkComponent` read beside the
record of the call: `slotInstructions` and `children` are the fields of what
`renderSlots` returned (`children` lists the rendered slots by name),
`isPage` is the field of what `extractDirectives` returned,
`componentExport` is `metadata.componentExport.value`, `element` is the text
that lines 1742-1752 build for a component that is a string, `serialized` is
the result of `serializeProps(props, metadata)` on the props as the renderer
has left them, and `island` gives, for an `astroId`, the property `props` of
the island that `generateHydrateScript` returns, or what it throws. -/
structure IslandCall where
  slotInstructions : Option (List Val)
  children : List (String × Val)
  isPage : Bool
  componentExport : Val
  element : String
  serialized : Outcome String
  island : String → Outcome (List (String × Val))

/-- The message of `AstroErrorData.NoClientEntrypoint` (line 562). -/
def noClientEntrypointMessage (componentName clientDirective rendererName : String) : String :=
  "\x60" ++ componentName ++ "\x60 component has a \x60client:" ++ clientDirective ++
    "\x60 directive, but no client entrypoint was provided by \x60" ++ rendererName ++ "\x60."

/-- The record `hydration` of a call with a hydration record, as a value. -/
def hydrationOf (c : FrameworkCall) (t : IslandCall) : Val :=
  .obj [("directive", match c.hydrate with
      | some d => .str d
      | none => .undefined),
    ("value", c.hydrateArgs),
    ("componentUrl", match c.componentUrl with
      | some url => .str url
      | none => .undefined),
    ("componentExport", .obj [("value", t.componentExport)])]

/-- The text `text.replace(/\<\/?astro-slot\>/g, "")`, with the number of
the characters of a match that are still to be left out. -/
def removeSlotTags : Nat → List Char → List Char
  | _, [] => []
  | skip + 1, _ :: cs => removeSlotTags skip cs
  | 0, c :: cs =>
    if "<astro-slot>".data.isPrefixOf (c :: cs) then removeSlotTags 11 cs
    else if "</astro-slot>".data.isPrefixOf (c :: cs) then removeSlotTags 12 cs
    else c :: removeSlotTags 0 cs

/-- The generator of lines 1754-1763, for a component without a hydration
record. A value `html` without a method `replace` ends the iteration. -/
def staticChunks (slotInstructions : Option (List Val)) (raw : Bool) (html : Val) : Returned :=
  let instructions :=
    match slotInstructions with
    | some is => is
    | none => []
  if raw then .generator (instructions ++ [html]) none
  else
    match html with
    | .str s => .generator (instructions ++ [.htmlString ⟨removeSlotTags 0 s.data⟩]) none
    | .htmlString s => .generator (instructions ++ [.htmlString ⟨removeSlotTags 0 s.data⟩]) none
    | .slotString s _ => .generator (instructions ++ [.htmlString ⟨removeSlotTags 0 s.data⟩]) none
    | .undefined =>
      .generator instructions
        (some ("TypeError", "Cannot read properties of undefined (reading \x27replace\x27)"))
    | .null =>
      .generator instructions
        (some ("TypeError", "Cannot read properties of null (reading \x27replace\x27)"))
    | _ => .generator instructions (some ("TypeError", "html.replace is not a function"))

/-- The test `html.includes(text)` of line 1780. -/
def htmlIncludes (html : Val) (text : String) : Outcome Bool :=
  match html with
  | .str s => .ok (decide (text.data <:+: s.data))
  | .htmlString s => .ok (decide (text.data <:+: s.data))
  | .slotString s _ => .ok (decide (text.data <:+: s.data))
  | .arr xs => .ok (xs.any fun x =>
      match x with
      | .str s => s == text
      | _ => false)
  | _ => .thrown "TypeError" "html.includes is not a function"

/-- The loop of lines 1779-1783 over the names of the rendered slots. -/
def missingSlots (html : Val) : List String → Outcome (List String)
  | [] => .ok []
  | key :: keys =>
    match htmlIncludes html
        (if key = "default" then "<astro-slot>" else "<astro-slot name=\"" ++ key ++ "\">") with
    | .ok found =>
      match missingSlots html keys with
      | .ok rest => .ok (if found then rest else key :: rest)
      | .thrown n m => .thrown n m
      | .pending => .pending
    | .thrown n m => .thrown n m
    | .pending => .pending

/-- The array `unrenderedSlots` (lines 1776-1787). -/
def unrenderedSlots (html : Val) (children : List (String × Val)) : Outcome (List String) :=
  if html.truthy then missingSlots html (children.map Prod.fst)
  else .ok (children.map Prod.fst)

/-- The text `template` (lines 1788-1790). -/
def slotTemplates (children : List (String × Val)) (unrendered : List String) : String :=
  String.join (unrendered.map fun key =>
    "<template data-astro-template" ++ (if key ≠ "default" then "=\"" ++ key ++ "\"" else "") ++
      ">" ++ toStringJS (lookup children key) ++ "</template>")

/-- Lines 1619-1804 of `renderFrameworkComponent`, after `extractDirectives`
and `renderSlots` have returned: a call has a hydration record when
`c.hydrate` is not `none`. -/
def renderFrameworkComponent (c : FrameworkCall) (t : IslandCall) : Outcome Returned :=
  match renderMarkup c with
  | .thrown n m => .thrown n m
  | .pending => .pending
  | .ok (.output output) => .ok (.output output)
  | .ok (.markup renderer html0 _) =>
    match (match renderer, c.hydrate with
      | some r, some d =>
        if !r.clientEntrypoint.truthy && r.name != "@astrojs/lit" && d != "" then some (r, d)
        else none
      | _, _ => none) with
    | some (r, d) =>
      .thrown "NoClientEntrypoint" (noClientEntrypointMessage c.displayName d r.name)
    | none =>
      let html : Val := if !html0.truthy && c.componentIsString then .str t.element else html0
      match c.hydrate with
      | none =>
        .ok (staticChunks t.slotInstructions
          (t.isPage || (match renderer with
            | some r => r.name == "astro:jsx"
            | none => false)) html)
      | some _ =>
        match t.serialized with
        | .thrown n m => .thrown n m
        | .pending => .pending
        | .ok serialized =>
          match t.island (shorthash ("<!--" ++ toStringJS t.componentExport ++ ":" ++
              (match c.componentUrl with
                | some url => url
                | none => "undefined") ++ "-->\n" ++ toStringJS html ++ "\n" ++ serialized)) with
          | .thrown n m => .thrown n m
          | .pending => .pending
          | .ok islandProps =>
            match unrenderedSlots html t.children with
            | .thrown n m => .thrown n m
            | .pending => .pending
            | .ok unrendered =>
              let islandChildren :=
                (if html.isNullish then "" else toStringJS html) ++
                  slotTemplates t.children unrendered
              .ok (.generator (renderAll t.slotInstructions (hydrationOf c t)
                (if islandChildren ≠ "" then setEntry islandProps "await-children" (.str "")
                  else islandProps)
                (.str islandChildren)) none)

/-! ## The name of an element -/

/-- A character of the class `[&<>'"\s]` of the expression `unsafe`
(line 1807). -/
def isUnsafeChar (c : Char) : Bool :=
  c = '&' || c = '<' || c = '>' || c = '\'' || c = '"' || isJSWhitespace c

/-- The text `text.split(unsafe)[0]`: what stands before the first run of
unsafe characters, the whole text when there is none. -/
def splitUnsafeFirst (text : String) : String :=
  ⟨text.data.takeWhile fun c => !isUnsafeChar c⟩

/-- The function `sanitizeElementName` (lines 1806-1811). -/
def sanitizeElementName (tag : String) : String :=
  if !tag.data.any isUnsafeChar then tag
  else jsTrim (splitUnsafeFirst (jsTrim tag))

/-! ## The routes -/

/-- A page module as `pageMap` holds it: the name of the constant, and the
exports `file` and `url` of a page (an endpoint has neither). -/
structure PageModule where
  name : String
  file : Option String
  url : Option String
  deriving Repr, DecidableEq

/-- The constant `pageMap` (line 2533), in the order of its entries. -/
def pageMap : List (String × PageModule) :=
  [("src/pages/index.astro",
      ⟨"_page0", some "C:/Users/Abuobida/Projects/astro-ssr/frontend/src/pages/index.astro",
        some ""⟩),
    ("src/pages/fallback.astro",
      ⟨"_page1", some "C:/Users/Abuobida/Projects/astro-ssr/frontend/src/pages/fallback.astro",
        some "/fallback"⟩),
    ("src/pages/products/index.astro",
      ⟨"_page2",
        some "C:/Users/Abuobida/Projects/astro-ssr/frontend/src/pages/products/index.astro",
        some "/products"⟩),
    ("src/pages/products/[product].astro",
      ⟨"_page3",
        some "C:/Users/Abuobida/Projects/astro-ssr/frontend/src/pages/products/[product].astro",
        some "/products/[product]"⟩),
    ("src/pages/cookie.ts", ⟨"_page4", none, none⟩),
    ("src/pages/auth/signin.astro",
      ⟨"_page5", some "C:/Users/Abuobida/Projects/astro-ssr/frontend/src/pages/auth/signin.astro",
        some "/auth/signin"⟩),
    ("src/pages/auth/signup.astro",
      ⟨"_page6", some "C:/Users/Abuobida/Projects/astro-ssr/frontend/src/pages/auth/signup.astro",
        some "/auth/signup"⟩)]

/-- The method `Map.prototype.get` of `pageMap`. -/
def pageMapGet (component : String) : Option PageModule :=
  (pageMap.find? fun p => p.1 == component).map Prod.snd

/-- The fields of the `routeData` of a serialized route that the route
table keeps as they are, and the source of its pattern. -/
structure RawRouteData where
  route : String
  type : String
  pattern : String
  params : List String
  component : String
  pathname : Option String
  deriving Repr, DecidableEq

/-- The `routeData` of the routes of the serialized manifest (line 2610),
in their order. -/
def serializedRoutes : List RawRouteData :=
  [⟨"/", "page", "^\\/$", [], "src/pages/index.astro", some "/"⟩,
    ⟨"/fallback", "page", "^\\/fallback\\/?$", [], "src/pages/fallback.astro", some "/fallback"⟩,
    ⟨"/products", "page", "^\\/products\\/?$", [], "src/pages/products/index.astro",
      some "/products"⟩,
    ⟨"/products/[product]", "page", "^\\/products\\/([^/]+?)\\/?$", ["product"],
      "src/pages/products/[product].astro", none⟩,
    ⟨"/cookie", "endpoint", "^\\/cookie$", [], "src/pages/cookie.ts", some "/cookie"⟩,
    ⟨"/auth/signin", "page", "^\\/auth\\/signin\\/?$", [], "src/pages/auth/signin.astro",
      some "/auth/signin"⟩,
    ⟨"/auth/signup", "page", "^\\/auth\\/signup\\/?$", [], "src/pages/auth/signup.astro",
      some "/auth/signup"⟩]

/-- The items of the regular expressions of the manifest: the assertions
`^` and `$`, a character, a character followed by `?`, and the capturing
group `([^c]+?)` of one or more characters other than `c`, as few as
possible. -/
inductive ReItem where
  | start
  | finish
  | lit (c : Char)
  | optLit (c : Char)
  | lazyGroupNot (c : Char)
  deriving Repr, DecidableEq

/-- The syntax characters of a pattern. -/
def isSyntaxChar (c : Char) : Bool :=
  "^$\\.*+?()[]\x7b\x7d|".data.contains c

/-- The reading of the source of a pattern by `new RegExp(source)`, for the
patterns made of the items of `ReItem`; `none` for another pattern. An
escaped character that is no letter, digit or underscore stands for itself. -/
def parsePattern : List Char → Option (List ReItem)
  | [] => some []
  | '^' :: rest => (parsePattern rest).map fun is => .start :: is
  | '$' :: rest => (parsePattern rest).map fun is => .finish :: is
  | '(' :: '[' :: '^' :: c :: ']' :: '+' :: '?' :: ')' :: rest =>
    if c = ']' || c = '\\' || c = '^' then none
    else (parsePattern rest).map fun is => .lazyGroupNot c :: is
  | '\\' :: c :: '?' :: rest =>
    if c.isAlphanum || c = '_' then none
    else (parsePattern rest).map fun is => .optLit c :: is
  | '\\' :: c :: rest =>
    if c.isAlphanum || c = '_' then none
    else (parsePattern rest).map fun is => .lit c :: is
  | c :: '?' :: rest =>
    if isSyntaxChar c then none
    else (parsePattern rest).map fun is => .optLit c :: is
  | c :: rest =>
    if isSyntaxChar c then none
    else (parsePattern rest).map fun is => .lit c :: is

/-- The group `([^c]+?)` from a position of the input: it takes one
character other than `c` and tries the rest of the pattern, `k`, on what it
has taken and what is left, and takes one character more each time the rest
of the pattern fails. -/
def lazyPlusNot {α : Type} (c : Char) (k : List Char → List Char → Option α) :
    List Char → List Char → Option α
  | _, [] => none
  | taken, x :: rest =>
    if x = c then none
    else
      match k (x :: taken).reverse rest with
      | some r => some r
      | none => lazyPlusNot c k (x :: taken) rest

/-- The match of the items of a pattern at a position of the input, by
backtracking: `atStart` tells whether the position is the start of the
input, `caps` holds the captures so far, the last one first. The result
lists the captures of the match in the order of their groups. -/
def matchItems : List ReItem → Bool → List Char → List String → Option (List String)
  | [], _, _, caps => some caps.reverse
  | .start :: is, atStart, inp, caps => if atStart then matchItems is atStart inp caps else none
  | .finish :: is, atStart, inp, caps =>
    if inp.isEmpty then matchItems is atStart inp caps else none
  | .lit _ :: _, _, [], _ => none
  | .lit c :: is, _, x :: inp, caps => if x = c then matchItems is false inp caps else none
  | .optLit _ :: is, atStart, [], caps => matchItems is atStart [] caps
  | .optLit c :: is, atStart, x :: inp, caps =>
    match (if x = c then matchItems is false inp caps else none) with
    | some r => some r
    | none => matchItems is atStart (x :: inp) caps
  | .lazyGroupNot c :: is, _, inp, caps =>
    lazyPlusNot c (fun cap rest => matchItems is false rest (⟨cap⟩ :: caps)) [] inp

/-- The search of `RegExp.prototype.exec` without flags: the first position
of the input from which the items match, tried from left to right. -/
def execFrom (items : List ReItem) : Bool → List Char → Option (List String)
  | atStart, [] => matchItems items atStart [] []
  | atStart, x :: inp =>
    match matchItems items atStart (x :: inp) [] with
    | some r => some r
    | none => execFrom items false inp

/-- A route of the route table: the fields that `deserializeRouteData`
copies, and the pattern read by `new RegExp`. -/
structure RouteData where
  route : String
  type : String
  pattern : List ReItem
  params : List String
  component : String
  pathname : Option String
  deriving Repr, DecidableEq

/-- The function `deserializeRouteData` (lines 2579-2590) without the
fields `generate` and `segments`; `none` when the pattern is not one that
`parsePattern` reads. The source `rawRouteData.pathname || void 0` turns an
empty pathname into `undefined`. -/
def deserializeRouteData (rawRouteData : RawRouteData) : Option RouteData :=
  (parsePattern rawRouteData.pattern.data).map fun pattern =>
    ⟨rawRouteData.route, rawRouteData.type, pattern, rawRouteData.params,
      rawRouteData.component,
      match rawRouteData.pathname with
      | some "" => none
      | p => p⟩

/-- The routes of the deserialized manifest, `deserializeManifest(...).routes`
(lines 2592-2608), as far as their `routeData` goes. -/
def manifestRoutes : Option (List RouteData) :=
  mapOption deserializeRouteData serializedRoutes

/-- The captures of `route.pattern.exec(path)`, `none` when the pattern does
not match. -/
def RouteData.exec (route : RouteData) (path : String) : Option (List String) :=
  execFrom route.pattern true path.data

/-- The test `route.pattern.test(path)`. -/
def RouteData.test (route : RouteData) (path : String) : Bool :=
  (route.exec path).isSome

/-- Modelled from the spec: the dispatcher, which the sources import from
the adapter and do not contain. The spec says that, given a route pattern
and a request path, it resolves the page module of the component of the
route with the params of the path. The model takes the first route of the
table whose pattern matches the path, names the captures of the match by
the `params` of the route, and looks the component up in `pageMap`. -/
def dispatch (routes : List RouteData) (path : String) :
    Option (PageModule × List (String × String)) :=
  match routes.find? fun r => r.test path with
  | none => none
  | some route =>
    match route.exec path, pageMapGet route.component with
    | some caps, some page => some (page, route.params.zip caps)
    | _, _ => none

/-! ## The serialized form of a copy -/

mutual
/-- The serialized form of a value given as a tree, in which every
occurrence of an object is a copy of its own: what the specification takes
`convertToSerializedForm` to return for each occurrence of a shared object.
An invalid date has no serialized form; the theorems exclude it. -/
def Data.serialized : Data → Json
  | .undefined => tagged .Value .undefined
  | .null => tagged .Value .null
  | .bool b => tagged .Value (.bool b)
  | .num n => tagged .Value (.num n)
  | .str s => tagged .Value (.str s)
  | .bigint n => tagged .BigInt (.str (toString n))
  | .arr xs => tagged .JSON (.str (jsonText (.arr (Data.serializedItems xs))))
  | .obj es => tagged .Value (.obj (objectFromEntries (Data.serializedMembers es)))
  | .regexp source _ => tagged .RegExp (.str source)
  | .date iso => tagged .Date (.str (iso.getD ""))
  | .map es => tagged .Map (.str (jsonText (.arr (Data.serializedEntries es))))
  | .set xs => tagged .Set (.str (jsonText (.arr (Data.serializedItems xs))))
  | .url href => tagged .URL (.str href)
  | .uint8Array xs => tagged .Uint8Array (.str (jsonText (.arr (xs.map fun n => Json.num n))))
  | .uint16Array xs => tagged .Uint16Array (.str (jsonText (.arr (xs.map fun n => Json.num n))))
  | .uint32Array xs => tagged .Uint32Array (.str (jsonText (.arr (xs.map fun n => Json.num n))))
/-- The serialized forms of the items of an array or a Set. -/
def Data.serializedItems : List Data → List Json
  | [] => []
  | x :: xs => Data.serialized x :: Data.serializedItems xs
/-- The serialized forms of the properties of a plain object. -/
def Data.serializedMembers : List (String × Data) → List (String × Json)
  | [] => []
  | (k, v) :: es => (k, Data.serialized v) :: Data.serializedMembers es
/-- The serialized forms of the entries of a Map, each an array of the key
and the value. -/
def Data.serializedEntries : List (Data × Data) → List Json
  | [] => []
  | (k, v) :: es =>
    tagged .JSON (.str (jsonText (.arr [Data.serialized k, Data.serialized v]))) ::
      Data.serializedEntries es
end

/-- The text that `serializeProps` returns for props given as a tree. -/
def Data.propsText (members : List (String × Data)) : String :=
  jsonText (.obj (objectFromEntries (Data.serializedMembers members)))

/-- The serialized form of the copy of a prop value, read off the heap to
the depth `fuel`. -/
def copyForm (heap : Heap) (fuel : Nat) (v : PVal) : Json :=
  ((unfold heap fuel v).getD .undefined).serialized

mutual
/-- The serialized form of the copy of an argument of
`convertToSerializedForm`. -/
def Target.copyForm (heap : Heap) (fuel : Nat) : Target → Json
  | .val v => Entry.copyForm heap fuel v
  | .array _ elems => tagged .JSON (.str (jsonText (.arr (Target.copyForms heap fuel elems))))
/-- The serialized forms of the copies of the items of a new array. -/
def Target.copyForms (heap : Heap) (fuel : Nat) : List Target → List Json
  | [] => []
  | t :: ts => Target.copyForm heap fuel t :: Target.copyForms heap fuel ts
end

/-! # Theorems -/

/-! ## Markup escaping -/

theorem escapeChar_ne_nil (c : Char) : escapeChar c ≠ [] := by
  unfold escapeChar
  split_ifs <;> simp

theorem escapeChar_tail (c : Char) : '&' ∉ (escapeChar c).tail := by
  unfold escapeChar
  split_ifs <;> first | decide | simp

theorem escapeChar_cases (c : Char) :
    escapeChar c ∈ entities ∨ (escapeChar c = [c] ∧ c ≠ '&') := by
  unfold escapeChar entities
  split_ifs with h1 h2 h3 h4 h5
  · left; simp
  · left; simp
  · left; simp
  · left; simp
  · left; simp
  · right; exact ⟨rfl, h1⟩

theorem entities_clean :
    ∀ e ∈ entities, ∀ x ∈ e, x ≠ '<' ∧ x ≠ '>' ∧ x ≠ '"' ∧ x ≠ '\'' := by
  decide

theorem escapeChar_clean (c x : Char) (hx : x ∈ escapeChar c) :
    x ≠ '<' ∧ x ≠ '>' ∧ x ≠ '"' ∧ x ≠ '\'' := by
  rcases escapeChar_cases c with he | ⟨he, -⟩
  · exact entities_clean _ he x hx
  · rw [he] at hx
    simp at hx
    subst hx
    unfold escapeChar at he
    split_ifs at he with h1 h2 h3 h4 h5
    all_goals first
      | exact ⟨h2, h3, h5, h4⟩
      | exact absurd (congrArg List.length he) (by simp)

/-- A block whose only `&` is its first character is passed whole by a split
of the text in front of an `&`. -/
theorem block_split (b rest pre post : List Char) (hb : '&' ∉ b.tail)
    (h : b ++ rest = pre ++ '&' :: post) :
    pre = [] ∨ ∃ mid, pre = b ++ mid ∧ rest = mid ++ '&' :: post := by
  rcases List.append_eq_append_iff.mp h with ⟨a, h1, h2⟩ | ⟨c, h1, h2⟩
  · exact Or.inr ⟨a, h1, h2⟩
  · cases c with
    | nil =>
      simp at h1 h2
      exact Or.inr ⟨[], by simp [h1], by simp [h2]⟩
    | cons x c =>
      simp at h2
      obtain ⟨hx, -⟩ := h2
      subst hx
      cases pre with
      | nil => exact Or.inl rfl
      | cons p pre =>
        exfalso
        apply hb
        rw [h1]
        simp

theorem flatMap_escape_amp (cs pre post : List Char)
    (h : cs.flatMap escapeChar = pre ++ '&' :: post) :
    ∃ e ∈ entities, e <+: '&' :: post := by
  induction cs generalizing pre with
  | nil => simp at h
  | cons c cs ih =>
    rw [List.flatMap_cons] at h
    rcases block_split _ _ _ _ (escapeChar_tail c) h with hpre | ⟨mid, -, h2⟩
    · subst hpre
      rcases escapeChar_cases c with he | ⟨he, hc⟩
      · exact ⟨escapeChar c, he, ⟨_, h⟩⟩
      · rw [he] at h
        simp at h
        exact absurd h.1 hc
    · exact ih mid h2

/-- C5. For every string `s`, `escapeHTML(s)` is `s` with each of the five
characters `&`, `<`, `>`, `"`, `'` replaced by its entity (and every other
character kept): the output holds no `<`, `>`, `"` or `'`, and every `&` of
the output starts one of the five entities. -/
theorem escapeHTML_replaces_special_characters (s : String) :
    (escapeHTML s).data = s.data.flatMap (fun c =>
      if c = '&' then "&amp;".data else if c = '<' then "&lt;".data
      else if c = '>' then "&gt;".data else if c = '\'' then "&#39;".data
      else if c = '"' then "&quot;".data else [c]) ∧
    '<' ∉ (escapeHTML s).data ∧ '>' ∉ (escapeHTML s).data ∧
    '"' ∉ (escapeHTML s).data ∧ '\'' ∉ (escapeHTML s).data ∧
    ∀ pre post, (escapeHTML s).data = pre ++ '&' :: post →
      ∃ e ∈ entities, e <+: '&' :: post := by
  have hclean : ∀ x ∈ (escapeHTML s).data, x ≠ '<' ∧ x ≠ '>' ∧ x ≠ '"' ∧ x ≠ '\'' := by
    intro x hx
    simp only [escapeHTML, escape, List.mem_flatMap] at hx
    obtain ⟨c, -, hc⟩ := hx
    exact escapeChar_clean c x hc
  refine ⟨rfl, ?_, ?_, ?_, ?_, ?_⟩
  · exact fun h => (hclean _ h).1 rfl
  · exact fun h => (hclean _ h).2.1 rfl
  · exact fun h => (hclean _ h).2.2.1 rfl
  · exact fun h => (hclean _ h).2.2.2 rfl
  · intro pre post h
    exact flatMap_escape_amp s.data pre post h

/-! ## Attribute values -/

theorem replaceAllChar_data (c : Char) (r s : String) :
    (replaceAllChar c r s).data = s.data.flatMap fun x => if x = c then r.data else [x] := rfl

/-- The two passes of `toAttributeString` amount to the single pass of the
spec. -/
theorem toAttributeString_two_passes (v : String) :
    replaceAllChar '"' "&#34;" (replaceAllChar '&' "&#38;" v) = escapeAttributeSinglePass v := by
  apply String.ext
  simp only [replaceAllChar_data, escapeAttributeSinglePass]
  induction v.data with
  | nil => rfl
  | cons c cs ih =>
    simp only [List.flatMap_cons, List.flatMap_append, ih]
    congr 1
    by_cases h1 : c = '&'
    · subst h1; decide
    · by_cases h2 : c = '"'
      · subst h2; decide
      · simp [h1, h2]

theorem escapeAttributeSinglePass_no_quote (v : String) :
    '"' ∉ (escapeAttributeSinglePass v).data := by
  intro h
  simp only [escapeAttributeSinglePass, List.mem_flatMap] at h
  obtain ⟨c, -, hc⟩ := h
  split_ifs at hc with h1 h2
  · revert hc; decide
  · revert hc; decide
  · simp at hc
    exact h2 hc.symm

/-- C6. For every key `k` that is no static directive, not `class:list` and
not `className`, and every string `v` (which is no `style` object and no
bare boolean), `addAttribute(v, k)` with escaping on is ` k="e"` where `e` is
`v` with every `&` replaced by `&#38;` and every `"` by `&#34;` in one pass;
`e` holds no double quote. -/
theorem addAttribute_generic_string (k v : String)
    (hs : k ∉ STATIC_DIRECTIVES) (hc : k ≠ "class:list") (hn : k ≠ "className") :
    addAttribute (.str v) k true =
      .htmlString (" " ++ k ++ "=\"" ++ escapeAttributeSinglePass v ++ "\"") ∧
    '"' ∉ (escapeAttributeSinglePass v).data := by
  refine ⟨?_, escapeAttributeSinglePass_no_quote v⟩
  simp [addAttribute, Val.isNullish, Val.isBool, hs, hc, hn, Val.typeofObject,
    Val.instanceofHTMLString, toAttributeString, toStringJS, markHTMLString,
    toAttributeString_two_passes]

theorem addAttribute_generic_string_witness :
    addAttribute (.str "a\"b&c") "title" true =
      .htmlString (" " ++ "title" ++ "=\"" ++ escapeAttributeSinglePass "a\"b&c" ++ "\"") ∧
    '"' ∉ (escapeAttributeSinglePass "a\"b&c").data :=
  addAttribute_generic_string "title" "a\"b&c" (by decide) (by decide) (by decide)

/-! ## String marking -/

/-- C7. For every value `v`, marking twice is marking once, a value that is
no primitive string is returned as it is, and a primitive string `s` becomes
an `HTMLString` with content `s` that `isHTMLString` recognises. -/
theorem markHTMLString_idempotent (v : Val) (s : String) :
    markHTMLString (markHTMLString v) = markHTMLString v ∧
    (v.isPrimitiveString = false → markHTMLString v = v) ∧
    markHTMLString (.str s) = .htmlString s ∧
    isHTMLString (markHTMLString (.str s)) = true ∧
    (markHTMLString (.str s)).content? = some s := by
  refine ⟨?_, ?_, rfl, rfl, rfl⟩
  · cases v <;> rfl
  · intro h
    cases v <;> first | rfl | simp [Val.isPrimitiveString] at h

theorem markHTMLString_idempotent_witness :
    markHTMLString (.num 3) = .num 3 :=
  (markHTMLString_idempotent (.num 3) "a").2.1 rfl

/-- C8, the claim as stated fails: `renderJSX` of the marked string `" "`
is the empty primitive string, not the marked string. -/
theorem renderJSX_blank_marked_string :
    renderJSX (fun _ => Outcome.thrown "Error" "unused") (markHTMLString (.str " ")) =
      Outcome.ok (Val.str "") ∧
    renderJSX (fun _ => Outcome.thrown "Error" "unused") (markHTMLString (.str " ")) ≠
      Outcome.ok (markHTMLString (.str " ")) := by
  constructor
  · rfl
  · intro h
    have h2 : renderJSX (fun _ => Outcome.thrown "Error" "unused") (markHTMLString (.str " ")) =
        Outcome.ok (Val.str "") := rfl
    rw [h2] at h
    injection h with h
    cases h

/-- C8, amended. For every `HTMLString` `h` (a value that `markHTMLString`
has marked), `renderChild(h)` yields `h` itself, after the instructions of
`h` when it is a `SlotString` that carries some, and `renderJSX(result, h)`
returns `h` itself unless the content of `h` is empty after trimming, in
which case it returns the empty string; the content is never escaped. -/
theorem marked_string_not_escaped (r : Val → Outcome Val) (h : Val)
    (hh : isHTMLString h = true) :
    ∃ s, h.content? = some s ∧
      renderChild h = h.instructionList.map Chunk.val ++ [Chunk.val h] ∧
      renderJSX r h = .ok (if jsTrim s = "" then .str "" else h) := by
  cases h with
  | htmlString s =>
    refine ⟨s, rfl, ?_, ?_⟩
    · simp [renderChild, Val.instructionList]
    · simp only [renderJSX]
      split_ifs <;> rfl
  | slotString s instructions =>
    refine ⟨s, rfl, ?_, ?_⟩
    · cases instructions <;> simp [renderChild, Val.instructionList]
    · simp only [renderJSX]
      split_ifs <;> rfl
  | _ => simp [isHTMLString, Val.instanceofHTMLString] at hh

theorem marked_string_not_escaped_witness :
    ∃ s, (Val.htmlString "<b>").content? = some s ∧
      renderChild (.htmlString "<b>") =
        (Val.htmlString "<b>").instructionList.map Chunk.val ++ [Chunk.val (.htmlString "<b>")] ∧
      renderJSX (fun _ => .thrown "Error" "unused") (.htmlString "<b>") =
        .ok (if jsTrim s = "" then .str "" else .htmlString "<b>") :=
  marked_string_not_escaped (fun _ => .thrown "Error" "unused") (.htmlString "<b>") rfl

/-! ## Attributes without a value -/

theorem testNamesIgnoreCase_iff (names : List String) (key : String) :
    testNamesIgnoreCase names key = true ↔ asciiLower key ∈ names.map asciiLower := by
  simp only [testNamesIgnoreCase, List.any_eq_true, List.mem_map, beq_iff_eq]

/-- C9. For every key `k`, `addAttribute(null, k)` and
`addAttribute(undefined, k)` are the empty string; for every key `b` that
is an HTML boolean attribute (in any letter case) or starts with `data-`,
`addAttribute(true, b)` is a blank followed by `b` alone; and
`addAttribute(false, "disabled")` is the empty string. -/
theorem addAttribute_nullish_and_bare (k b : String) (e : Bool)
    (hb : testNamesIgnoreCase htmlBooleanAttributes b = true ∨
      "data-".data.isPrefixOf b.data = true) :
    addAttribute .null k e = .str "" ∧
    addAttribute .undefined k e = .str "" ∧
    addAttribute (.bool true) b e = .htmlString (" " ++ b) ∧
    addAttribute (.bool false) "disabled" e = .str "" := by
  refine ⟨rfl, rfl, ?_, ?_⟩
  · have hs : STATIC_DIRECTIVES.contains b = false := by
      by_contra hcon
      have hmem : b ∈ STATIC_DIRECTIVES := by simpa using hcon
      simp only [STATIC_DIRECTIVES, List.mem_cons, List.mem_singleton, List.not_mem_nil,
        or_false] at hmem
      rcases hmem with rfl | rfl <;> exact absurd hb (by decide)
    have hc : b ≠ "class:list" := by
      rintro rfl
      exact absurd hb (by decide)
    have hn : b ≠ "className" := by
      rintro rfl
      exact absurd hb (by decide)
    have hb2 : ("data-".data.isPrefixOf b.data || testNamesIgnoreCase htmlBooleanAttributes b)
        = true := by
      rcases hb with h | h <;> simp [h]
    simp only [addAttribute, Val.isNullish, Val.isBool, hs, hc, hn, Val.typeofObject,
      Val.instanceofHTMLString, hb2, markHTMLString]
    simp
  · cases e <;> rfl

theorem addAttribute_nullish_and_bare_witness :
    addAttribute .null "x" true = .str "" ∧
    addAttribute .undefined "x" true = .str "" ∧
    addAttribute (.bool true) "disabled" true = .htmlString (" " ++ "disabled") ∧
    addAttribute (.bool false) "disabled" true = .str "" :=
  addAttribute_nullish_and_bare "x" "disabled" true (Or.inl (by decide))

/-- C10. For the value `false`, `addAttribute` returns ` key="false"` when
the key is one of the attributes that take the values `true` and `false`
(those of `htmlEnumAttributes` and `svgEnumAttributes`, in any letter case),
and the empty string for every other key. -/
theorem addAttribute_false (key : String) (e : Bool) :
    addAttribute (.bool false) key e =
      if asciiLower key ∈ ["contenteditable", "draggable", "spellcheck", "value",
          "autoreverse", "externalresourcesrequired", "focusable", "preservealpha"]
      then .htmlString (" " ++ key ++ "=\"false\"") else .str "" := by
  have h : (testNamesIgnoreCase htmlEnumAttributes key ||
      testNamesIgnoreCase svgEnumAttributes key) = true ↔
      asciiLower key ∈ ["contenteditable", "draggable", "spellcheck", "value",
          "autoreverse", "externalresourcesrequired", "focusable", "preservealpha"] := by
    rw [Bool.or_eq_true, testNamesIgnoreCase_iff, testNamesIgnoreCase_iff]
    have h1 : htmlEnumAttributes.map asciiLower =
        ["contenteditable", "draggable", "spellcheck", "value"] := by decide
    have h2 : svgEnumAttributes.map asciiLower =
        ["autoreverse", "externalresourcesrequired", "focusable", "preservealpha"] := by decide
    rw [h1, h2]
    simp only [List.mem_cons, List.mem_singleton, List.not_mem_nil, or_false]
    tauto
  simp only [addAttribute, Val.isNullish, Val.isBool, markHTMLString, Val.instanceofHTMLString]
  by_cases hk : asciiLower key ∈ ["contenteditable", "draggable", "spellcheck", "value",
          "autoreverse", "externalresourcesrequired", "focusable", "preservealpha"]
  · rw [if_pos hk]
    have := h.mpr hk
    simp [this]
  · rw [if_neg hk]
    have : (testNamesIgnoreCase htmlEnumAttributes key ||
      testNamesIgnoreCase svgEnumAttributes key) = false := by
      rw [← Bool.not_eq_true]
      exact fun hc => hk (h.mp hc)
    simp [this]

/-! ## Serialization of props and its inverse -/

/-- C1, at the failing input `props = { "": 1 }`: the serialized text is
`{"":[0,1]}`, and the island reads it back as `{ "": [0, 1] }`, since the
reviver takes the empty key for the root and returns the tuple as it is;
the props themselves are `{ "": 1 }`. -/
theorem roundtrip_fails_on_empty_key (newRegExp : String → Except String String) :
    serializeProps [.plain [("", .num 1)]] 3 0 ⟨"Counter", "load"⟩ =
      .ok "\x7b\"\":[0,1]\x7d" ∧
    deserializeProps newRegExp 6 "\x7b\"\":[0,1]\x7d" =
      .ok (.obj [("", .arr [.num 0, .num 1])]) ∧
    unfold [.plain [("", .num 1)]] 1 (.ref 0) = some (.obj [("", .num 1)]) ∧
    Data.obj [("", .arr [.num 0, .num 1])] ≠ Data.obj [("", .num 1)] := by
  refine ⟨by decide, by rfl, by rfl, ?_⟩
  intro h
  injection h with h
  injection h with h _
  injection h with _ h
  cases h

theorem reviveItems_leaves (f : String → Json → Outcome Data) (a b : Json) (x y : Data)
    (ha : f "0" a = .ok x) (hb : f "1" b = .ok y) :
    reviveItems f 0 [a, b] = .ok [x, y] := by
  have h0 : toString 0 = "0" := by decide
  have h1 : toString (0 + 1) = "1" := by decide
  simp [reviveItems, h0, h1, ha, hb]

theorem deserialize_regexp_form (newRegExp : String → Except String String) (fuel : Nat)
    (key source : String) (hkey : key ≠ "") :
    deserializeForm newRegExp (fuel + 3) key (.arr [.num 2, .str source]) =
      match newRegExp source with
      | .ok text => .ok (.regexp text "")
      | .error message => .thrown "SyntaxError" message := by
  have hnum : internalize newRegExp (fuel + 2) "0" (.num 2) = .ok (.num 2) := by
    simp [internalize, reviver, Json.leaf]
  have hstr : internalize newRegExp (fuel + 2) "1" (.str source) = .ok (.str source) := by
    simp [internalize, reviver, Json.leaf]
  have hitems : reviveItems (internalize newRegExp (fuel + 2)) 0 [.num 2, .str source] =
      .ok [.num 2, .str source] :=
    reviveItems_leaves _ _ _ _ _ hnum hstr
  simp only [deserializeForm, internalize, hitems, reviver, hkey, ↓reduceIte, typeCodeOf,
    List.getD_cons_zero, List.getD_cons_succ, typeCodeTable]
  rfl

/-- C2, the claim as stated fails: the regular expression `/a/g` is
serialized as `[2, "a"]` and read back, by `new RegExp("a")`, as `/a/`,
without its flag. -/
theorem regexp_flags_lost :
    convertToSerializedForm [.regexp "a" "g"] ⟨"Counter", "load"⟩ 1 (.val (.ref 0)) ⟨[], 0⟩ =
      .ok (.arr [.num 2, .str "a"], ⟨[], 0⟩) ∧
    deserializeForm (fun text => .ok text) 3 "pattern" (.arr [.num 2, .str "a"]) =
      .ok (.regexp "a" "") ∧
    unfold [.regexp "a" "g"] 1 (.ref 0) = some (.regexp "a" "g") ∧
    Data.regexp "a" "" ≠ Data.regexp "a" "g" := by
  refine ⟨by rfl, by rfl, by rfl, ?_⟩
  intro h
  injection h with _ h
  revert h
  decide

/-- C2, amended. For every regular expression `r` and every metadata and
state, `convertToSerializedForm(r)` is the tuple `[2, r.source]`, and the
island, finding the tuple under any key but the empty one, calls
`new RegExp(r.source)`: when the constructor returns, as it does with the
source of `r` when that source is a pattern without flags, the island gets
the regular expression that it built, which has no flags and is equal to `r`
exactly when its source is that of `r` and `r` has no flags; when the
constructor throws, as for a source that is a pattern under the flag `u` or
`v` of `r` only, the island throws its `SyntaxError`. -/
theorem regexp_source_roundtrip (newRegExp : String → Except String String) (heap : Heap)
    (metadata : Metadata) (a : Nat) (source flags key : String) (st : SerState) (fuel : Nat)
    (hobj : heap.obj a = .regexp source flags) (hkey : key ≠ "") :
    convertToSerializedForm heap metadata (fuel + 1) (.val (.ref a)) st =
      .ok (.arr [.num 2, .str source], st) ∧
    (∀ rebuilt, newRegExp source = .ok rebuilt →
      deserializeForm newRegExp (fuel + 3) key (.arr [.num 2, .str source]) =
        .ok (.regexp rebuilt "") ∧
      (Data.regexp rebuilt "" = Data.regexp source flags ↔ rebuilt = source ∧ flags = "")) ∧
    (∀ message, newRegExp source = .error message →
      deserializeForm newRegExp (fuel + 3) key (.arr [.num 2, .str source]) =
        .thrown "SyntaxError" message) := by
  refine ⟨?_, fun rebuilt h => ⟨?_, ?_⟩, fun message h => ?_⟩
  · simp [convertToSerializedForm, hobj, tagged, PROP_TYPE.code]
  · rw [deserialize_regexp_form newRegExp fuel key source hkey, h]
  · constructor
    · intro h
      injection h with h1 h2
      exact ⟨h1, h2.symm⟩
    · rintro ⟨rfl, rfl⟩
      rfl
  · rw [deserialize_regexp_form newRegExp fuel key source hkey, h]

theorem regexp_source_roundtrip_witness :
    deserializeForm (fun text => if text = "[😀-😏]" then .error "Range out of order"
        else .ok text) (0 + 3) "pattern" (.arr [.num 2, .str "a+"]) = .ok (.regexp "a+" "") ∧
    deserializeForm (fun text => if text = "[😀-😏]" then .error "Range out of order"
        else .ok text) (0 + 3) "pattern" (.arr [.num 2, .str "[😀-😏]"]) =
      .thrown "SyntaxError" "Range out of order" :=
  ⟨(regexp_source_roundtrip (fun text => if text = "[😀-😏]" then .error "Range out of order"
      else .ok text) [.regexp "a+" "gi"] ⟨"Counter", "load"⟩ 0 "a+" "gi" "pattern"
      ⟨[], 0⟩ 0 rfl (by decide)).2.1 "a+" (by simp) |>.1,
    (regexp_source_roundtrip (fun text => if text = "[😀-😏]" then .error "Range out of order"
      else .ok text) [.regexp "[😀-😏]" "u"] ⟨"Counter", "load"⟩ 0 "[😀-😏]" "u" "pattern"
      ⟨[], 0⟩ 0 rfl (by decide)).2.2 "Range out of order" (by simp)⟩

/-! ## Maps and Sets that contain themselves -/

theorem freshBelow_not_mem (st : SerState) (h : FreshBelow st) (n : Nat)
    (hn : st.next ≤ n) : Ident.fresh n ∉ st.parents := by
  intro hc
  have := h n hc
  omega

theorem freshBelow_push (st : SerState) (h : FreshBelow st) (n k : Nat)
    (hn : n < k) (hk : st.next ≤ k) :
    FreshBelow { parents := Ident.fresh n :: st.parents, next := k } := by
  intro m hm
  simp only [List.mem_cons] at hm
  rcases hm with hm | hm
  · injection hm with hm
    subst hm
    exact hn
  · exact lt_of_lt_of_le (h m hm) hk

theorem self_map_pending (heap : Heap) (metadata : Metadata) (m : Nat) (key : String)
    (hobj : heap.obj m = .map [(.str key, .ref m)]) :
    ∀ fuel st, FreshBelow st →
      convertToSerializedForm heap metadata fuel (.val (.ref m)) st = .pending := by
  intro fuel
  induction fuel using Nat.strong_induction_on with
  | _ fuel ih =>
    intro st hst
    have hc := freshBelow_not_mem st hst st.next le_rfl
    have hc1 := freshBelow_not_mem st hst (st.next + 1) (by omega)
    match fuel with
    | 0 => rfl
    | 1 => simp [convertToSerializedForm, hobj, serializeArray]
    | 2 =>
      simp [convertToSerializedForm, hobj, arrayFromMap, Target.items, serializeArray,
        hc, hc1, mapOutcome]
    | 3 =>
      simp [convertToSerializedForm, hobj, arrayFromMap, Target.items, serializeArray,
        hc, hc1, mapOutcome]
    | 4 =>
      simp [convertToSerializedForm, hobj, arrayFromMap, Target.items, serializeArray,
        hc, hc1, mapOutcome]
    | f + 5 =>
      have h1 := freshBelow_push st hst st.next (st.next + 1 + 1) (by omega) (by omega)
      have h2 := freshBelow_push _ h1 (st.next + 1) (st.next + 1 + 1) (by omega) (by simp)
      have hrec := ih (f + 1) (by omega) _ h2
      simp [convertToSerializedForm, hobj, arrayFromMap, Target.items, serializeArray,
        hc, hc1, mapOutcome] at hrec ⊢
      rw [hrec]

theorem self_set_pending (heap : Heap) (metadata : Metadata) (m : Nat)
    (hobj : heap.obj m = .set [.ref m]) :
    ∀ fuel st, FreshBelow st →
      convertToSerializedForm heap metadata fuel (.val (.ref m)) st = .pending := by
  intro fuel
  induction fuel using Nat.strong_induction_on with
  | _ fuel ih =>
    intro st hst
    have hc := freshBelow_not_mem st hst st.next le_rfl
    match fuel with
    | 0 => rfl
    | 1 => simp [convertToSerializedForm, hobj, serializeArray]
    | f + 2 =>
      have h1 := freshBelow_push st hst st.next (st.next + 1) (by omega) (by omega)
      have hrec := ih f (by omega) _ h1
      simp [convertToSerializedForm, hobj, arrayFromSet, Target.items, serializeArray,
        hc, mapOutcome, hrec]

theorem freshBelow_initial : FreshBelow ⟨[], 0⟩ := by
  intro n hn
  simp at hn

/-- C4, at the failing inputs `m = new Map(); m.set("self", m)` and
`s = new Set(); s.add(s)`: whatever depth of the call stack is allowed,
`convertToSerializedForm` has neither returned nor thrown the
cyclic-reference error within it, and neither has `serializeProps` on
props that hold the Map. -/
theorem self_containing_map_recurses_without_bound (metadata : Metadata) (fuel : Nat) :
    convertToSerializedForm [.map [(.str "self", .ref 0)]] metadata fuel (.val (.ref 0))
      ⟨[], 0⟩ = .pending ∧
    convertToSerializedForm [.set [.ref 0]] metadata fuel (.val (.ref 0)) ⟨[], 0⟩ = .pending ∧
    serializeProps [.plain [("m", .ref 1)], .map [(.str "self", .ref 1)]] fuel 0 metadata =
      .pending := by
  refine ⟨self_map_pending [.map [(.str "self", .ref 0)]] metadata 0 "self" rfl fuel _
      freshBelow_initial,
    self_set_pending [.set [.ref 0]] metadata 0 rfl fuel _ freshBelow_initial, ?_⟩
  match fuel with
  | 0 => rfl
  | f + 1 =>
    have h1 : FreshBelow ⟨[Ident.heap 0], 0⟩ := by
      intro n hn
      simp at hn
    have hrec := self_map_pending [.plain [("m", .ref 1)], .map [(.str "self", .ref 1)]]
      metadata 1 "self" rfl f _ h1
    simp [serializeProps, serializeObject, Heap.obj, HObj.entries, mapOutcome, hrec]

/-! ## Cycles through plain objects and arrays -/

theorem mapOutcome_ok_elim {α β σ : Type} (f : α → σ → Outcome (β × σ)) :
    ∀ (xs : List α) (s : σ) (ys : List β) (s2 : σ), mapOutcome f xs s = .ok (ys, s2) →
      ∀ x ∈ xs, ∃ s1 y s3, f x s1 = .ok (y, s3) := by
  intro xs
  induction xs with
  | nil => intro s ys s2 _ x hx; simp at hx
  | cons a xs ih =>
    intro s ys s2 h x hx
    simp only [mapOutcome] at h
    cases hfa : f a s with
    | ok r =>
      obtain ⟨y, s1⟩ := r
      simp only [hfa] at h
      cases hrest : mapOutcome f xs s1 with
      | ok r2 =>
        obtain ⟨ys2, s4⟩ := r2
        rcases List.mem_cons.mp hx with rfl | hx
        · exact ⟨s, y, s1, hfa⟩
        · exact ih s1 ys2 s4 hrest x hx
      | thrown n m => simp [hrest] at h
      | pending => simp [hrest] at h
    | thrown n m => simp [hfa] at h
    | pending => simp [hfa] at h

theorem mapOutcome_thrown_elim {α β σ : Type} (f : α → σ → Outcome (β × σ)) :
    ∀ (xs : List α) (s : σ) (n m : String), mapOutcome f xs s = .thrown n m →
      ∃ x ∈ xs, ∃ s1, f x s1 = .thrown n m := by
  intro xs
  induction xs with
  | nil => intro s n m h; simp [mapOutcome] at h
  | cons a xs ih =>
    intro s n m h
    simp only [mapOutcome] at h
    cases hfa : f a s with
    | ok r =>
      obtain ⟨y, s1⟩ := r
      simp only [hfa] at h
      cases hrest : mapOutcome f xs s1 with
      | ok r2 => simp [hrest] at h
      | thrown n2 m2 =>
        simp only [hrest, Outcome.thrown.injEq] at h
        obtain ⟨x, hx, s2, hx2⟩ := ih s1 n2 m2 hrest
        exact ⟨x, List.mem_cons_of_mem _ hx, s2, by rw [hx2, h.1, h.2]⟩
      | pending => simp [hrest] at h
    | thrown n2 m2 =>
      simp only [hfa] at h
      simp only [Outcome.thrown.injEq] at h
      exact ⟨a, List.mem_cons_self _ _, s, by rw [hfa, h.1, h.2]⟩
    | pending => simp [hfa] at h

theorem mapOutcome_invariant {α β σ : Type} (f : α → σ → Outcome (β × σ)) (Inv : σ → Prop) :
    ∀ (xs : List α), (∀ x ∈ xs, ∀ s y s1, Inv s → f x s = .ok (y, s1) → Inv s1) →
      ∀ (s : σ) (ys : List β) (s2 : σ), Inv s → mapOutcome f xs s = .ok (ys, s2) → Inv s2 := by
  intro xs
  induction xs with
  | nil =>
    intro _ s ys s2 hs h
    simp only [mapOutcome, Outcome.ok.injEq, Prod.mk.injEq] at h
    exact h.2 ▸ hs
  | cons a xs ih =>
    intro hf s ys s2 hs h
    simp only [mapOutcome] at h
    cases hfa : f a s with
    | ok r =>
      obtain ⟨y, s1⟩ := r
      simp only [hfa] at h
      have hs1 := hf a (List.mem_cons_self _ _) s y s1 hs hfa
      cases hrest : mapOutcome f xs s1 with
      | ok r2 =>
        obtain ⟨ys2, s4⟩ := r2
        simp only [hrest, Outcome.ok.injEq, Prod.mk.injEq] at h
        have := ih (fun x hx => hf x (List.mem_cons_of_mem _ hx)) s1 ys2 s4 hs1 hrest
        exact h.2 ▸ this
      | thrown n m => simp [hrest] at h
      | pending => simp [hrest] at h
    | thrown n m => simp [hfa] at h
    | pending => simp [hfa] at h

theorem mapOutcome_not_pending {α β σ : Type} (f : α → σ → Outcome (β × σ)) (Inv : σ → Prop) :
    ∀ (xs : List α), (∀ x ∈ xs, ∀ s y s1, Inv s → f x s = .ok (y, s1) → Inv s1) →
      (∀ x ∈ xs, ∀ s, Inv s → f x s ≠ .pending) →
      ∀ (s : σ), Inv s → mapOutcome f xs s ≠ .pending := by
  intro xs
  induction xs with
  | nil => intro _ _ s _; simp [mapOutcome]
  | cons a xs ih =>
    intro hf hp s hs
    simp only [mapOutcome]
    cases hfa : f a s with
    | ok r =>
      obtain ⟨y, s1⟩ := r
      have hs1 := hf a (List.mem_cons_self _ _) s y s1 hs hfa
      have := ih (fun x hx => hf x (List.mem_cons_of_mem _ hx))
        (fun x hx => hp x (List.mem_cons_of_mem _ hx)) s1 hs1
      cases hrest : mapOutcome f xs s1 with
      | ok r2 => simp [hrest]
      | thrown n m => simp [hrest]
      | pending => exact absurd hrest this
    | thrown n m => simp
    | pending => exact absurd hfa (hp a (List.mem_cons_self _ _) s hs)

theorem serializeArray_succ (heap : Heap) (metadata : Metadata) (fuel : Nat) (id : Ident)
    (elems : List Target) (st : SerState) :
    serializeArray heap metadata (fuel + 1) id elems st =
      if st.parents.contains id then .thrown "Error" (cyclicMessage metadata)
      else
        match mapOutcome (convertToSerializedForm heap metadata fuel) elems
            { st with parents := id :: st.parents } with
        | .ok (serialized, st1) =>
          .ok (.arr serialized, { st1 with parents := st1.parents.erase id })
        | .thrown n m => .thrown n m
        | .pending => .pending := by
  simp only [serializeArray]

/-- The function that `serializeObject` maps over the entries. -/
theorem serializeObject_succ (heap : Heap) (metadata : Metadata) (fuel : Nat) (id : Ident)
    (entries : List (String × PVal)) (st : SerState) :
    serializeObject heap metadata (fuel + 1) id entries st =
      if st.parents.contains id then .thrown "Error" (cyclicMessage metadata)
      else
        match mapOutcome (fun (p : String × PVal) s =>
            match convertToSerializedForm heap metadata fuel (.val p.2) s with
            | .ok (j, s1) => .ok ((p.1, j), s1)
            | .thrown n m => .thrown n m
            | .pending => .pending) entries
            { st with parents := id :: st.parents } with
        | .ok (serialized, st1) =>
          .ok (.obj (objectFromEntries serialized),
            { st1 with parents := st1.parents.erase id })
        | .thrown n m => .thrown n m
        | .pending => .pending := by
  simp only [serializeObject]

theorem convert_array (heap : Heap) (metadata : Metadata) (fuel id : Nat)
    (elems : List Target) (st : SerState) :
    convertToSerializedForm heap metadata (fuel + 1) (.array id elems) st =
      match serializeArray heap metadata fuel (.fresh id) elems st with
      | .ok (j, st1) => .ok (tagged .JSON (.str (jsonText j)), st1)
      | .thrown n m => .thrown n m
      | .pending => .pending := by
  simp only [convertToSerializedForm]

theorem convert_primitive (heap : Heap) (metadata : Metadata) (fuel : Nat) (v : PVal)
    (st : SerState) (hv : ∀ a, v ≠ .ref a) :
    ∃ j, convertToSerializedForm heap metadata (fuel + 1) (.val v) st = .ok (j, st) := by
  cases v with
  | ref a => exact absurd rfl (hv a)
  | _ => exact ⟨_, by simp only [convertToSerializedForm]; rfl⟩

/-! ## Style objects -/

theorem toNat_ofNat_valid (n : Nat) (hv : n.isValidChar) : (Char.ofNat n).toNat = n := by
  unfold Char.ofNat
  rw [dif_pos hv]
  rfl

theorem toLower_ne_of_isUpper (c : Char) (h : c.isUpper = true) : c.toLower ≠ c := by
  intro hc
  have h1 : c.toNat ≥ 65 ∧ c.toNat ≤ 90 := by
    simp only [Char.isUpper, Bool.and_eq_true, decide_eq_true_eq] at h
    exact ⟨h.1, h.2⟩
  have h2 : c.toLower.toNat = c.toNat + 32 := by
    unfold Char.toLower
    simp only [h1, and_self, ↓reduceIte]
    exact toNat_ofNat_valid _ (Or.inl (by omega))
  rw [hc] at h2
  omega

theorem kebab_eq_spec (k : String) : kebab k = kebabSpec k := by
  unfold kebab kebabSpec
  split_ifs with h
  · apply String.ext
    have h2 : k.data.map Char.toLower = k.data := congrArg String.data h
    simp only
    generalize k.data = cs at h2
    induction cs with
    | nil => rfl
    | cons c cs ih =>
      simp only [List.map_cons, List.cons.injEq] at h2
      have hc : c.isUpper = false := by
        by_contra hu
        exact toLower_ne_of_isUpper c (by simpa using hu) h2.1
      simp [List.flatMap_cons, hc, ← ih h2.2]
  · rfl

/-- C13, the claim as stated fails: with escaping on (the default), the
value written for `{ content: '"x"' }` is `content:&#34;x&#34;`, not the
joined entries `content:"x"`. -/
theorem style_value_is_escaped :
    addAttribute (.obj [("content", .str "\"x\"")]) "style" true =
      .htmlString " style=\"content:&#34;x&#34;\"" ∧
    styleTextSpec [("content", .str "\"x\"")] = "content:\"x\"" ∧
    Val.htmlString " style=\"content:&#34;x&#34;\"" ≠
      .htmlString (" style=\"" ++ styleTextSpec [("content", .str "\"x\"")] ++ "\"") := by
  refine ⟨by rfl, by decide, ?_⟩
  intro h
  injection h with h
  revert h
  decide

/-- C13, amended. For every plain object `o` given as the `style` attribute,
`addAttribute(o, "style")` is ` style="v"` where `v` is the text made of the
entries of `o` in order, each written as `kebab(key)`, `:` and the value and
joined by `;`, with `&` and `"` written as `&#38;` and `&#34;` when escaping
is on; `kebab` turns each upper-case letter into `-` and its lower-case form
and leaves a key without upper-case letters unchanged. -/
theorem style_object_attribute (es : List (String × Val)) (shouldEscape : Bool) (k : String) :
    addAttribute (.obj es) "style" shouldEscape =
      .htmlString (" style=\"" ++
        (if shouldEscape then escapeAttributeSinglePass (styleTextSpec es)
          else styleTextSpec es) ++ "\"") ∧
    kebab k = kebabSpec k ∧
    kebab "backgroundColor" = "background-color" ∧
    ((∀ c ∈ k.data, c.isUpper = false) → kebab k = k) := by
  refine ⟨?_, kebab_eq_spec k, by decide, ?_⟩
  · have hs : toStyleString (.obj es) = styleTextSpec es := by
      simp only [toStyleString, styleTextSpec, objectEntries, kebab_eq_spec]
    have h1 : "style" ∉ STATIC_DIRECTIVES := by decide
    have h2 : ("style" : String) ≠ "class:list" := by decide
    cases shouldEscape <;>
      simp [addAttribute, Val.isNullish, Val.isBool, h1, h2, Val.typeofObject,
        Val.instanceofHTMLString, toAttributeString, toStringJS, markHTMLString, hs,
        toAttributeString_two_passes]
  · intro h
    rw [kebab_eq_spec]
    apply String.ext
    simp only [kebabSpec]
    generalize k.data = cs at h
    induction cs with
    | nil => rfl
    | cons c cs ih =>
      simp only [List.flatMap_cons, h c (List.mem_cons_self _ _), Bool.false_eq_true,
        ↓reduceIte, List.singleton_append, List.cons.injEq, true_and]
      exact ih fun x hx => h x (List.mem_cons_of_mem _ hx)

theorem style_object_attribute_witness :
    kebab "color" = "color" :=
  (style_object_attribute [] true "color").2.2.2 (by decide)

/-! ## Elements -/

/-- C12, the claim as stated fails: `param` is not in the claim's list of
void elements, yet with empty children it is written self-closing, not as
`<param></param>`. -/
theorem renderElement_param_self_closing :
    renderElement "param" [] (.str "") true = "<param />" ∧
    renderElement "param" [] (.str "") true ≠ "<param></param>" := by
  decide

theorem filter_filter_keys (es : List (String × Val)) (A B : List String) :
    (es.filter fun p => !A.contains p.1).filter (fun p => !B.contains p.1) =
      es.filter fun p => !(A ++ B).contains p.1 := by
  rw [List.filter_filter]
  congr 1
  funext p
  simp only [List.contains_eq_any_beq, List.any_append, Bool.not_or]
  exact Bool.and_comm _ _

/-- C12, amended. For every name, props and children, `renderElement`
writes as `attrs` the attributes of the props other than `lang`,
`data-astro-id` and `define:vars`, and, when `define:vars` is truthy, other
than `is:global` and `is:scoped` in a `style` and `hoist` in a `script`; it
writes as children the given ones, the empty string for `undefined`, after
the declarations of `defineScriptVars` and a line feed in a `script` with a
truthy `define:vars`. It returns the self-closing form `<name attrs />`
when the name is, in any letter case, one of `area`, `base`, `br`, `col`,
`command`, `embed`, `hr`, `img`, `input`, `keygen`, `link`, `meta`, `param`,
`source`, `track`, `wbr` and the children it writes are `null` or loosely
equal to the empty string, and the form `<name attrs>children</name>` in
every other case. -/
theorem renderElement_forms (name : String) (_props : List (String × Val)) (children : Val)
    (shouldEscape : Bool) (attrs : String) (written : Val)
    (hattrs : attrs = toStringJS (internalSpreadAttributes
      (_props.filter fun p =>
        !(["lang", "data-astro-id", "define:vars"] ++
          (if (lookup _props "define:vars").truthy = true ∧ name = "style" then
            ["is:global", "is:scoped"] else []) ++
          (if (lookup _props "define:vars").truthy = true ∧ name = "script" then
            ["hoist"] else [])).contains p.1) shouldEscape))
    (hwritten : written =
      if (lookup _props "define:vars").truthy = true ∧ name = "script" then
        .str (toStringJS (defineScriptVars (lookup _props "define:vars")) ++ "\n" ++
          toStringJS (match children with
            | .undefined => Val.str ""
            | c => c))
      else
        match children with
        | .undefined => .str ""
        | c => c) :
    renderElement name _props children shouldEscape =
      if asciiLower name ∈ ["area", "base", "br", "col", "command", "embed", "hr", "img",
            "input", "keygen", "link", "meta", "param", "source", "track", "wbr"] ∧
          (written.isNullish = true ∨ written.looseEqEmpty = true) then
        "<" ++ name ++ attrs ++ " />"
      else "<" ++ name ++ attrs ++ ">" ++ toStringJS written ++ "</" ++ name ++ ">" := by
  have hv : testNamesIgnoreCase voidElementNames name = true ↔
      asciiLower name ∈ ["area", "base", "br", "col", "command", "embed", "hr", "img",
            "input", "keygen", "link", "meta", "param", "source", "track", "wbr"] := by
    rw [testNamesIgnoreCase_iff]
    have h1 : voidElementNames.map asciiLower =
        ["area", "base", "br", "col", "command", "embed", "hr", "img",
            "input", "keygen", "link", "meta", "param", "source", "track", "wbr"] := by decide
    rw [h1]
  have hp : elementProps name _props =
      _props.filter fun p =>
        !(["lang", "data-astro-id", "define:vars"] ++
          (if (lookup _props "define:vars").truthy = true ∧ name = "style" then
            ["is:global", "is:scoped"] else []) ++
          (if (lookup _props "define:vars").truthy = true ∧ name = "script" then
            ["hoist"] else [])).contains p.1 := by
    unfold elementProps withoutKeys
    by_cases hd : (lookup _props "define:vars").truthy = true
    · by_cases h1 : name = "style"
      · have h2 : ¬ name = "script" := by rw [h1]; decide
        simp only [hd, h1, ↓reduceIte, true_and, filter_filter_keys, List.append_nil]
        simp
      · by_cases h2 : name = "script"
        · simp only [hd, h1, h2, ↓reduceIte, true_and, and_false, filter_filter_keys,
            List.append_nil]
          simp
          congr 1
          funext p
          ac_rfl
        · simp [hd, h1, h2]
    · simp [hd]
  have hc : elementChildren name _props children = written := by
    rw [hwritten]
    unfold elementChildren
    by_cases hd : (lookup _props "define:vars").truthy = true ∧ name = "script"
    · simp only [hd.1, hd.2, Bool.true_and, decide_True, and_self, ↓reduceIte]
    · rw [if_neg hd]
      have : ((lookup _props "define:vars").truthy && decide (name = "script")) = false := by
        simpa using hd
      simp only [this, Bool.false_eq_true, ↓reduceIte]
  simp only [renderElement, Bool.and_eq_true, Bool.or_eq_true, hv, hp, hc, ← hattrs]
  by_cases h : asciiLower name ∈ ["area", "base", "br", "col", "command", "embed", "hr", "img",
            "input", "keygen", "link", "meta", "param", "source", "track", "wbr"] ∧
          (written.isNullish = true ∨ written.looseEqEmpty = true)
  · rw [if_pos h, if_pos ⟨h.2, h.1⟩]
  · rw [if_neg h, if_neg fun hc => h ⟨hc.2, hc.1⟩]

theorem renderElement_forms_witness :
    renderElement "script" [("define:vars", .obj [("a", .num 1)]), ("hoist", .bool true),
        ("lang", .str "ts"), ("type", .str "module")] (.str "x") true =
      "<script type=\"module\">const a = 1;\n\nx</script>" ∧
    renderElement "BR" [("class", .str "a")] .undefined true = "<BR class=\"a\" />" :=
  ⟨(renderElement_forms "script" [("define:vars", .obj [("a", .num 1)]), ("hoist", .bool true),
      ("lang", .str "ts"), ("type", .str "module")] (.str "x") true " type=\"module\""
      (.str "const a = 1;\n\nx") (by decide) (by rfl)).trans (by decide),
    (renderElement_forms "BR" [("class", .str "a")] .undefined true " class=\"a\""
      (.str "") (by decide) (by rfl)).trans (by decide)⟩

/-! ## Class lists -/

theorem hashSet_mem (h : List String) (n x : String) :
    x ∈ hashSet h n ↔ x ∈ h ∨ (x = n ∧ x ≠ "__proto__") := by
  unfold hashSet
  split_ifs with h1 h2
  · constructor
    · exact Or.inl
    · rintro (hx | ⟨rfl, hx⟩)
      · exact hx
      · exact absurd h1 hx
  · constructor
    · exact Or.inl
    · rintro (hx | ⟨rfl, -⟩)
      · exact hx
      · simpa using h2
  · simp only [List.mem_append, List.mem_singleton]
    constructor
    · rintro (hx | rfl)
      · exact Or.inl hx
      · exact Or.inr ⟨rfl, h1⟩
    · rintro (hx | ⟨rfl, -⟩)
      · exact Or.inl hx
      · exact Or.inr rfl

theorem hashSet_nodup (h : List String) (n : String) (hn : h.Nodup) : (hashSet h n).Nodup := by
  unfold hashSet
  split_ifs with h1 h2
  · exact hn
  · exact hn
  · rw [List.nodup_append]
    refine ⟨hn, List.nodup_singleton _, ?_⟩
    intro a ha hb
    simp only [List.mem_singleton] at hb
    subst hb
    exact h2 (by simpa using ha)

theorem foldl_hashSet (names : List String) :
    ∀ h : List String, h.Nodup →
      (names.foldl hashSet h).Nodup ∧
      ∀ x, x ∈ names.foldl hashSet h ↔ x ∈ h ∨ (x ∈ names ∧ x ≠ "__proto__") := by
  induction names with
  | nil => intro h hn; simp [hn]
  | cons n names ih =>
    intro h hn
    obtain ⟨h1, h2⟩ := ih (hashSet h n) (hashSet_nodup h n hn)
    refine ⟨h1, fun x => ?_⟩
    simp only [List.foldl_cons, h2, hashSet_mem, List.mem_cons]
    tauto

theorem pushPrimitive_str (h : List String) (s : String) :
    pushPrimitive h (.str s) = (splitWhitespace (jsTrim s)).foldl hashSet h := by
  simp only [pushPrimitive, toStringJS]
  split_ifs with h1
  · rfl
  · have : jsTrim s = "" := by simpa using h1
    rw [this]
    rfl

theorem pushKeys_spec (es : List (String × Val)) :
    ∀ h : List String, h.Nodup →
      (pushKeys h es).Nodup ∧
      ∀ x, x ∈ pushKeys h es ↔ x ∈ h ∨
        (x ∈ (es.flatMap fun p => if p.2.truthy then splitWhitespace (jsTrim p.1) else []) ∧
          x ≠ "__proto__") := by
  induction es with
  | nil => intro h hn; simp [pushKeys, hn]
  | cons p es ih =>
    intro h hn
    simp only [pushKeys, List.foldl_cons] at ih ⊢
    by_cases ht : p.2.truthy = true
    · simp only [ht, ↓reduceIte, List.flatMap_cons, List.mem_append]
      rw [pushPrimitive_str]
      obtain ⟨h1, h2⟩ := foldl_hashSet (splitWhitespace (jsTrim p.1)) h hn
      obtain ⟨h3, h4⟩ := ih _ h1
      refine ⟨h3, fun x => ?_⟩
      rw [h4, h2]
      tauto
    · simp only [ht, Bool.false_eq_true, ↓reduceIte, List.flatMap_cons, List.nil_append]
      exact ih h hn

mutual
theorem push_spec : ∀ (v : Val), isClassList v = true → ∀ h : List String, h.Nodup →
    (push h v).Nodup ∧
    ∀ x, x ∈ push h v ↔ x ∈ h ∨ (x ∈ selectedNames v ∧ x ≠ "__proto__")
  | .str s, _, h, hn => by
    have := foldl_hashSet (splitWhitespace (jsTrim s)) h hn
    simpa only [push, pushPrimitive_str, selectedNames] using this
  | .arr xs, hv, h, hn => by
    simp only [isClassList] at hv
    simpa only [push, selectedNames] using pushItems_spec xs hv h hn
  | .obj es, hv, h, hn => by
    have hf : hasForEachMethod es = false := by simpa [isClassList] using hv
    simpa only [push, selectedNames, hf, Bool.false_eq_true, ↓reduceIte] using
      pushKeys_spec es h hn
  | .undefined, hv, _, _ => by simp [isClassList] at hv
  | .null, hv, _, _ => by simp [isClassList] at hv
  | .bool _, hv, _, _ => by simp [isClassList] at hv
  | .num _, hv, _, _ => by simp [isClassList] at hv
  | .htmlString _, hv, _, _ => by simp [isClassList] at hv
  | .slotString _ _, hv, _, _ => by simp [isClassList] at hv
  | .func _ _, hv, _, _ => by simp [isClassList] at hv
theorem pushItems_spec : ∀ (xs : List Val), isClassListItems xs = true →
    ∀ h : List String, h.Nodup →
    (pushItems h xs).Nodup ∧
    ∀ x, x ∈ pushItems h xs ↔ x ∈ h ∨ (x ∈ selectedNamesItems xs ∧ x ≠ "__proto__")
  | [], _, h, hn => by simp [pushItems, selectedNamesItems, hn]
  | v :: xs, hv, h, hn => by
    simp only [isClassListItems, Bool.and_eq_true] at hv
    obtain ⟨h1, h2⟩ := push_spec v hv.1 h hn
    obtain ⟨h3, h4⟩ := pushItems_spec xs hv.2 (push h v) h1
    refine ⟨by simpa only [pushItems] using h3, fun x => ?_⟩
    simp only [pushItems, selectedNamesItems, List.mem_append, h4, h2]
    tauto
end

theorem hashKeys_perm (hash : List String) : (hashKeys hash).Perm hash := by
  unfold hashKeys
  have h1 := List.perm_insertionSort
    (fun p q => (indexOfKey p).getD 0 ≤ (indexOfKey q).getD 0)
    (hash.filter fun k => (indexOfKey k).isSome)
  have h2 : (hash.filter fun k => (indexOfKey k).isNone) =
      hash.filter fun k => !(indexOfKey k).isSome := by
    congr 1
    funext k
    cases indexOfKey k <;> rfl
  rw [h2]
  exact (h1.append_right _).trans (List.filter_append_perm _ _)

theorem splitWhitespaceAux_ne_empty (cs : List Char) :
    ∀ cur : List Char, ∀ t ∈ splitWhitespaceAux cs cur, t ≠ "" := by
  induction cs with
  | nil =>
    intro cur t ht
    simp only [splitWhitespaceAux] at ht
    split_ifs at ht with h
    · simp at ht
    · simp only [List.mem_singleton] at ht
      subst ht
      intro hc
      have := congrArg String.data hc
      simp at this
      exact h (by simp [this])
  | cons c cs ih =>
    intro cur t ht
    simp only [splitWhitespaceAux] at ht
    split_ifs at ht with h1 h2
    · simp only [List.nil_append] at ht
      exact ih [] t ht
    · simp only [List.singleton_append, List.mem_cons] at ht
      rcases ht with rfl | ht
      · intro hc
        have := congrArg String.data hc
        simp at this
        exact h2 (by simp [this])
      · exact ih [] t ht
    · exact ih (c :: cur) t ht

mutual
theorem selectedNames_ne_empty : ∀ (v : Val), ∀ x ∈ selectedNames v, x ≠ ""
  | .str s, x, hx => by
    simp only [selectedNames, splitWhitespace] at hx
    exact splitWhitespaceAux_ne_empty _ _ x hx
  | .arr xs, x, hx => by
    simp only [selectedNames] at hx
    exact selectedNamesItems_ne_empty xs x hx
  | .obj es, x, hx => by
    simp only [selectedNames, List.mem_flatMap] at hx
    obtain ⟨p, -, hp⟩ := hx
    split_ifs at hp
    · exact splitWhitespaceAux_ne_empty _ _ x hp
    · simp at hp
  | .undefined, x, hx => by simp [selectedNames] at hx
  | .null, x, hx => by simp [selectedNames] at hx
  | .bool _, x, hx => by simp [selectedNames] at hx
  | .num _, x, hx => by simp [selectedNames] at hx
  | .htmlString _, x, hx => by simp [selectedNames] at hx
  | .slotString _ _, x, hx => by simp [selectedNames] at hx
  | .func _ _, x, hx => by simp [selectedNames] at hx
theorem selectedNamesItems_ne_empty : ∀ (xs : List Val), ∀ x ∈ selectedNamesItems xs, x ≠ ""
  | [], x, hx => by simp [selectedNamesItems] at hx
  | v :: xs, x, hx => by
    simp only [selectedNamesItems, List.mem_append] at hx
    rcases hx with hx | hx
    · exact selectedNames_ne_empty v x hx
    · exact selectedNamesItems_ne_empty xs x hx
end

theorem intercalate_go_length (s : String) (as : List String) :
    ∀ acc : String, acc.data.length ≤ (String.intercalate.go acc s as).data.length := by
  induction as with
  | nil => intro acc; simp [String.intercalate.go]
  | cons a as ih =>
    intro acc
    simp only [String.intercalate.go]
    refine le_trans ?_ (ih _)
    simp [String.data_append]

theorem intercalate_ne_empty (s a : String) (as : List String) (ha : a ≠ "") :
    s.intercalate (a :: as) ≠ "" := by
  intro hc
  have h1 := intercalate_go_length s as a
  simp only [String.intercalate] at hc
  rw [hc] at h1
  have h2 : a.data.length = 0 := by simpa using h1
  exact ha (String.ext (List.length_eq_zero.mp h2))

theorem escapeAttributeSinglePass_eq_empty (t : String) :
    escapeAttributeSinglePass t = "" ↔ t = "" := by
  constructor
  · intro h
    have h1 := congrArg String.data h
    simp only [escapeAttributeSinglePass] at h1
    apply String.ext
    cases hd : t.data with
    | nil => rfl
    | cons c cs =>
      rw [hd, List.flatMap_cons] at h1
      split_ifs at h1 <;> simp at h1
  · rintro rfl
    rfl

/-- C11, the claim as stated fails: with escaping on (the default), the
class name `a&b` is written `a&#38;b`, so the value of the attribute is not
the list of the selected names. -/
theorem class_list_is_escaped :
    addAttribute (.str "a&b") "class:list" true = .htmlString " class=\"a&#38;b\"" ∧
    selectedNames (.str "a&b") = ["a&b"] ∧
    Val.htmlString " class=\"a&#38;b\"" ≠
      .htmlString (" class=\"" ++ " ".intercalate (selectedNames (.str "a&b")) ++ "\"") := by
  refine ⟨by rfl, by decide, ?_⟩
  intro h
  injection h with h
  revert h
  decide

/-- C11, amended. For every `class:list` value that is a nested mixture of
strings, arrays and objects without a method `forEach` of their own, and
that selects no name `__proto__`, there is a list of names without
repetition, holding exactly the selected class names, such that
`addAttribute` returns the empty string when the list is empty and
otherwise ` class="v"`, where `v` is the names joined by single blanks, with
`&` and `"` written as `&#38;` and `&#34;` when escaping is on. -/
theorem class_list_attribute (v : Val) (shouldEscape : Bool)
    (hv : isClassList v = true) (hp : "__proto__" ∉ selectedNames v) :
    ∃ names : List String, names.Nodup ∧ (∀ x, x ∈ names ↔ x ∈ selectedNames v) ∧
      addAttribute v "class:list" shouldEscape =
        if names = [] then .str ""
        else .htmlString (" class=\"" ++
          (if shouldEscape then escapeAttributeSinglePass (" ".intercalate names)
            else " ".intercalate names) ++ "\"") := by
  obtain ⟨h1, h2⟩ := push_spec v hv [] List.nodup_nil
  have hperm := hashKeys_perm (push [] v)
  have hmem : ∀ x, x ∈ hashKeys (push [] v) ↔ x ∈ selectedNames v := by
    intro x
    rw [hperm.mem_iff, h2]
    constructor
    · rintro (hx | hx)
      · simp at hx
      · exact hx.1
    · intro hx
      exact Or.inr ⟨hx, fun hc => hp (hc ▸ hx)⟩
  refine ⟨hashKeys (push [] v), hperm.nodup_iff.mpr h1, hmem, ?_⟩
  have hn : v.isNullish = false := by cases v <;> simp_all [isClassList, Val.isNullish]
  have hb : v.isBool false = false := by cases v <;> simp_all [isClassList, Val.isBool]
  have hs : "class:list" ∉ STATIC_DIRECTIVES := by decide
  have hd : ("class:list" : String).dropRight 5 = "class" := by decide
  have htext : " ".intercalate (hashKeys (push [] v)) = "" ↔ hashKeys (push [] v) = [] := by
    constructor
    · intro h
      cases hk : hashKeys (push [] v) with
      | nil => rfl
      | cons a as =>
        rw [hk] at h
        have ha : a ≠ "" :=
          selectedNames_ne_empty v a ((hmem a).mp (hk ▸ List.mem_cons_self a as))
        exact absurd h (intercalate_ne_empty " " a as ha)
    · intro h
      rw [h]
      rfl
  by_cases hk : hashKeys (push [] v) = []
  · have ht := htext.mpr hk
    cases shouldEscape <;>
      simp [addAttribute, hn, hb, hs, hk, serializeListValue, toAttributeString,
        Val.isEmptyString, toStringJS, String.intercalate, replaceAllChar]
  · have ht : ¬ " ".intercalate (hashKeys (push [] v)) = "" := fun h => hk (htext.mp h)
    have ht2 : ¬ escapeAttributeSinglePass (" ".intercalate (hashKeys (push [] v))) = "" :=
      fun h => ht ((escapeAttributeSinglePass_eq_empty _).mp h)
    cases shouldEscape <;>
      simp [addAttribute, hn, hb, hs, hk, hd, serializeListValue, toAttributeString,
        Val.isEmptyString, toStringJS, ht, ht2, markHTMLString, Val.instanceofHTMLString,
        toAttributeString_two_passes]

theorem class_list_attribute_witness :
    ∃ names : List String, names.Nodup ∧
      (∀ x, x ∈ names ↔ x ∈ selectedNames (.arr [.str "a b", .obj [("c", .bool true)]])) ∧
      addAttribute (.arr [.str "a b", .obj [("c", .bool true)]]) "class:list" true =
        if names = [] then .str ""
        else .htmlString (" class=\"" ++
          (if true then escapeAttributeSinglePass (" ".intercalate names)
            else " ".intercalate names) ++ "\"") :=
  class_list_attribute (.arr [.str "a b", .obj [("c", .bool true)]]) true (by rfl) (by decide)

/-! ## Hydration directives -/

/-- C14, the claim as stated fails in both directions: props that hold only
`client:display-name` give a hydration record although no directive is
named, and props that hold `client:media` with the value `true` give no
record but an error. -/
theorem extractDirectives_record_without_directive :
    (∃ r h, extractDirectives "Counter" [("client:display-name", .str "Counter")] = .ok r ∧
      r.hydration = some h ∧ h.directive = "") ∧
    extractDirectives "Counter" [("client:media", .bool true)] =
      .thrown "MissingMediaQueryDirective" missingMediaQueryMessage := by
  refine ⟨⟨_, _, rfl, rfl, rfl⟩, rfl⟩

theorem markPage_hydration (e : Extracted) (k : String) :
    (markPage e k).hydration = e.hydration := by
  unfold markPage
  split_ifs <;> rfl

theorem extractStep_hydration (e e1 : Extracted) (k : String) (v : Val)
    (h : extractStep e k v = .ok e1) :
    (e1.hydration.isSome = true ↔
      e.hydration.isSome = true ∨ "client:".data.isPrefixOf k.data = true) ∧
    ((∀ x, e.hydration = some x → x.directive = "" ∨ x.directive ∈ HydrationDirectivesRaw) →
      ∀ x, e1.hydration = some x → x.directive = "" ∨ x.directive ∈ HydrationDirectivesRaw) := by
  unfold extractStep at h
  have he0 := markPage_hydration e k
  generalize markPage e k = e0 at h he0
  have hkeep : (∀ x, e.hydration = some x → x.directive = "" ∨
      x.directive ∈ HydrationDirectivesRaw) →
      (e0.hydration.getD Hydration.empty).directive = "" ∨
        (e0.hydration.getD Hydration.empty).directive ∈ HydrationDirectivesRaw := by
    intro hinv
    rw [he0]
    cases he : e.hydration with
    | none => left; rfl
    | some y => simpa using hinv y he
  by_cases hc : "client:".data.isPrefixOf k.data = true
  · simp only [hc, ↓reduceIte] at h
    split_ifs at h with h1 h2 h3 h4 h5 h6
    all_goals
      cases h
      refine ⟨by simp [hc], ?_⟩
      intro hinv x hx
      simp only [Option.some.injEq] at hx
      subst hx
      try simp only
    · exact hkeep hinv
    · exact hkeep hinv
    · exact hkeep hinv
    · exact hkeep hinv
    · right
      simpa using h5
  · simp only [hc, Bool.false_eq_true, ↓reduceIte] at h
    split_ifs at h
    all_goals
      cases h
      simp only [he0, hc, Bool.false_eq_true, or_false, true_and]
      exact fun hinv => hinv

theorem extractLoop_hydration (props : List (String × Val)) :
    ∀ (e r : Extracted), extractLoop e props = .ok r →
      (r.hydration.isSome = true ↔ e.hydration.isSome = true ∨
        ∃ p ∈ props, "client:".data.isPrefixOf p.1.data = true) ∧
      ((∀ x, e.hydration = some x → x.directive = "" ∨ x.directive ∈ HydrationDirectivesRaw) →
        ∀ x, r.hydration = some x → x.directive = "" ∨ x.directive ∈ HydrationDirectivesRaw) := by
  induction props with
  | nil =>
    intro e r h
    simp only [extractLoop, Outcome.ok.injEq] at h
    subst h
    simp
  | cons p props ih =>
    intro e r h
    obtain ⟨k, v⟩ := p
    simp only [extractLoop] at h
    cases hs : extractStep e k v with
    | ok e1 =>
      simp only [hs] at h
      obtain ⟨h1, h2⟩ := extractStep_hydration e e1 k v hs
      obtain ⟨h3, h4⟩ := ih e1 r h
      refine ⟨?_, fun hinv => h4 (h2 hinv)⟩
      rw [h3, h1]
      simp only [List.mem_cons, exists_eq_or_imp]
      tauto
    | thrown n m => simp [hs] at h
    | pending => simp [hs] at h

/-- C15, the claim as stated fails: the empty string is a string, so
`client:media=""` raises no error and is recorded as the hydration value. -/
theorem media_accepts_empty_string :
    ∃ r h, extractDirectives "Counter" [("client:media", .str "")] = .ok r ∧
      r.hydration = some h ∧ h.directive = "media" ∧ h.value = .str "" :=
  ⟨_, _, rfl, rfl, rfl, rfl⟩

theorem extractStep_plain (e : Extracted) (k : String) (v : Val) (hk : isPlainKey k = true) :
    ∃ e1, extractStep e k v = .ok e1 ∧
      ∀ h, e.hydration = some h →
        ∃ h1, e1.hydration = some h1 ∧ h1.directive = h.directive ∧ h1.value = h.value := by
  unfold extractStep
  have he0 := markPage_hydration e k
  generalize markPage e k = e0 at he0
  by_cases hc : "client:".data.isPrefixOf k.data = true
  · have hb : clientBookkeepingKeys.contains k = true := by
      simpa [isPlainKey, hc] using hk
    have hb2 : k ∈ clientBookkeepingKeys := by simpa using hb
    simp only [clientBookkeepingKeys, List.mem_cons, List.mem_singleton, List.not_mem_nil,
      or_false] at hb2
    simp only [hc, ↓reduceIte]
    rcases hb2 with rfl | rfl | rfl | rfl
    all_goals
      simp only [↓reduceIte, String.reduceEq]
      refine ⟨_, rfl, ?_⟩
      intro h hh
      rw [he0, hh]
      exact ⟨_, rfl, rfl, rfl⟩
  · simp only [hc, Bool.false_eq_true, ↓reduceIte]
    split_ifs
    all_goals
      refine ⟨_, rfl, ?_⟩
      intro h hh
      exact ⟨h, by rw [← hh]; exact he0, rfl, rfl⟩

theorem extractLoop_plain (l : List (String × Val)) :
    ∀ e : Extracted, (∀ p ∈ l, isPlainKey p.1 = true) →
      ∃ r, extractLoop e l = .ok r ∧
        ∀ h, e.hydration = some h →
          ∃ h1, r.hydration = some h1 ∧ h1.directive = h.directive ∧ h1.value = h.value := by
  induction l with
  | nil => intro e _; exact ⟨e, rfl, fun h hh => ⟨h, hh, rfl, rfl⟩⟩
  | cons p l ih =>
    intro e hl
    obtain ⟨k, v⟩ := p
    obtain ⟨e1, h1, h2⟩ := extractStep_plain e k v (hl (k, v) (List.mem_cons_self _ _))
    obtain ⟨r, h3, h4⟩ := ih e1 fun q hq => hl q (List.mem_cons_of_mem _ hq)
    refine ⟨r, by simp only [extractLoop, h1, h3], ?_⟩
    intro h hh
    obtain ⟨x, hx1, hx2, hx3⟩ := h2 h hh
    obtain ⟨y, hy1, hy2, hy3⟩ := h4 x hx1
    exact ⟨y, hy1, hy2.trans hx2, hy3.trans hx3⟩

theorem extractLoop_append (l1 l2 : List (String × Val)) :
    ∀ e e1 : Extracted, extractLoop e l1 = .ok e1 →
      extractLoop e (l1 ++ l2) = extractLoop e1 l2 := by
  induction l1 with
  | nil =>
    intro e e1 h
    simp only [extractLoop, Outcome.ok.injEq] at h
    subst h
    rfl
  | cons p l1 ih =>
    intro e e1 h
    obtain ⟨k, v⟩ := p
    simp only [extractLoop, List.cons_append] at h ⊢
    cases hs : extractStep e k v with
    | ok e2 =>
      simp only [hs] at h ⊢
      exact ih e2 e1 h
    | thrown n m => simp [hs] at h
    | pending => simp [hs] at h

theorem extractStep_of_not_throwing (e : Extracted) (k : String) (v : Val)
    (h : throwingEntry (k, v) = false) : ∃ e1, extractStep e k v = .ok e1 := by
  unfold extractStep
  by_cases hc : "client:".data.isPrefixOf k.data = true
  · simp only [hc, ↓reduceIte]
    simp only [throwingEntry, hc, Bool.true_and, Bool.and_eq_false_iff, Bool.not_eq_false',
      Bool.or_eq_false_iff, Bool.not_eq_true'] at h
    split_ifs with h1 h2 h3 h4 h5 h6
    · exact ⟨_, rfl⟩
    · exact ⟨_, rfl⟩
    · exact ⟨_, rfl⟩
    · exact ⟨_, rfl⟩
    · exfalso
      rcases h with h | h
      · simp [h1, h2, h3, h4] at h
      · have h7 : directiveOfKey k ∈ ["load", "idle", "media", "visible", "only"] := by
          simpa using h.1
        simp only [HydrationDirectivesRaw] at h5
        simp only [List.mem_cons, List.mem_singleton, List.not_mem_nil, or_false] at h7
        simp at h5
        tauto
    · exfalso
      rcases h with h | h
      · simp [h1, h2, h3, h4] at h
      · simp only [Bool.and_eq_true, decide_eq_true_eq, Bool.not_eq_true'] at h6
        have h7 := h.2
        simp [h6.1, h6.2] at h7
    · exact ⟨_, rfl⟩
  · simp only [hc, Bool.false_eq_true, ↓reduceIte]
    split_ifs <;> exact ⟨_, rfl⟩

theorem extractStep_of_throwing (e : Extracted) (k : String) (v : Val)
    (h : throwingEntry (k, v) = true) :
    extractStep e k v =
      if ["load", "idle", "media", "visible", "only"].contains (directiveOfKey k) then
        .thrown "MissingMediaQueryDirective" missingMediaQueryMessage
      else .thrown "Error" (invalidDirectiveMessage k) := by
  unfold extractStep
  simp only [throwingEntry, Bool.and_eq_true, Bool.not_eq_true', Bool.or_eq_true,
    beq_iff_eq] at h
  obtain ⟨⟨hc, hb⟩, hd⟩ := h
  have hb2 : k ∉ ["client:component-path", "client:component-export",
      "client:component-hydration", "client:display-name"] := by simpa using hb
  simp only [List.mem_cons, List.mem_singleton, List.not_mem_nil, or_false, not_or] at hb2
  simp only [hc, ↓reduceIte, hb2.1, hb2.2.1, hb2.2.2.1, hb2.2.2.2, HydrationDirectivesRaw]
  rcases hd with hd | hd
  · have hd2 : directiveOfKey k ∉ ["load", "idle", "media", "visible", "only"] := by
      simpa using hd
    simp only [List.mem_cons, List.mem_singleton, List.not_mem_nil, or_false, not_or] at hd2
    simp [hd2.1, hd2.2.1, hd2.2.2.1, hd2.2.2.2.1, hd2.2.2.2.2]
  · have hm : ["load", "idle", "media", "visible", "only"].contains (directiveOfKey k) = true := by
      rw [hd.1]
      decide
    simp [hm, hd.1, hd.2]

theorem extractLoop_of_not_throwing (l : List (String × Val)) :
    ∀ e : Extracted, (∀ p ∈ l, throwingEntry p = false) → ∃ r, extractLoop e l = .ok r := by
  induction l with
  | nil => intro e _; exact ⟨e, rfl⟩
  | cons p l ih =>
    intro e hl
    obtain ⟨k, v⟩ := p
    obtain ⟨e1, h1⟩ := extractStep_of_not_throwing e k v (hl (k, v) (List.mem_cons_self _ _))
    obtain ⟨r, h2⟩ := ih e1 fun q hq => hl q (List.mem_cons_of_mem _ hq)
    exact ⟨r, by simp only [extractLoop, h1, h2]⟩

theorem extractLoop_ok_not_throwing (l : List (String × Val)) :
    ∀ e r : Extracted, extractLoop e l = .ok r → ∀ p ∈ l, throwingEntry p = false := by
  induction l with
  | nil => intro e r _ p hp; simp at hp
  | cons q l ih =>
    intro e r h p hp
    obtain ⟨k, v⟩ := q
    simp only [extractLoop] at h
    cases ht : throwingEntry (k, v) with
    | true =>
      rw [extractStep_of_throwing e k v ht] at h
      split_ifs at h
    | false =>
      rcases List.mem_cons.mp hp with rfl | hp
      · exact ht
      · cases hs : extractStep e k v with
        | ok e1 =>
          simp only [hs] at h
          exact ih e1 r h p hp
        | thrown n m => simp [hs] at h
        | pending => simp [hs] at h

/-- C14, amended. The function `extractDirectives` returns if and only if
the props hold no entry at which it throws: an entry whose key starts with
`client:`, is none of `client:component-path`, `client:component-export`,
`client:component-hydration`, `client:display-name`, and names (between its
first and second colon) none of `load`, `idle`, `media`, `visible`, `only`,
or names `media` with a value that is no string. At the first such entry it
throws, the `MissingMediaQueryDirective` error when the entry names `media`
and the invalid-directive error otherwise. Whenever it returns, its
hydration record is non-null if and only if the props hold a key that
starts with `client:`, and the directive it records is one of the five, or
empty when only bookkeeping keys came. -/
theorem extractDirectives_hydration (displayName : String) (props : List (String × Val)) :
    ((∃ r, extractDirectives displayName props = .ok r) ↔
      ∀ p ∈ props, throwingEntry p = false) ∧
    (∀ before key value after, props = before ++ (key, value) :: after →
      (∀ p ∈ before, throwingEntry p = false) → throwingEntry (key, value) = true →
      extractDirectives displayName props =
        if ["load", "idle", "media", "visible", "only"].contains (directiveOfKey key) then
          .thrown "MissingMediaQueryDirective" missingMediaQueryMessage
        else .thrown "Error" (invalidDirectiveMessage key)) ∧
    (∀ r, extractDirectives displayName props = .ok r →
      (r.hydration.isSome = true ↔
        ∃ p ∈ props, "client:".data.isPrefixOf p.1.data = true) ∧
      ∀ x, r.hydration = some x →
        x.directive = "" ∨ x.directive ∈ ["load", "idle", "media", "visible", "only"]) := by
  refine ⟨⟨fun ⟨r, h⟩ => extractLoop_ok_not_throwing props _ r h,
      fun h => extractLoop_of_not_throwing props _ h⟩, ?_, ?_⟩
  · intro before key value after hprops hbefore hthrow
    subst hprops
    obtain ⟨e1, h1⟩ := extractLoop_of_not_throwing before ⟨false, none, []⟩ hbefore
    have happ := extractLoop_append before ((key, value) :: after) _ e1 h1
    simp only [extractDirectives, happ, extractLoop, extractStep_of_throwing e1 key value hthrow]
    split_ifs <;> rfl
  · intro r h
    obtain ⟨h1, h2⟩ := extractLoop_hydration props _ r h
    refine ⟨?_, h2 (by simp)⟩
    rw [h1]
    simp

theorem extractDirectives_hydration_witness :
    extractDirectives "Counter"
        ([("title", .str "a"), ("client:load:extra", .bool true)] ++
          ("client:now", .bool true) :: [("client:media", .bool true)]) =
      .thrown "Error" (invalidDirectiveMessage "client:now") ∧
    extractDirectives "Counter"
        ([("title", .str "a")] ++ ("client:media", .bool true) :: []) =
      .thrown "MissingMediaQueryDirective" missingMediaQueryMessage ∧
    ((⟨false, some ⟨"load", .bool true, .str "", .str ""⟩, [("title", .str "a")]⟩ :
        Extracted).hydration.isSome = true ↔
      ∃ p ∈ [("client:load:extra", Val.bool true), ("title", Val.str "a")],
        "client:".data.isPrefixOf p.1.data = true) :=
  ⟨((extractDirectives_hydration "Counter"
      ([("title", .str "a"), ("client:load:extra", .bool true)] ++
        ("client:now", .bool true) :: [("client:media", .bool true)])).2.1
      [("title", .str "a"), ("client:load:extra", .bool true)] "client:now" (.bool true)
      [("client:media", .bool true)] rfl (by decide) (by decide)).trans (by rfl),
    ((extractDirectives_hydration "Counter"
      ([("title", .str "a")] ++ ("client:media", .bool true) :: [])).2.1
      [("title", .str "a")] "client:media" (.bool true) [] rfl (by decide)
      (by decide)).trans (by rfl),
    ((extractDirectives_hydration "Counter"
      [("client:load:extra", .bool true), ("title", .str "a")]).2.2
      ⟨false, some ⟨"load", .bool true, .str "", .str ""⟩, [("title", .str "a")]⟩ rfl).1⟩

/-- C15, amended. For every props object that holds `client:media` and no
other directive key, `extractDirectives` raises the
`MissingMediaQueryDirective` error unless the value of `client:media` is a
string; with a string, the empty one included, it succeeds and records that
string as the hydration value, with the directive `media`. -/
theorem media_requires_string (displayName : String) (before after : List (String × Val))
    (value : Val) (hb : ∀ p ∈ before, isPlainKey p.1 = true)
    (ha : ∀ p ∈ after, isPlainKey p.1 = true) :
    (value.isPrimitiveString = false →
      extractDirectives displayName (before ++ ("client:media", value) :: after) =
        .thrown "MissingMediaQueryDirective" missingMediaQueryMessage) ∧
    (value.isPrimitiveString = true →
      ∃ r h, extractDirectives displayName (before ++ ("client:media", value) :: after) = .ok r ∧
        r.hydration = some h ∧ h.directive = "media" ∧ h.value = value) := by
  obtain ⟨e1, h1, -⟩ := extractLoop_plain before ⟨false, none, []⟩ hb
  have happ := extractLoop_append before (("client:media", value) :: after) _ e1 h1
  have hd : directiveOfKey "client:media" = "media" := by decide
  constructor
  · intro hv
    have hs : extractStep e1 "client:media" value =
        .thrown "MissingMediaQueryDirective" missingMediaQueryMessage := by
      simp [extractStep, hd, hv, HydrationDirectivesRaw]
    simp only [extractDirectives, happ, extractLoop, hs]
  · intro hv
    have hs : extractStep e1 "client:media" value =
        .ok { markPage e1 "client:media" with
          hydration := some { (markPage e1 "client:media").hydration.getD Hydration.empty with
            directive := "media", value := value } } := by
      simp [extractStep, hd, hv, HydrationDirectivesRaw]
    obtain ⟨r, h3, h4⟩ := extractLoop_plain after
      { markPage e1 "client:media" with
          hydration := some { (markPage e1 "client:media").hydration.getD Hydration.empty with
            directive := "media", value := value } } ha
    obtain ⟨y, hy1, hy2, hy3⟩ := h4
      { (markPage e1 "client:media").hydration.getD Hydration.empty with
            directive := "media", value := value } rfl
    refine ⟨r, y, ?_, hy1, hy2, hy3⟩
    simp only [extractDirectives, happ, extractLoop, hs]
    exact h3

theorem media_requires_string_witness :
    (Val.isPrimitiveString (.bool true) = false →
      extractDirectives "Counter"
          ([("client:component-path", .str "/src/Counter.jsx")] ++
            ("client:media", .bool true) :: [("title", .str "a")]) =
        .thrown "MissingMediaQueryDirective" missingMediaQueryMessage) ∧
    (Val.isPrimitiveString (.bool true) = true →
      ∃ r h, extractDirectives "Counter"
          ([("client:component-path", .str "/src/Counter.jsx")] ++
            ("client:media", .bool true) :: [("title", .str "a")]) = .ok r ∧
        r.hydration = some h ∧ h.directive = "media" ∧ h.value = .bool true) :=
  media_requires_string "Counter" [("client:component-path", .str "/src/Counter.jsx")]
    [("title", .str "a")] (.bool true) (by decide) (by decide)

/-! ## Hydration scripts -/

theorem hydrationScripts_isSome (p : Prebuilt) (d : String) (hd : d ∈ HydrationDirectivesRaw) :
    ∃ text, hydrationScripts p d = some text := by
  simp only [HydrationDirectivesRaw, List.mem_cons, List.mem_singleton, List.not_mem_nil,
    or_false] at hd
  rcases hd with rfl | rfl | rfl | rfl | rfl <;> simp [hydrationScripts]

theorem stringifyChunk_directive (p : Prebuilt) (m : RenderMeta) (d : String) (v : Val) :
    stringifyChunk p m (directiveChunk (hydrationRecord d v)) =
      stringifyDirective p m (hydrationRecord d v) := by
  simp [directiveChunk, stringifyChunk, isDirectiveChunk, lookup]

theorem stringifyDirective_first (p : Prebuilt) (seen : List String) (d : String) (v : Val)
    (hd : d ∈ HydrationDirectivesRaw) :
    ∃ seen1, (∀ x, x ∈ seen1 ↔ x ∈ seen ∨ x = d) ∧
      stringifyDirective p ⟨false, seen⟩ (hydrationRecord d v) =
        .ok (.htmlString ("<style>astro-island,astro-slot\x7bdisplay:contents\x7d</style><script>" ++
          ((hydrationScripts p d).getD "" ++ p.island) ++ "</script>"), ⟨true, seen1⟩) := by
  obtain ⟨text, ht⟩ := hydrationScripts_isSome p d hd
  by_cases hs : d ∈ seen
  · refine ⟨seen, fun x => ⟨Or.inl, fun h => h.elim id fun h => h ▸ hs⟩, ?_⟩
    simp [stringifyDirective, hydrationRecord, Val.truthy, objectEntries, lookup, toStringJS,
      determineIfNeedsHydrationScript, determinesIfNeedsDirectiveScript, hs, getPrescripts,
      getDirectiveScriptText, ht, markHTMLString, Val.instanceofHTMLString]
  · refine ⟨seen ++ [d], fun x => by simp, ?_⟩
    simp [stringifyDirective, hydrationRecord, Val.truthy, objectEntries, lookup, toStringJS,
      determineIfNeedsHydrationScript, determinesIfNeedsDirectiveScript, hs, getPrescripts,
      getDirectiveScriptText, ht, markHTMLString, Val.instanceofHTMLString]

theorem stringifyDirective_later (p : Prebuilt) (seen : List String) (d : String) (v : Val)
    (hd : d ∈ HydrationDirectivesRaw) :
    ∃ seen1, (∀ x, x ∈ seen1 ↔ x ∈ seen ∨ x = d) ∧
      stringifyDirective p ⟨true, seen⟩ (hydrationRecord d v) =
        .ok (if d ∈ seen then Val.str ""
          else .htmlString ("<script>" ++ (hydrationScripts p d).getD "" ++ "</script>"),
          ⟨true, seen1⟩) := by
  obtain ⟨text, ht⟩ := hydrationScripts_isSome p d hd
  by_cases hs : d ∈ seen
  · refine ⟨seen, fun x => ⟨Or.inl, fun h => h.elim id fun h => h ▸ hs⟩, ?_⟩
    simp [stringifyDirective, hydrationRecord, Val.truthy, objectEntries, lookup, toStringJS,
      determineIfNeedsHydrationScript, determinesIfNeedsDirectiveScript, hs]
  · refine ⟨seen ++ [d], fun x => by simp, ?_⟩
    simp [stringifyDirective, hydrationRecord, Val.truthy, objectEntries, lookup, toStringJS,
      determineIfNeedsHydrationScript, determinesIfNeedsDirectiveScript, hs, getPrescripts,
      getDirectiveScriptText, ht, markHTMLString, Val.instanceofHTMLString]

theorem laterOutputs_congr (p : Prebuilt) (ds : List String) :
    ∀ seen seen1 : List String, (∀ x, x ∈ seen1 ↔ x ∈ seen) →
      laterOutputs p seen1 ds = laterOutputs p seen ds := by
  induction ds with
  | nil => intro _ _ _; rfl
  | cons d ds ih =>
    intro seen seen1 h
    simp only [laterOutputs, h d]
    rw [ih (seen ++ [d]) (seen1 ++ [d]) (fun x => by simp [h x])]

theorem stringifyAll_later (p : Prebuilt) (hs : List (String × Val)) :
    ∀ seen : List String, (∀ h ∈ hs, h.1 ∈ HydrationDirectivesRaw) →
      ∃ m, stringifyAll p ⟨true, seen⟩ (hs.map fun h => directiveChunk (hydrationRecord h.1 h.2)) =
        .ok (laterOutputs p seen (hs.map Prod.fst), m) := by
  induction hs with
  | nil => intro seen _; exact ⟨_, rfl⟩
  | cons h hs ih =>
    intro seen hd
    obtain ⟨seen1, h1, h2⟩ := stringifyDirective_later p seen h.1 h.2
      (hd h (List.mem_cons_self _ _))
    obtain ⟨m, h3⟩ := ih seen1 fun x hx => hd x (List.mem_cons_of_mem _ hx)
    refine ⟨m, ?_⟩
    simp only [stringifyAll] at h3
    simp only [stringifyAll, List.map_cons, mapOutcome, stringifyChunk_directive, h2, h3,
      laterOutputs]
    rw [laterOutputs_congr p _ (seen ++ [h.1]) seen1 (fun x => by simp [h1 x])]

/-- C16. Starting from a fresh result, for every sequence of hydration
directive chunks (with directives among `load`, `idle`, `media`, `visible`,
`only`) passed to `stringifyChunk` one after the other, the output of the
first chunk holds the style, the script of its directive and the bootstrap
script of the island, and the output of each later chunk is the script of
its directive alone when no earlier chunk had that directive and the empty
string otherwise; so three `client:visible` components give the bootstrap
script and the script of `visible` once, in the first output. -/
theorem hydration_scripts_emitted_once (p : Prebuilt) (hs : List (String × Val))
    (hd : ∀ h ∈ hs, h.1 ∈ HydrationDirectivesRaw) :
    (∃ m, stringifyAll p ⟨false, []⟩ (hs.map fun h => directiveChunk (hydrationRecord h.1 h.2)) =
      .ok (expectedOutputs p (hs.map Prod.fst), m)) ∧
    expectedOutputs p ["visible", "visible", "visible"] =
      [.htmlString ("<style>astro-island,astro-slot\x7bdisplay:contents\x7d</style><script>" ++
        (p.visible ++ p.island) ++ "</script>"), .str "", .str ""] := by
  constructor
  · cases hs with
    | nil => exact ⟨_, rfl⟩
    | cons h hs =>
      obtain ⟨seen1, h1, h2⟩ := stringifyDirective_first p [] h.1 h.2
        (hd h (List.mem_cons_self _ _))
      obtain ⟨m, h3⟩ := stringifyAll_later p hs seen1
        fun x hx => hd x (List.mem_cons_of_mem _ hx)
      refine ⟨m, ?_⟩
      simp only [stringifyAll] at h3
      simp only [stringifyAll, List.map_cons, mapOutcome, stringifyChunk_directive, h2, h3,
        expectedOutputs]
      rw [laterOutputs_congr p _ [h.1] seen1 (fun x => by simp [h1 x])]
  · simp [expectedOutputs, laterOutputs, hydrationScripts]

theorem hydration_scripts_emitted_once_witness :
    (∃ m, stringifyAll ⟨"idle()", "load()", "only()", "media()", "visible()", "island()"⟩
        ⟨false, []⟩
        ([("visible", Val.str ""), ("load", Val.str "")].map
          fun h => directiveChunk (hydrationRecord h.1 h.2)) =
      .ok (expectedOutputs ⟨"idle()", "load()", "only()", "media()", "visible()", "island()"⟩
        ([("visible", Val.str ""), ("load", Val.str "")].map Prod.fst), m)) ∧
    expectedOutputs ⟨"idle()", "load()", "only()", "media()", "visible()", "island()"⟩
        ["visible", "visible", "visible"] =
      [.htmlString ("<style>astro-island,astro-slot\x7bdisplay:contents\x7d</style><script>" ++
        ((⟨"idle()", "load()", "only()", "media()", "visible()", "island()"⟩ : Prebuilt).visible ++
          (⟨"idle()", "load()", "only()", "media()", "visible()", "island()"⟩ : Prebuilt).island) ++
        "</script>"), .str "", .str ""] :=
  hydration_scripts_emitted_once ⟨"idle()", "load()", "only()", "media()", "visible()", "island()"⟩
    [("visible", .str ""), ("load", .str "")] (by decide)

/-! ## The order of the chunks of an island -/

theorem stringifyInstructions_directives (p : Prebuilt) (is : List Val) :
    ∀ m : RenderMeta, ∀ outs m1, stringifyAll p m is = .ok (outs, m1) →
      stringifyInstructions p m is = .ok (String.join (outs.map toStringJS), m1) := by
  induction is with
  | nil =>
    intro m outs m1 h
    simp only [stringifyAll, mapOutcome, Outcome.ok.injEq, Prod.mk.injEq] at h
    obtain ⟨rfl, rfl⟩ := h
    rfl
  | cons i is ih =>
    intro m outs m1 h
    simp only [stringifyAll, mapOutcome] at h
    cases hi : stringifyChunk p m i with
    | ok r =>
      obtain ⟨out, m2⟩ := r
      simp only [hi] at h
      cases hr : mapOutcome (fun chunk m1 => stringifyChunk p m1 chunk) is m2 with
      | ok r2 =>
        obtain ⟨outs2, m3⟩ := r2
        simp only [hr, Outcome.ok.injEq, Prod.mk.injEq] at h
        obtain ⟨rfl, rfl⟩ := h
        have := ih m2 outs2 m3 hr
        simp only [stringifyInstructions, hi, this, List.map_cons, String.join]
        congr 2
        simp only [List.foldl_cons]
        have hj : ∀ (l : List String) (a : String),
            List.foldl (fun r s => r ++ s) a l = a ++ List.foldl (fun r s => r ++ s) "" l := by
          intro l
          induction l with
          | nil => intro a; simp
          | cons x l ihl =>
            intro a
            rw [List.foldl_cons, List.foldl_cons, ihl (a ++ x), ihl ("" ++ x)]
            simp [String.append_assoc]
        simp only [String.empty_append, String.append_empty] at hj ⊢
        exact (hj _ _).symm
      | thrown n e => simp [hr] at h
      | pending => simp [hr] at h
    | thrown n e => simp [hi] at h
    | pending => simp [hi] at h

theorem missingSlots_htmlString (s : String) :
    ∀ keys, missingSlots (.htmlString s) keys =
      .ok (keys.filter fun key =>
        !decide ((if key = "default" then "<astro-slot>"
          else "<astro-slot name=\"" ++ key ++ "\">").data <:+: s.data)) := by
  intro keys
  induction keys with
  | nil => rfl
  | cons key keys ih =>
    simp only [missingSlots, htmlIncludes, ih, List.filter_cons]
    split_ifs <;> simp_all

/-- C17 (as claimed, refuted). A component with the directive `client:load`
that no renderer takes and that is an `HTMLElement`: `renderFrameworkComponent`
returns the output of `renderHTMLElement` (line 1648), in which there is no
directive chunk and no `astro-island` element. -/
theorem hydrated_element_without_directive :
    renderFrameworkComponent
      ⟨[], "my-el", some "load", .str "", some "/src/el.js", .bool false, false,
        some (.ok (.htmlString "<my-el></my-el>")), .ok (.str "")⟩
      ⟨none, [], false, .str "default", "", .ok "\x7b\x7d", fun id => .ok [("uid", .str id)]⟩ =
      .ok (.output (.htmlString "<my-el></my-el>")) := by
  rfl

theorem renderFrameworkComponent_hydrated (c : FrameworkCall) (t : IslandCall) (d : String)
    (hd : c.hydrate = some d) (ret : Returned)
    (h : renderFrameworkComponent c t = .ok ret) :
    (∃ v, ret = .output v ∧ renderMarkup c = .ok (.output v)) ∨
    ∃ islandProps islandChildren,
      ret = .generator ((match t.slotInstructions with
          | some is => is
          | none => []) ++
        [directiveChunk (hydrationOf c t),
          .htmlString (renderElement "astro-island" islandProps islandChildren false)]) none := by
  unfold renderFrameworkComponent at h
  cases hrm : renderMarkup c with
  | thrown n m => simp [hrm] at h
  | pending => simp [hrm] at h
  | ok r =>
    cases r with
    | output v =>
      simp only [hrm, Outcome.ok.injEq] at h
      exact Or.inl ⟨v, h.symm, rfl⟩
    | markup renderer html0 attrs =>
      right
      simp only [hrm, hd] at h
      split at h
      · cases h
      · cases hs : t.serialized with
        | thrown n m => simp [hs] at h
        | pending => simp [hs] at h
        | ok serialized =>
          simp only [hs] at h
          split at h
          · cases h
          · cases h
          · split at h
            · cases h
            · cases h
            · simp only [Outcome.ok.injEq] at h
              exact ⟨_, _, by rw [← h]; rfl⟩

/-- C17 (amended). For every component with a hydration record: what
`renderFrameworkComponent` returns is the output of `renderHTMLElement`
(when no renderer takes the component and it is an `HTMLElement`, line 1648)
or the generator that yields the slot instructions, then the directive chunk
of the component, then the chunk with the markup of its `astro-island`
element, in that order and without an error; the former is returned
whenever that branch is reached, and the latter whenever a renderer that has
a client entrypoint, or is `@astrojs/lit`, or comes with an empty directive,
has given a marked string that is not empty and `serializeProps` and
`generateHydrateScript` return. And `stringifyChunk`
on a slot string writes the outputs of the slot's instructions, in their
order, before the content of the slot. -/
theorem island_chunks_in_order (c : FrameworkCall) (t : IslandCall) (d : String)
    (p : Prebuilt) (m m1 : RenderMeta) (slotInstructions : List Val) (content : String)
    (outs : List Val) (hd : c.hydrate = some d)
    (h : stringifyAll p m slotInstructions = .ok (outs, m1)) :
    (∀ ret, renderFrameworkComponent c t = .ok ret →
      (∃ v, ret = .output v ∧ renderMarkup c = .ok (.output v)) ∨
      ∃ islandProps islandChildren,
        ret = .generator (t.slotInstructions.getD [] ++
          [directiveChunk (hydrationOf c t),
            .htmlString (renderElement "astro-island" islandProps islandChildren false)])
          none) ∧
    (∀ v, renderMarkup c = .ok (.output v) → renderFrameworkComponent c t = .ok (.output v)) ∧
    (∀ r s attrs serialized islandProps,
      renderMarkup c = .ok (.markup (some r) (.htmlString s) attrs) → s ≠ "" →
      (r.clientEntrypoint.truthy = true ∨ r.name = "@astrojs/lit" ∨ d = "") →
      t.serialized = .ok serialized →
      t.island (shorthash ("<!--" ++ toStringJS t.componentExport ++ ":" ++
        c.componentUrl.getD "undefined" ++ "-->\n" ++ s ++ "\n" ++ serialized)) =
        .ok islandProps →
      renderFrameworkComponent c t = .ok (.generator (t.slotInstructions.getD [] ++
        [directiveChunk (hydrationOf c t),
          .htmlString (renderElement "astro-island"
            (setEntry islandProps "await-children" (.str ""))
            (.str (s ++ slotTemplates t.children ((t.children.map Prod.fst).filter fun key =>
              !decide ((if key = "default" then "<astro-slot>"
                else "<astro-slot name=\"" ++ key ++ "\">").data <:+: s.data)))) false)])
        none)) ∧
    stringifyChunk p m (.slotString content (some slotInstructions)) =
      .ok (.str (String.join (outs.map toStringJS) ++ content), m1) := by
  have hget : t.slotInstructions.getD [] = (match t.slotInstructions with
      | some is => is
      | none => []) := by
    cases t.slotInstructions <;> rfl
  refine ⟨fun ret hret => ?_, fun v hv => ?_, ?_, ?_⟩
  · rw [hget]
    exact renderFrameworkComponent_hydrated c t d hd ret hret
  · simp only [renderFrameworkComponent, hv]
  · intro r s attrs serialized islandProps hrm hs hentry hser hisland
    have hurl : c.componentUrl.getD "undefined" = (match c.componentUrl with
        | some url => url
        | none => "undefined") := by
      cases c.componentUrl <;> rfl
    rw [hurl] at hisland
    have hcond : (!r.clientEntrypoint.truthy && r.name != "@astrojs/lit" && d != "") = false := by
      rcases hentry with h1 | h1 | h1 <;> simp [h1]
    have hne : s ++ slotTemplates t.children ((t.children.map Prod.fst).filter fun key =>
        !decide ((if key = "default" then "<astro-slot>"
          else "<astro-slot name=\"" ++ key ++ "\">").data <:+: s.data)) ≠ "" := by
      intro h0
      apply hs
      have h1 := congrArg String.data h0
      rw [String.data_append] at h1
      exact String.ext (List.append_eq_nil.mp h1).1
    have ht : (Val.htmlString s).truthy = true := rfl
    simp only [renderFrameworkComponent, hrm, hd, hcond, ht, Bool.not_true,
      Bool.false_and, Bool.false_eq_true, ↓reduceIte, hser, toStringJS, hisland,
      unrenderedSlots, missingSlots_htmlString, Val.isNullish, hne, ne_eq, not_false_eq_true,
      renderAll, markHTMLString, Val.instanceofHTMLString, hget]
  · simp only [stringifyChunk, stringifyInstructions_directives p slotInstructions m outs m1 h]

set_option maxRecDepth 10000 in
theorem island_chunks_in_order_witness :
    renderFrameworkComponent
        ⟨[⟨"@astrojs/react", .ok (.bool true), .ok (.htmlString "<b>x</b>", .undefined),
            .str "/client.js"⟩], "Counter", some "load", .str "", some "/src/Counter.jsx",
          .bool false, false, none, .ok (.str "")⟩
        ⟨some [directiveChunk (hydrationRecord "idle" (.str ""))],
          [("default", .htmlString "<i>d</i>")], false, .str "default", "", .ok "\x7b\x7d",
          fun id => .ok [("uid", .str id), ("client", .str "load")]⟩ =
      .ok (.generator
        [.obj [("type", .str "directive"), ("hydration", .obj [("directive", .str "idle"),
            ("value", .str ""), ("componentUrl", .str ""),
            ("componentExport", .obj [("value", .str "")])])],
          .obj [("type", .str "directive"), ("hydration", .obj [("directive", .str "load"),
            ("value", .str ""), ("componentUrl", .str "/src/Counter.jsx"),
            ("componentExport", .obj [("value", .str "default")])])],
          .htmlString ("<astro-island uid=\"Zmfopy\" client=\"load\" await-children=\"\">" ++
            "<b>x</b><template data-astro-template><i>d</i></template></astro-island>")]
        none) ∧
    stringifyChunk ⟨"idle()", "load()", "only()", "media()", "visible()", "island()"⟩
        ⟨true, ["load"]⟩
        (.slotString "<i>slot</i>" (some [directiveChunk (hydrationRecord "load" (.str ""))])) =
      .ok (.str "<i>slot</i>", ⟨true, ["load"]⟩) :=
  have h := island_chunks_in_order
    ⟨[⟨"@astrojs/react", .ok (.bool true), .ok (.htmlString "<b>x</b>", .undefined),
        .str "/client.js"⟩], "Counter", some "load", .str "", some "/src/Counter.jsx",
      .bool false, false, none, .ok (.str "")⟩
    ⟨some [directiveChunk (hydrationRecord "idle" (.str ""))],
      [("default", .htmlString "<i>d</i>")], false, .str "default", "", .ok "\x7b\x7d",
      fun id => .ok [("uid", .str id), ("client", .str "load")]⟩
    "load" ⟨"idle()", "load()", "only()", "media()", "visible()", "island()"⟩
    ⟨true, ["load"]⟩ ⟨true, ["load"]⟩ [directiveChunk (hydrationRecord "load" (.str ""))]
    "<i>slot</i>" [.str ""] rfl (by rfl)
  ⟨(h.2.2.1 ⟨"@astrojs/react", .ok (.bool true), .ok (.htmlString "<b>x</b>", .undefined),
      .str "/client.js"⟩ "<b>x</b>" .undefined "\x7b\x7d" _ rfl (by decide) (Or.inl rfl) rfl
      rfl).trans (by rfl), h.2.2.2.trans (by rfl)⟩

/-! ## Slots -/

/-- C20, at the failing input: a component whose children are
`[<p slot="x"/>, [<i slot="x"/>]]`. `transformSlots` moves the first child
to the prop `x`, the slot extraction of `renderJSXVNode` puts the nested
child in the bucket `x` and then replaces that bucket by the prop `x`: the
nested child is in no bucket. -/
theorem nested_slot_child_is_lost :
    transformSlots false
        [("children", .value (.arr [hostVNode "p" [("slot", .str "x")],
          .arr [hostVNode "i" [("slot", .str "x")]]]))] =
      [("children", .value (.arr [.arr [hostVNode "i" [("slot", .str "x")]]])),
        ("x", .slot [hostVNode "p" []])] ∧
    collectSlots
        [("children", .value (.arr [.arr [hostVNode "i" [("slot", .str "x")]]])),
          ("x", .slot [hostVNode "p" []])] =
      .ok [("default", []), ("x", [hostVNode "p" []])] ∧
    extractSlots2 [("default", [])] (.arr [.arr [hostVNode "i" [("slot", .str "x")]]]) =
      .ok [("default", []), ("x", [hostVNode "i" []])] := by
  refine ⟨by rfl, by rfl, by rfl⟩

/-- C21, the claim as stated fails: a child tagged with the slot name
`render` (a reserved name of the framework) is put in a bucket of that name,
and no error is raised. -/
theorem reserved_slot_name_is_bucketed :
    collectSlots [("children", .value (hostVNode "p" [("slot", .str "render")]))] =
      .ok [("default", []), ("render", [hostVNode "p" []])] := by
  rfl

mutual
theorem extractSlots2_thrown : ∀ (v : Val) (slots : List (String × List Val)) (n m : String),
    extractSlots2 slots v = .thrown n m → n = "TypeError"
  | .arr cs, slots, n, m, h => by
    simp only [extractSlots2] at h
    exact extractSlotsItems_thrown cs slots n m h
  | .obj es, slots, n, m, h => by
    simp only [extractSlots2] at h
    split_ifs at h
    · split at h
      · simp at h
      · simp only [Outcome.thrown.injEq] at h
        exact h.1.symm
    · split at h <;> simp at h
  | .undefined, _, _, _, h => by simp [extractSlots2] at h
  | .null, _, _, _, h => by simp [extractSlots2] at h
  | .bool _, _, _, _, h => by simp [extractSlots2] at h
  | .num _, _, _, _, h => by simp [extractSlots2] at h
  | .str _, _, _, _, h => by simp [extractSlots2] at h
  | .htmlString _, _, _, _, h => by simp [extractSlots2] at h
  | .slotString _ _, _, _, _, h => by simp [extractSlots2] at h
  | .func _ _, _, _, _, h => by simp [extractSlots2] at h
theorem extractSlotsItems_thrown : ∀ (cs : List Val) (slots : List (String × List Val))
    (n m : String), extractSlotsItems slots cs = .thrown n m → n = "TypeError"
  | [], _, _, _, h => by simp [extractSlotsItems] at h
  | c :: cs, slots, n, m, h => by
    simp only [extractSlotsItems] at h
    cases hc : extractSlots2 slots c with
    | ok slots1 =>
      simp only [hc] at h
      exact extractSlotsItems_thrown cs slots1 n m h
    | thrown n1 m1 =>
      simp only [hc, Outcome.thrown.injEq] at h
      have := extractSlots2_thrown c slots n1 m1 hc
      rw [← h.1]
      exact this
    | pending => simp [hc] at h
end

theorem assignSlotProps_thrown (props : List (String × PropValue)) :
    ∀ (slots : List (String × List Val)) (n m : String),
      assignSlotProps slots props = .thrown n m → n = "TypeError" := by
  induction props with
  | nil => intro slots n m h; simp [assignSlotProps] at h
  | cons p props ih =>
    intro slots n m h
    obtain ⟨k, v⟩ := p
    cases v with
    | slot cs =>
      simp only [assignSlotProps] at h
      exact ih _ n m h
    | value v =>
      cases v <;> simp only [assignSlotProps, Outcome.thrown.injEq] at h <;>
        first
        | exact h.1.symm
        | exact ih _ n m h

/-- C21, amended. The slot extraction of this file checks no slot name
against a list of reserved names: a child vnode tagged with any slot name
that is no property of `Object.prototype`, reserved or not, is put (without
its `slot` prop) in the bucket of that name, and whatever the slot
extraction throws is a `TypeError`, never the `ReservedSlotName` error. -/
theorem slot_names_are_not_checked (props : List (String × PropValue))
    (slots : List (String × List Val)) (es : List (String × Val))
    (hv : isVNode (.obj es) = true) (hs : hasSlotProp (.obj es) = true)
    (hn : objectPrototypeKeys.contains (slotNameOf (.obj es)) = false) :
    (∃ held, extractSlots2 slots (.obj es) =
      .ok (setEntry slots (slotNameOf (.obj es)) (held ++ [deleteSlotProp (.obj es)]))) ∧
    ∀ n m, collectSlots props = .thrown n m → n = "TypeError" := by
  constructor
  · simp only [extractSlots2, hv, hs, Bool.not_true, Bool.false_eq_true, ↓reduceIte]
    cases hf : slots.find? fun p => p.1 == slotNameOf (.obj es) with
    | some p => exact ⟨p.2, rfl⟩
    | none =>
      have hn2 : slotNameOf (.obj es) ∉ objectPrototypeKeys := by simpa using hn
      exact ⟨[], by simp [hn2]⟩
  · intro n m h
    simp only [collectSlots] at h
    cases h1 : extractSlots2 [("default", [])] (childrenOf props) with
    | ok slots1 =>
      simp only [h1] at h
      exact assignSlotProps_thrown _ _ n m h
    | thrown n1 m1 =>
      simp only [h1, Outcome.thrown.injEq] at h
      rw [← h.1]
      exact extractSlots2_thrown _ _ n1 m1 h1
    | pending => simp [h1] at h

theorem slot_names_are_not_checked_witness :
    (∃ held, extractSlots2 [("default", [])]
        (.obj [("astro:jsx", .bool true), ("type", .str "p"),
          ("props", .obj [("slot", .str "has")])]) =
      .ok (setEntry [("default", [])]
        (slotNameOf (.obj [("astro:jsx", .bool true), ("type", .str "p"),
          ("props", .obj [("slot", .str "has")])]))
        (held ++ [deleteSlotProp (.obj [("astro:jsx", .bool true), ("type", .str "p"),
          ("props", .obj [("slot", .str "has")])])]))) ∧
    ∀ n m, collectSlots [] = .thrown n m → n = "TypeError" :=
  slot_names_are_not_checked [] [("default", [])]
    [("astro:jsx", .bool true), ("type", .str "p"), ("props", .obj [("slot", .str "has")])]
    (by rfl) (by rfl) (by rfl)

/-! ## The counter of direct calls -/

/-- C19, the claim as stated fails: with the counter at 3, which does not
exceed 3, the function component is called itself and its error is thrown
again. -/
theorem skip_completed_at_three :
    invokeComponent (.thrown "Error" "boom") (fun v skip => (.ok v, skip)) ⟨3⟩ =
      (some (.thrown "Error" "boom"), ⟨3⟩) := by
  rfl

/-- C19, amended. When the direct call of a function component throws, the
error is thrown again if and only if the counter is greater than 2 (it has
reached 3); otherwise the error is swallowed, the counter is incremented by
exactly one and the rendering goes on to the external renderers. The direct
call is made only when the counter is 0 or greater than 2: with any other
count the block increments the counter and goes on, whatever the component
would do. -/
theorem skip_counter_rules (call : Outcome Val) (nested : Val → Skip → Outcome Val × Skip)
    (skip : Skip) (n m : String) :
    invokeComponent (.thrown n m) nested skip =
      (if skip.count > 2 then (some (.thrown n m), skip) else (none, ⟨skip.count + 1⟩)) ∧
    ((skip.count = 0 ∨ skip.count > 2) ∨
      invokeComponent call nested skip = (none, ⟨skip.count + 1⟩)) := by
  constructor
  · by_cases h : skip.count > 2
    · simp [invokeComponent, Skip.isCompleted, Skip.haveNoTried, h]
    · by_cases h0 : skip.count = 0
      · simp [invokeComponent, Skip.isCompleted, Skip.haveNoTried, h0, Skip.increment]
      · simp [invokeComponent, Skip.isCompleted, Skip.haveNoTried, h, h0, Skip.increment]
  · by_cases h : skip.count = 0 ∨ skip.count > 2
    · exact Or.inl h
    · right
      push_neg at h
      have h2 : ¬ skip.count > 2 := by omega
      simp [invokeComponent, Skip.isCompleted, Skip.haveNoTried, h.1, h2, Skip.increment]

/-! ## Lists of vnodes and fragments -/

theorem foldl_append_string (l : List String) :
    ∀ a : String, l.foldl (fun r s => r ++ s) a = a ++ l.foldl (fun r s => r ++ s) "" := by
  induction l with
  | nil => intro a; simp
  | cons x l ih =>
    intro a
    rw [List.foldl_cons, List.foldl_cons, ih (a ++ x), ih ("" ++ x)]
    simp [String.append_assoc]

theorem intercalate_go_empty (l : List String) :
    ∀ acc : String, String.intercalate.go acc "" l = acc ++ String.join l := by
  induction l with
  | nil => intro acc; simp [String.intercalate.go, String.join]
  | cons x l ih =>
    intro acc
    simp only [String.intercalate.go, ih, String.join, List.foldl_cons, String.append_empty]
    rw [foldl_append_string l ("" ++ x)]
    simp [String.append_assoc]

theorem intercalate_empty (l : List String) : "".intercalate l = String.join l := by
  cases l with
  | nil => rfl
  | cons x l =>
    simp only [String.intercalate, intercalate_go_empty, String.join, List.foldl_cons]
    rw [foldl_append_string l ("" ++ x)]
    simp

theorem renderJSXPromises_eq_map (r : Val → Promise Val) :
    ∀ vs, renderJSXPromises r vs = vs.map (renderJSXAsync r) := by
  intro vs
  induction vs with
  | nil => simp [renderJSXPromises]
  | cons v vs ih => simp [renderJSXPromises, ih]

theorem promiseAll_fulfilled :
    ∀ (ps : List (Promise Val)) (xs : List Val),
      List.Forall₂ (fun p x => p.outcome = .ok x) ps xs →
      firstRejection ps = none ∧ fulfilledValues ps = some xs := by
  intro ps xs h
  induction h with
  | nil => exact ⟨rfl, rfl⟩
  | cons h1 _ ih => simp [firstRejection, fulfilledValues, h1, ih.1, ih.2]

mutual
/-- A render that returns in the model with promises returns the same value
in the model without them. -/
theorem renderJSXAsync_ok (r : Val → Promise Val) :
    ∀ v x, (renderJSXAsync r v).outcome = .ok x →
      renderJSX (fun w => (r w).outcome) v = .ok x
  | .arr xs, x, h => by
    simp only [renderJSXAsync, renderJSXArray, promiseAll] at h
    cases hf : firstRejection (renderJSXPromises r xs) with
    | some q => obtain ⟨t, n, m⟩ := q; simp [hf] at h
    | none =>
      cases hv : fulfilledValues (renderJSXPromises r xs) with
      | none => simp [hf, hv] at h
      | some rs =>
        simp only [hf, hv] at h
        simp only [renderJSX, renderJSXPromises_ok r xs rs hv]
        exact h
  | .htmlString s, x, h => by
    simp only [renderJSXAsync] at h
    simp only [renderJSX]
    split_ifs at h ⊢ <;> exact h
  | .slotString s i, x, h => by
    simp only [renderJSXAsync] at h
    simp only [renderJSX]
    split_ifs at h ⊢ <;> exact h
  | .str s, x, h => by simpa only [renderJSXAsync, renderJSX] using h
  | .func src ret, x, h => by simpa only [renderJSXAsync, renderJSX] using h
  | .undefined, x, h => by simpa only [renderJSXAsync, renderJSX] using h
  | .null, x, h => by simpa only [renderJSXAsync, renderJSX] using h
  | .bool false, x, h => by simpa only [renderJSXAsync, renderJSX] using h
  | .bool true, x, h => by simpa only [renderJSXAsync, renderJSX] using h
  | .num n, x, h => by simpa only [renderJSXAsync, renderJSX] using h
  | .obj es, x, h => by simpa only [renderJSXAsync, renderJSX] using h
theorem renderJSXPromises_ok (r : Val → Promise Val) :
    ∀ vs xs, fulfilledValues (renderJSXPromises r vs) = some xs →
      renderJSXItems (fun w => (r w).outcome) vs = .ok xs
  | [], xs, h => by
    simp only [renderJSXPromises, fulfilledValues, Option.some.injEq] at h
    subst h
    rfl
  | v :: vs, xs, h => by
    simp only [renderJSXPromises, fulfilledValues] at h
    cases ho : (renderJSXAsync r v).outcome with
    | ok y =>
      cases hr : fulfilledValues (renderJSXPromises r vs) with
      | none => simp [ho, hr] at h
      | some ys =>
        simp only [ho, hr, Option.some.injEq] at h
        subst h
        simp only [renderJSXItems, renderJSXAsync_ok r v y ho, renderJSXPromises_ok r vs ys hr]
    | thrown n m => simp [ho] at h
    | pending => simp [ho] at h
end

/-- C18. For every array of promises that are fulfilled, whenever each of
them settles, the expression `markHTMLString((await Promise.all(promises)).join(""))`
of `renderJSX` gives the marked concatenation of the texts of their values
in the order of the array; so for every list `[v1, ..., vn]` of vnodes whose
renders return, `renderJSX` returns the marked concatenation of the texts of
`renderJSX(v1), ..., renderJSX(vn)` in the order of the list, whatever the
times at which the renders complete, in the model with promises and in the
one without. The text of a string or marked string
is its content, that of a function its source, that of `undefined` and
`null` is empty. And a vnode whose type is the fragment marker renders to
exactly `renderJSX` of its `props.children`, with nothing around it. -/
theorem renderJSX_list_and_fragment (r : Val → Promise Val) (vs : List Val) (ss : List String)
    (env : JSXEnv) (fuel : Nat) (es : List (String × Val))
    (hrs : List.Forall₂ (fun v s => ∃ x, (renderJSXAsync r v).outcome = .ok x ∧
      (x = .str s ∨ x = .htmlString s ∨ (∃ i, x = .slotString s i) ∨
        ((x = .undefined ∨ x = .null) ∧ s = "") ∨ (∃ ret, x = .func s ret) ∨
        (((∃ b, x = .bool b) ∨ (∃ n, x = .num n) ∨ (∃ ys, x = .arr ys) ∨ ∃ es, x = .obj es) ∧
          s = toStringJS x))) vs ss)
    (hv : isVNode (.obj es) = true) (ht : (vnodeType (.obj es)).truthy = true)
    (hf : env.isFragment (vnodeType (.obj es)) = true) :
    (∀ (ps : List (Promise Val)) (ts : List String),
      List.Forall₂ (fun p s => p.outcome = .ok (.str s) ∨ p.outcome = .ok (.htmlString s)) ps ts →
      (renderJSXArray ps).outcome = .ok (.htmlString (String.join ts)) ∧
      (renderJSXArray ps).time = (ps.map fun p => p.time).foldl max 0) ∧
    renderJSXAsync r (.arr vs) = renderJSXArray (vs.map (renderJSXAsync r)) ∧
    (renderJSXAsync r (.arr vs)).outcome = .ok (.htmlString (String.join ss)) ∧
    renderJSX (fun w => (r w).outcome) (.arr vs) = .ok (.htmlString (String.join ss)) ∧
    renderJSXFull env (fuel + 1) (.obj es) =
      renderJSXFull env fuel (lookup (vnodeProps (.obj es)) "children") := by
  have key : ∀ (ps : List (Promise Val)) (xs : List Val) (ts : List String),
      List.Forall₂ (fun p x => p.outcome = .ok x) ps xs → joinItems xs = ts →
      renderJSXArray ps = ⟨(ps.map fun p => p.time).foldl max 0,
        .ok (.htmlString (String.join ts))⟩ := by
    intro ps xs ts h hj
    obtain ⟨h1, h2⟩ := promiseAll_fulfilled ps xs h
    simp only [renderJSXArray, promiseAll, h1, h2, markHTMLString, Val.instanceofHTMLString,
      Bool.false_eq_true, ↓reduceIte, intercalate_empty, hj]
  have main : (renderJSXAsync r (.arr vs)).outcome = .ok (.htmlString (String.join ss)) := by
    have : ∃ xs, List.Forall₂ (fun (p : Promise Val) x => p.outcome = .ok x)
        (vs.map (renderJSXAsync r)) xs ∧ joinItems xs = ss := by
      induction hrs with
      | nil => exact ⟨[], List.Forall₂.nil, rfl⟩
      | cons h1 _ ih =>
        obtain ⟨xs, hxs, hj⟩ := ih
        obtain ⟨x, hx, hform⟩ := h1
        refine ⟨x :: xs, List.Forall₂.cons hx hxs, ?_⟩
        rcases hform with rfl | rfl | ⟨i, rfl⟩ | ⟨rfl | rfl, rfl⟩ | ⟨ret, rfl⟩ |
          ⟨⟨b, rfl⟩ | ⟨n, rfl⟩ | ⟨ys, rfl⟩ | ⟨es, rfl⟩, rfl⟩ <;>
        simp [joinItems, toStringJS, hj]
    obtain ⟨xs, hxs, hj⟩ := this
    simp only [renderJSXAsync, renderJSXPromises_eq_map]
    rw [key _ xs ss hxs hj]
  refine ⟨fun ps ts h => ?_, ?_, main, renderJSXAsync_ok r _ _ main, ?_⟩
  · have : ∃ xs, List.Forall₂ (fun (p : Promise Val) x => p.outcome = .ok x) ps xs ∧
        joinItems xs = ts := by
      induction h with
      | nil => exact ⟨[], List.Forall₂.nil, rfl⟩
      | cons h1 _ ih =>
        obtain ⟨xs, hxs, hj⟩ := ih
        rcases h1 with h1 | h1
        · exact ⟨_ :: xs, List.Forall₂.cons h1 hxs, by simp [joinItems, toStringJS, hj]⟩
        · exact ⟨_ :: xs, List.Forall₂.cons h1 hxs, by simp [joinItems, toStringJS, hj]⟩
    obtain ⟨xs, hxs, hj⟩ := this
    rw [key ps xs ts hxs hj]
    exact ⟨rfl, rfl⟩
  · simp only [renderJSXAsync, renderJSXPromises_eq_map]
  · simp only [renderJSXFull, renderJSX, renderJSXVNode, hv, ht, hf, ↓reduceIte,
      Bool.not_true, Bool.false_eq_true]

theorem renderJSX_list_and_fragment_witness :
    (renderJSXAsync (fun v => match v with
        | .bool true => ⟨5, .ok (.htmlString "<i>slow</i>")⟩
        | _ => ⟨1, .ok (.htmlString "<b>fast</b>")⟩)
      (.arr [.bool true, .num 2, .str "<a>"])).outcome =
      .ok (.htmlString "<i>slow</i><b>fast</b>&lt;a&gt;") ∧
    renderJSXFull ⟨"/", fun t => t.isFunction, fun _ => false, fun _ => false,
          fun _ _ => .ok .null, fun _ => .ok (.str ""), fun _ => .ok (.str ""),
          fun _ _ => .ok (.str ""), fun _ => ⟨0⟩⟩ 2
        (.obj [("astro:jsx", .bool true), ("type", .func "Fragment" .undefined),
          ("props", .obj [("children", .str "a<b")])]) = .ok (.htmlString "a&lt;b") :=
  have h := renderJSX_list_and_fragment (fun v => match v with
        | .bool true => ⟨5, .ok (.htmlString "<i>slow</i>")⟩
        | _ => ⟨1, .ok (.htmlString "<b>fast</b>")⟩)
    [.bool true, .num 2, .str "<a>"] ["<i>slow</i>", "<b>fast</b>", "&lt;a&gt;"]
    ⟨"/", fun t => t.isFunction, fun _ => false, fun _ => false,
      fun _ _ => .ok .null, fun _ => .ok (.str ""), fun _ => .ok (.str ""),
      fun _ _ => .ok (.str ""), fun _ => ⟨0⟩⟩ 1
    [("astro:jsx", .bool true), ("type", .func "Fragment" .undefined),
      ("props", .obj [("children", .str "a<b")])]
    (List.Forall₂.cons ⟨_, rfl, Or.inr (Or.inl rfl)⟩
      (List.Forall₂.cons ⟨_, rfl, Or.inr (Or.inl rfl)⟩
        (List.Forall₂.cons ⟨_, rfl, Or.inr (Or.inl rfl)⟩ List.Forall₂.nil)))
    rfl rfl rfl
  ⟨h.2.2.1.trans rfl, h.2.2.2.2.trans rfl⟩

/-! ## The choice of a renderer -/

theorem probeRenderers_skips_no_match (pre : List SSRRenderer) (r : SSRRenderer)
    (post : List SSRRenderer) (v : Val) (hpre : ∀ p ∈ pre, p.NoMatch)
    (hc : r.check = .ok v) (hv : v.truthy = true) :
    ∀ e, ∃ e1, probeRenderers (pre ++ r :: post) e = .ok (some r, e1) := by
  induction pre with
  | nil => intro e; exact ⟨e, by simp [probeRenderers, hc, hv]⟩
  | cons p pre ih =>
    intro e
    have ih1 := ih fun q hq => hpre q (List.mem_cons_of_mem _ hq)
    rcases hpre p (List.mem_cons_self _ _) with ⟨n, m, hp⟩ | ⟨w, hp, hw⟩
    · simp only [List.cons_append, probeRenderers, hp]
      exact ih1 _
    · simp only [List.cons_append, probeRenderers, hp, hw, Bool.false_eq_true, ↓reduceIte]
      exact ih1 _

theorem probeRenderers_skips_falsy (pre rest : List SSRRenderer)
    (hpre : ∀ p ∈ pre, ∃ v, p.check = .ok v ∧ v.truthy = false) :
    ∀ e, probeRenderers (pre ++ rest) e = probeRenderers rest e := by
  induction pre with
  | nil => intro e; rfl
  | cons p pre ih =>
    intro e
    obtain ⟨w, hp, hw⟩ := hpre p (List.mem_cons_self _ _)
    simp only [List.cons_append, probeRenderers, hp, hw, Bool.false_eq_true, ↓reduceIte]
    exact ih (fun q hq => hpre q (List.mem_cons_of_mem _ hq)) e

theorem probeRenderers_keeps_error (l : List SSRRenderer) (hl : ∀ p ∈ l, p.NoMatch)
    (e : String × String) : probeRenderers l (some e) = .ok (none, some e) := by
  induction l with
  | nil => rfl
  | cons p l ih =>
    have ih1 := ih fun q hq => hl q (List.mem_cons_of_mem _ hq)
    rcases hl p (List.mem_cons_self _ _) with ⟨n, m, hp⟩ | ⟨w, hp, hw⟩
    · simp only [probeRenderers, hp, ih1]
    · simp only [probeRenderers, hp, hw, Bool.false_eq_true, ↓reduceIte, ih1]

/-- C22 (as claimed, refuted). Two renderers are registered: the check of
the first throws and the check of the second returns `false`. The error of
the first check is not treated as a mere "not a match": the call of
`renderFrameworkComponent` throws it to the caller. -/
theorem check_error_reaches_caller :
    renderMarkup ⟨[⟨"@astrojs/react", .thrown "Error" "boom", .ok (.str "", .undefined), .null⟩,
        ⟨"@astrojs/vue", .ok (.bool false), .ok (.str "", .undefined), .null⟩],
      "Counter", none, .undefined, none, .bool false, false, none, .ok (.str "")⟩ =
      .thrown "Error" "boom" := by
  rfl

/-- C22 (amended). In `renderFrameworkComponent` without `client:only` and
without a tagged renderer, an error thrown by the check of a registered
renderer does not stop the probing: when a later renderer's check returns a
truthy value, that renderer is selected and the error does not reach the
caller, whereas an error thrown by the selected renderer's
`renderToStaticMarkup` is thrown to the caller. When no check selects a
renderer, the first error thrown by a check is thrown to the caller. -/
theorem check_errors_and_markup_errors (c : FrameworkCall) (pre post : List SSRRenderer)
    (r : SSRRenderer) (hh : c.hydrate ≠ some "only") (ht : c.tagged.truthy = false)
    (hr : c.renderers = pre ++ r :: post) (hpre : ∀ p ∈ pre, p.NoMatch) :
    (∀ v, r.check = .ok v → v.truthy = true →
      renderMarkup c = staticMarkup r ∧
      ∀ n m, r.renderToStaticMarkup = .thrown n m → renderMarkup c = .thrown n m) ∧
    (∀ n m, r.check = .thrown n m →
      (∀ p ∈ pre, ∃ v, p.check = .ok v ∧ v.truthy = false) → (∀ p ∈ post, p.NoMatch) →
      renderMarkup c = .thrown n m) := by
  have hh1 : (c.hydrate != some "only") = true := by simpa using hh
  have hh2 : (c.hydrate == some "only") = false := by simpa using hh
  constructor
  · intro v hc hv
    obtain ⟨e1, he⟩ := probeRenderers_skips_no_match pre r post v hpre hc hv none
    have hm : renderMarkup c = staticMarkup r := by
      simp only [renderMarkup, chooseRenderer, hh1, hh2, ht, hr, he, ↓reduceIte,
        Bool.false_eq_true]
    refine ⟨hm, fun n m hthrow => ?_⟩
    rw [hm]
    simp only [staticMarkup, hthrow]
  · intro n m hc hfalsy hpost
    have he : probeRenderers (pre ++ r :: post) none = .ok (none, some (n, m)) := by
      rw [probeRenderers_skips_falsy pre (r :: post) hfalsy none]
      simp only [probeRenderers, hc]
      exact probeRenderers_keeps_error post hpost (n, m)
    simp only [renderMarkup, chooseRenderer, hh1, ht, hr, he, ↓reduceIte, Bool.false_eq_true]

theorem check_errors_and_markup_errors_witness :
    (renderMarkup ⟨[⟨"@astrojs/react", .thrown "Error" "boom", .ok (.str "", .undefined), .null⟩,
          ⟨"@astrojs/vue", .ok (.bool true), .thrown "TypeError" "render", .null⟩],
        "Counter", none, .undefined, none, .bool false, false, none, .ok (.str "")⟩ =
        staticMarkup ⟨"@astrojs/vue", .ok (.bool true), .thrown "TypeError" "render", .null⟩ ∧
      ∀ n m, (SSRRenderer.mk "@astrojs/vue" (.ok (.bool true)) (.thrown "TypeError" "render")
          .null).renderToStaticMarkup = .thrown n m →
        renderMarkup ⟨[⟨"@astrojs/react", .thrown "Error" "boom", .ok (.str "", .undefined),
            .null⟩,
          ⟨"@astrojs/vue", .ok (.bool true), .thrown "TypeError" "render", .null⟩],
        "Counter", none, .undefined, none, .bool false, false, none, .ok (.str "")⟩ =
          .thrown n m) ∧
    renderMarkup ⟨[⟨"@astrojs/vue", .ok (.bool false), .ok (.str "", .undefined), .null⟩,
          ⟨"@astrojs/react", .thrown "Error" "first", .ok (.str "", .undefined), .null⟩,
          ⟨"@astrojs/solid-js", .thrown "Error" "second", .ok (.str "", .undefined), .null⟩],
        "Counter", none, .undefined, none, .bool false, false, none, .ok (.str "")⟩ =
      .thrown "Error" "first" :=
  ⟨(check_errors_and_markup_errors
      ⟨[⟨"@astrojs/react", .thrown "Error" "boom", .ok (.str "", .undefined), .null⟩,
          ⟨"@astrojs/vue", .ok (.bool true), .thrown "TypeError" "render", .null⟩],
        "Counter", none, .undefined, none, .bool false, false, none, .ok (.str "")⟩
      [⟨"@astrojs/react", .thrown "Error" "boom", .ok (.str "", .undefined), .null⟩] []
      ⟨"@astrojs/vue", .ok (.bool true), .thrown "TypeError" "render", .null⟩
      (by decide) rfl rfl
      (by intro p hp; simp only [List.mem_singleton] at hp; subst hp
          exact Or.inl ⟨"Error", "boom", rfl⟩)).1 (.bool true) rfl rfl,
    (check_errors_and_markup_errors
      ⟨[⟨"@astrojs/vue", .ok (.bool false), .ok (.str "", .undefined), .null⟩,
          ⟨"@astrojs/react", .thrown "Error" "first", .ok (.str "", .undefined), .null⟩,
          ⟨"@astrojs/solid-js", .thrown "Error" "second", .ok (.str "", .undefined), .null⟩],
        "Counter", none, .undefined, none, .bool false, false, none, .ok (.str "")⟩
      [⟨"@astrojs/vue", .ok (.bool false), .ok (.str "", .undefined), .null⟩]
      [⟨"@astrojs/solid-js", .thrown "Error" "second", .ok (.str "", .undefined), .null⟩]
      ⟨"@astrojs/react", .thrown "Error" "first", .ok (.str "", .undefined), .null⟩
      (by decide) rfl rfl
      (by intro p hp; simp only [List.mem_singleton] at hp; subst hp
          exact Or.inr ⟨.bool false, rfl, rfl⟩)).2 "Error" "first" rfl
      (by intro p hp; simp only [List.mem_singleton] at hp; subst hp
          exact ⟨.bool false, rfl, rfl⟩)
      (by intro p hp; simp only [List.mem_singleton] at hp; subst hp
          exact Or.inl ⟨"Error", "second", rfl⟩)⟩

/-- C23 (as claimed, refuted). Two external renderers are registered, the
component is rendered with `client:only` without a hint (`true`, the value
of an attribute without a value, or `undefined`), and the URL of the
component ends in `.vue`: no `NoClientOnlyHint` error is thrown, the
renderer named after the extension is selected. -/
theorem client_only_without_hint_uses_extension :
    renderMarkup ⟨[⟨"@astrojs/react", .ok (.bool false), .ok (.str "", .undefined), .null⟩,
          ⟨"@astrojs/vue", .ok (.bool false), .ok (.str "", .undefined), .null⟩],
        "Counter", some "only", .bool true, some "/src/components/Counter.vue", .bool false,
        false, none, .ok (.str "loading")⟩ =
      .ok (.markup (some ⟨"@astrojs/vue", .ok (.bool false), .ok (.str "", .undefined), .null⟩)
        (.str "loading") .undefined) ∧
    renderMarkup ⟨[⟨"@astrojs/react", .ok (.bool false), .ok (.str "", .undefined), .null⟩,
          ⟨"@astrojs/vue", .ok (.bool false), .ok (.str "", .undefined), .null⟩],
        "Counter", some "only", .undefined, some "/src/components/Counter.vue", .bool false,
        false, none, .ok (.str "loading")⟩ =
      .ok (.markup (some ⟨"@astrojs/vue", .ok (.bool false), .ok (.str "", .undefined), .null⟩)
        (.str "loading") .undefined) := by
  constructor <;> rfl

/-- C23 (amended). For a component rendered with `client:only`: a hint
that is truthy selects the first registered renderer whose name is the hint
(with `solid` read as `solid-js`) or `@astrojs/` followed by it. Without a
hint, or with a hint that names no registered renderer in this way, the
only external (non-`astro:jsx`) renderer is selected when exactly one is
registered; otherwise the first registered renderer named after the
extension of the URL of the component is selected, and only when there is
none does the call fail with the `NoClientOnlyHint` error. -/
theorem client_only_renderer (c : FrameworkCall) (ho : c.hydrate = some "only") :
    (∀ r, c.hydrateArgs.truthy = true →
      c.renderers.find? (namedAfter (aliasedName c.hydrateArgs)) = some r →
      chooseRenderer c = .ok (some r)) ∧
    ((c.hydrateArgs.truthy = false ∨
        c.renderers.find? (namedAfter (aliasedName c.hydrateArgs)) = none) →
      (∀ r, validRenderers c.renderers = [r] → chooseRenderer c = .ok (some r)) ∧
      ((validRenderers c.renderers).length ≠ 1 →
        chooseRenderer c =
          .ok (c.renderers.filter (namedAfter (extnameOf c.componentUrl))).head? ∧
        (c.renderers.filter (namedAfter (extnameOf c.componentUrl)) = [] →
          renderMarkup c =
            .thrown "NoClientOnlyHint" (noClientOnlyHintMessage c.displayName)))) := by
  have ho1 : (c.hydrate != some "only") = false := by simp [ho]
  have ho2 : (c.hydrate == some "only") = true := by simp [ho]
  refine ⟨fun r ht hf => ?_, fun hno => ?_⟩
  · simp only [chooseRenderer, ho1, ht, hf, ↓reduceIte, Bool.false_eq_true]
  · have hnone : (if c.hydrateArgs.truthy = true then
          c.renderers.find? (namedAfter (aliasedName c.hydrateArgs)) else none) = none := by
      rcases hno with h | h
      · simp [h]
      · simp [h]
    refine ⟨fun r hr => ?_, fun hlen => ?_⟩
    · simp only [chooseRenderer, ho1, hnone, hr, ↓reduceIte, Bool.false_eq_true,
        List.length_singleton, List.head?_cons]
    · have hch : chooseRenderer c =
          .ok (c.renderers.filter (namedAfter (extnameOf c.componentUrl))).head? := by
        simp only [chooseRenderer, ho1, hnone, hlen, ↓reduceIte, Bool.false_eq_true]
      refine ⟨hch, fun hnil => ?_⟩
      simp only [renderMarkup, hch, hnil, List.head?_nil, ho1, ho2, ↓reduceIte,
        Bool.false_eq_true]

theorem client_only_renderer_witness :
    (∀ r, (Val.str "solid").truthy = true →
      [SSRRenderer.mk "@astrojs/react" (.ok (.bool false)) (.ok (.str "", .undefined)) .null,
        ⟨"@astrojs/solid-js", .ok (.bool false), .ok (.str "", .undefined), .null⟩].find?
          (namedAfter (aliasedName (.str "solid"))) = some r →
      chooseRenderer ⟨[⟨"@astrojs/react", .ok (.bool false), .ok (.str "", .undefined), .null⟩,
          ⟨"@astrojs/solid-js", .ok (.bool false), .ok (.str "", .undefined), .null⟩],
        "Counter", some "only", .str "solid", none, .bool false, false, none,
        .ok (.str "")⟩ = .ok (some r)) ∧
    renderMarkup ⟨[⟨"@astrojs/react", .ok (.bool false), .ok (.str "", .undefined), .null⟩,
          ⟨"@astrojs/vue", .ok (.bool false), .ok (.str "", .undefined), .null⟩],
        "Counter", some "only", .undefined, some "/src/components/Counter.svelte", .bool false,
        false, none, .ok (.str "")⟩ =
      .thrown "NoClientOnlyHint" (noClientOnlyHintMessage "Counter") :=
  ⟨(client_only_renderer
      ⟨[⟨"@astrojs/react", .ok (.bool false), .ok (.str "", .undefined), .null⟩,
          ⟨"@astrojs/solid-js", .ok (.bool false), .ok (.str "", .undefined), .null⟩],
        "Counter", some "only", .str "solid", none, .bool false, false, none,
        .ok (.str "")⟩ rfl).1,
    (((client_only_renderer
      ⟨[⟨"@astrojs/react", .ok (.bool false), .ok (.str "", .undefined), .null⟩,
          ⟨"@astrojs/vue", .ok (.bool false), .ok (.str "", .undefined), .null⟩],
        "Counter", some "only", .undefined, some "/src/components/Counter.svelte", .bool false,
        false, none, .ok (.str "")⟩ rfl).2 (Or.inl rfl)).2 (by decide)).2 rfl⟩

/-! ## The cookie endpoint -/

/-- C25. For every request the handler `post` of the cookie endpoint
returns a response of status 200 whose only header is `Set-Cookie` with
`jwt_token=` followed by the value of the `Authorization` header of the
request (the text `null` when the request has none), and the handler `get`
returns a response of status 200 whose only header is the `Set-Cookie` that
clears `jwt_token` with an empty value, `Max-Age=0` and an expiry of
1 January 1970, whatever the request and the params. -/
theorem cookie_endpoint_responses (request : Request) (params : List (String × String)) :
    (post request).status = 200 ∧
    (post request).headers =
      [("Set-Cookie", "jwt_token=" ++ (headersGet request.headers "Authorization").getD "null")] ∧
    get params request =
      ⟨200, [("Set-Cookie", "jwt_token=; Max-Age=0; expires=Thu, 01 Jan 1970 00:00:00 GMT;")]⟩ := by
  refine ⟨rfl, ?_, rfl⟩
  simp only [post]
  cases headersGet request.headers "Authorization" <;> rfl

/-! ## The head content -/

theorem maybeRenderHead_sets_mark {ρ : Type} (f : ρ → Val × ρ) (result : HeadResult ρ) :
    (maybeRenderHead f result).2.hasRenderedHead = true := by
  unfold maybeRenderHead
  split
  · assumption
  · rfl

theorem runHeadCalls_after_head {ρ : Type} (f : ρ → Val × ρ) (calls : List HeadCall) :
    ∀ result : HeadResult ρ, result.hasRenderedHead = true →
      (runHeadCalls f calls result).1.length = calls.count .renderHead := by
  induction calls with
  | nil => intro result _; rfl
  | cons call calls ih =>
    intro result h
    cases call with
    | renderHead =>
      simp only [runHeadCalls, List.length_cons, List.count_cons_self]
      rw [ih _ rfl]
    | maybeRenderHead =>
      simp only [runHeadCalls, maybeRenderHead, h, ↓reduceIte, List.nil_append]
      rw [ih _ h]
      simp

/-- C26 (as claimed, refuted). A component calls `maybeRenderHead` on a
result whose head has not been rendered, and the page then calls
`renderHead`: `renderHead` does not test the mark, and the head content is
produced twice. -/
theorem head_content_produced_twice :
    (runHeadCalls (fun n : Nat => (Val.htmlString "<link>", n + 1))
      [.maybeRenderHead, .renderHead] ⟨false, 0⟩).1 =
      [.htmlString "<link>", .htmlString "<link>"] := by
  rfl

/-- C26 (amended). A call of `renderHead` or of `maybeRenderHead` leaves
the mark `_metadata.hasRenderedHead` set, and on a result with the mark set
a call of `maybeRenderHead` yields nothing. In every sequence of calls on
one result the head content is produced once for each call of `renderHead`,
which does not test the mark, and once more exactly when the first call is
a `maybeRenderHead` and the mark is not set at the start: all the calls of
`maybeRenderHead` together produce it at most once, and it is produced at
most once in all when `renderHead` is called at most once and no
`maybeRenderHead` comes first. -/
theorem head_content_count {ρ : Type} (renderAllHeadContent : ρ → Val × ρ)
    (result : HeadResult ρ) (calls : List HeadCall) :
    (renderHeadNow renderAllHeadContent result).2.hasRenderedHead = true ∧
    (maybeRenderHead renderAllHeadContent result).2.hasRenderedHead = true ∧
    (result.hasRenderedHead = true → (maybeRenderHead renderAllHeadContent result).1 = []) ∧
    (runHeadCalls renderAllHeadContent calls result).1.length =
      calls.count .renderHead +
        (if result.hasRenderedHead = false ∧ calls.head? = some .maybeRenderHead then 1
          else 0) ∧
    (calls.count .renderHead ≤ 1 → calls.head? ≠ some .maybeRenderHead →
      (runHeadCalls renderAllHeadContent calls result).1.length ≤ 1) := by
  have hcount : (runHeadCalls renderAllHeadContent calls result).1.length =
      calls.count .renderHead +
        (if result.hasRenderedHead = false ∧ calls.head? = some .maybeRenderHead then 1
          else 0) := by
    cases calls with
    | nil => simp [runHeadCalls]
    | cons call calls =>
      cases call with
      | renderHead =>
        simp only [runHeadCalls, List.length_cons, List.count_cons_self, List.head?_cons]
        rw [runHeadCalls_after_head _ calls _ rfl]
        simp
      | maybeRenderHead =>
        simp only [runHeadCalls, List.length_append, List.head?_cons]
        rw [runHeadCalls_after_head _ calls _ (maybeRenderHead_sets_mark _ _)]
        cases hm : result.hasRenderedHead with
        | true => simp [maybeRenderHead, hm]
        | false =>
          simp [maybeRenderHead, hm]
          omega
  refine ⟨rfl, maybeRenderHead_sets_mark _ _, fun h => ?_, hcount, fun h1 h2 => ?_⟩
  · simp only [maybeRenderHead, h, ↓reduceIte]
  · rw [hcount]
    simp only [h2, and_false, ↓reduceIte]
    omega

theorem head_content_count_witness :
    (HeadResult.mk true 0).hasRenderedHead = true ∧
    (maybeRenderHead (fun n : Nat => (Val.htmlString "<link>", n + 1)) ⟨true, 0⟩).1 = [] ∧
    [HeadCall.renderHead, .maybeRenderHead, .maybeRenderHead].count .renderHead ≤ 1 ∧
    (runHeadCalls (fun n : Nat => (Val.htmlString "<link>", n + 1))
      [.renderHead, .maybeRenderHead, .maybeRenderHead] ⟨false, 0⟩).1.length ≤ 1 :=
  ⟨rfl, (head_content_count (fun n : Nat => (Val.htmlString "<link>", n + 1)) ⟨true, 0⟩
      []).2.2.1 rfl, by decide,
    (head_content_count (fun n : Nat => (Val.htmlString "<link>", n + 1)) ⟨false, 0⟩
      [.renderHead, .maybeRenderHead, .maybeRenderHead]).2.2.2.2 (by decide) (by decide)⟩

/-! ## The hash of a text -/

theorem toInt32_range (x : Int) : -2147483648 ≤ toInt32 x ∧ toInt32 x ≤ 2147483647 := by
  unfold toInt32
  omega

theorem bitwiseStep_mod (a b : Int) (c : Nat) (h : a % 4294967296 = b % 4294967296) :
    bitwiseStep a c % 4294967296 = (b * 31 + c) % 4294967296 := by
  unfold bitwiseStep toInt32
  omega

theorem foldl_bitwiseStep_mod (l : List Nat) :
    ∀ a b : Int, a % 4294967296 = b % 4294967296 →
      l.foldl bitwiseStep a % 4294967296 =
        l.foldl (fun (h : Int) (c : Nat) => h * 31 + c) b % 4294967296 := by
  induction l with
  | nil => intro a b h; exact h
  | cons c l ih =>
    intro a b h
    simp only [List.foldl_cons]
    exact ih _ _ (bitwiseStep_mod a b c h)

theorem foldl_bitwiseStep_range (l : List Nat) :
    ∀ a : Int, -2147483648 ≤ a ∧ a ≤ 2147483647 →
      -2147483648 ≤ l.foldl bitwiseStep a ∧ l.foldl bitwiseStep a ≤ 2147483647 := by
  induction l with
  | nil => intro a h; exact h
  | cons c l ih =>
    intro a _
    simp only [List.foldl_cons]
    exact ih _ (toInt32_range _)

theorem horner_eq_polynomialHash (l : List Nat) :
    l.foldl (fun (h : Int) (c : Nat) => h * 31 + c) 0 = polynomialHash l := by
  induction l using List.reverseRecOn with
  | nil => simp [polynomialHash]
  | append_singleton l c ih =>
    rw [List.foldl_append, ih]
    simp only [List.foldl_cons, List.foldl_nil, polynomialHash, List.length_append,
      List.length_singleton, Finset.sum_range_succ, Nat.add_sub_cancel, Nat.sub_self, pow_zero,
      mul_one]
    congr 1
    · rw [Finset.sum_mul]
      apply Finset.sum_congr rfl
      intro i hi
      have hi1 : i < l.length := Finset.mem_range.mp hi
      rw [List.getD_append _ _ _ _ hi1]
      have he : l.length - i = l.length - 1 - i + 1 := by omega
      rw [he, pow_succ, mul_assoc]
    · rw [List.getD_append_right _ _ _ _ (le_refl _)]
      simp

/-- C27. For every text, `bitwise` is congruent modulo `2^32` to the sum of
`s[i] * 31^(n-1-i)` over the UTF-16 code units of the text and lies between
`-2^31` and `2^31 - 1`: it is that sum read as a signed integer of 32 bits.
In particular `bitwise("")` is 0. -/
theorem bitwise_is_polynomial_hash (s : String) :
    bitwise s % 2 ^ 32 = polynomialHash (charCodes s) % 2 ^ 32 ∧
    bitwise s = toInt32 (polynomialHash (charCodes s)) ∧
    -2 ^ 31 ≤ bitwise s ∧ bitwise s ≤ 2 ^ 31 - 1 ∧
    bitwise "" = 0 := by
  have hmod : bitwise s % 4294967296 = polynomialHash (charCodes s) % 4294967296 := by
    unfold bitwise bitwiseUnits
    split
    · rename_i h0
      have hnil : charCodes s = [] := List.length_eq_zero.mp h0
      rw [hnil]
      simp [polynomialHash]
    · rw [← horner_eq_polynomialHash]
      exact foldl_bitwiseStep_mod _ 0 0 rfl
  have hrange : -2147483648 ≤ bitwise s ∧ bitwise s ≤ 2147483647 := by
    unfold bitwise bitwiseUnits
    split
    · omega
    · exact foldl_bitwiseStep_range _ 0 (by omega)
  have h32 : (2 : Int) ^ 32 = 4294967296 := by norm_num
  have h31 : (2 : Int) ^ 31 = 2147483648 := by norm_num
  rw [h32, h31]
  refine ⟨hmod, ?_, hrange.1, by omega, by rfl⟩
  unfold toInt32
  omega

/-! ## The id of an island -/

theorem binary_eq : binary = 61 := by rfl

theorem dictionaryAt_digit : ∀ d, d < 61 → dictionaryAt d = String.singleton (digitChar d) := by
  decide

theorem digitChar_index : ∀ d, d < 61 → dictionary.data.indexOf (digitChar d) = d := by
  decide

theorem digitChar_ne_Z : ∀ d, d < 61 → digitChar d ≠ 'Z' := by
  decide

theorem shorthashLoop_digits :
    ∀ (fuel n : Nat) (r : String), n ≤ fuel →
      (if (shorthashLoop fuel n r).1 > 0 then
          dictionaryAt (shorthashLoop fuel n r).1 ++ (shorthashLoop fuel n r).2
        else (shorthashLoop fuel n r).2) =
        ⟨(Nat.digits 61 n).reverse.map digitChar ++ r.data⟩ := by
  intro fuel
  induction fuel with
  | zero =>
    intro n r hn
    have h0 : n = 0 := by omega
    subst h0
    simp [shorthashLoop]
  | succ fuel ih =>
    intro n r hn
    by_cases hge : n ≥ 61
    · have hlt : n / 61 ≤ fuel := by
        have : n / 61 < n := Nat.div_lt_self (by omega) (by omega)
        omega
      have hd : Nat.digits 61 n = (n % 61) :: Nat.digits 61 (n / 61) :=
        Nat.digits_def' (by omega) (by omega)
      simp only [shorthashLoop, binary_eq, hge, ↓reduceIte]
      rw [ih (n / 61) _ hlt, hd, dictionaryAt_digit (n % 61) (Nat.mod_lt _ (by omega))]
      apply String.ext
      simp [String.singleton]
    · have hlt : n < 61 := by omega
      simp only [shorthashLoop, binary_eq, hge, ↓reduceIte]
      by_cases h0 : n = 0
      · subst h0
        simp
      · have hpos : n > 0 := by omega
        rw [if_pos hpos, Nat.digits_of_lt 61 n h0 hlt, dictionaryAt_digit n hlt]
        apply String.ext
        simp [String.singleton]

theorem shorthashOf_eq_spec (h : Int) : shorthashOf h = shorthashSpec h := by
  unfold shorthashOf shorthashSpec
  simp only []
  rw [shorthashLoop_digits h.natAbs h.natAbs "" (le_refl _)]
  simp

theorem map_digitChar_injective (l1 l2 : List Nat) (h1 : ∀ d ∈ l1, d < 61)
    (h2 : ∀ d ∈ l2, d < 61) (h : l1.map digitChar = l2.map digitChar) : l1 = l2 := by
  have e1 : (l1.map digitChar).map (fun c => dictionary.data.indexOf c) = l1 := by
    rw [List.map_map]
    conv_rhs => rw [← List.map_id l1]
    exact List.map_congr_left fun d hd => digitChar_index d (h1 d hd)
  have e2 : (l2.map digitChar).map (fun c => dictionary.data.indexOf c) = l2 := by
    rw [List.map_map]
    conv_rhs => rw [← List.map_id l2]
    exact List.map_congr_left fun d hd => digitChar_index d (h2 d hd)
  rw [← e1, ← e2, h]

theorem digits_reverse_lt (n d : Nat) (hd : d ∈ (Nat.digits 61 n).reverse) : d < 61 :=
  Nat.digits_lt_base (by omega) (List.mem_reverse.mp hd)

theorem shorthashSpec_injective (h1 h2 : Int) (h : shorthashSpec h1 = shorthashSpec h2) :
    h1 = h2 := by
  have hdata := congrArg String.data h
  unfold shorthashSpec at hdata
  have key : ∀ a b : Nat,
      (Nat.digits 61 a).reverse.map digitChar = (Nat.digits 61 b).reverse.map digitChar →
      a = b := by
    intro a b hab
    have hr := map_digitChar_injective _ _ (digits_reverse_lt a) (digits_reverse_lt b) hab
    have hdig : Nat.digits 61 a = Nat.digits 61 b := List.reverse_injective hr
    exact Nat.digits_inj_iff.mp hdig
  have noZ : ∀ (a : Nat) (l : List Char),
      (Nat.digits 61 a).reverse.map digitChar ≠ 'Z' :: l := by
    intro a l hl
    cases hds : (Nat.digits 61 a).reverse with
    | nil => rw [hds] at hl; simp at hl
    | cons d ds =>
      rw [hds] at hl
      simp only [List.map_cons, List.cons.injEq] at hl
      exact digitChar_ne_Z d (digits_reverse_lt a d (by rw [hds]; simp)) hl.1
  by_cases n1 : h1 < 0 <;> by_cases n2 : h2 < 0
  · simp only [n1, n2, ↓reduceIte, String.data_append] at hdata
    have := key _ _ (List.append_cancel_left hdata)
    omega
  · simp only [n1, n2, ↓reduceIte, String.data_append] at hdata
    exact absurd hdata.symm (noZ h2.natAbs _)
  · simp only [n1, n2, ↓reduceIte, String.data_append] at hdata
    exact absurd hdata (noZ h1.natAbs _)
  · simp only [n1, n2, ↓reduceIte, String.data_append] at hdata
    have := key _ _ (List.append_cancel_left hdata)
    omega

/-- C28. For every text `s`, `shorthash(s)` is the encoding of the integer
`h = bitwise(s)`: `Z` when `h` is negative, followed by the digits of `|h|`
in base 61 over the dictionary of 61 characters, the most significant first
and none for 0. The same holds of the encoding of every integer `h`; `Z` is
not in the dictionary; the encoding determines the integer; so two texts get
the same id if and only if `bitwise` gives them the same integer. -/
theorem shorthash_injective_on_hash (h1 h2 : Int) (s1 s2 : String) :
    shorthash s1 =
      (if bitwise s1 < 0 then "Z" else "") ++
        ⟨(Nat.digits 61 (bitwise s1).natAbs).reverse.map digitChar⟩ ∧
    shorthashOf h1 =
      (if h1 < 0 then "Z" else "") ++ ⟨(Nat.digits 61 h1.natAbs).reverse.map digitChar⟩ ∧
    binary = 61 ∧ 'Z' ∉ dictionary.data ∧ shorthashOf 0 = "" ∧
    (shorthashOf h1 = shorthashOf h2 → h1 = h2) ∧
    (shorthash s1 = shorthash s2 ↔ bitwise s1 = bitwise s2) := by
  refine ⟨shorthashOf_eq_spec (bitwise s1), shorthashOf_eq_spec h1, rfl, by decide, by rfl,
    fun h => ?_, fun h => ?_, fun h => ?_⟩
  · rw [shorthashOf_eq_spec, shorthashOf_eq_spec] at h
    exact shorthashSpec_injective h1 h2 h
  · unfold shorthash at h
    rw [shorthashOf_eq_spec, shorthashOf_eq_spec] at h
    exact shorthashSpec_injective _ _ h
  · unfold shorthash
    rw [h]

theorem shorthash_injective_on_hash_witness :
    shorthashOf (-3723) = shorthashOf (-3723) ∧ shorthash "Aa" = shorthash "BB" ∧
    (-3723 : Int) = -3723 ∧ bitwise "Aa" = bitwise "BB" ∧ shorthashOf (-3723) = "Z102" ∧
    shorthash "a" = "1A" ∧ bitwise "Aa" = 2112 :=
  ⟨rfl, by rfl, (shorthash_injective_on_hash (-3723) (-3723) "a" "a").2.2.2.2.2.1 rfl,
    (shorthash_injective_on_hash (-3723) (-3723) "Aa" "BB").2.2.2.2.2.2.mp (by rfl), by rfl,
    by rfl, by rfl⟩

/-! ## The name of an element -/

theorem dropWhile_of_all_false {α : Type} (p : α → Bool) (l : List α)
    (h : ∀ c ∈ l, p c = false) : l.dropWhile p = l := by
  cases l with
  | nil => rfl
  | cons c cs => simp [List.dropWhile, h c (List.mem_cons_self _ _)]

theorem jsTrim_of_no_whitespace (s : String) (h : ∀ c ∈ s.data, isJSWhitespace c = false) :
    jsTrim s = s := by
  unfold jsTrim
  rw [dropWhile_of_all_false _ _ h,
    dropWhile_of_all_false _ _ (fun c hc => h c (List.mem_reverse.mp hc)), List.reverse_reverse]

theorem splitUnsafeFirst_safe (s : String) :
    ∀ c ∈ (splitUnsafeFirst s).data, isUnsafeChar c = false := by
  intro c hc
  have := List.mem_takeWhile_imp hc
  simpa using this

theorem not_whitespace_of_safe (c : Char) (h : isUnsafeChar c = false) :
    isJSWhitespace c = false := by
  unfold isUnsafeChar at h
  simp only [Bool.or_eq_false_iff] at h
  exact h.2

/-- C30. For every text `tag`, `sanitizeElementName(tag)` contains none of
the characters `&`, `<`, `>`, `'`, `"` and no whitespace; it is `tag` when
`tag` contains none of them, and otherwise it is the part of the trimmed
`tag` before its first run of such characters (which trimming leaves as it
is). -/
theorem sanitizeElementName_is_safe_part (tag : String) :
    (∀ c ∈ (sanitizeElementName tag).data, isUnsafeChar c = false) ∧
    (tag.data.any isUnsafeChar = false → sanitizeElementName tag = tag) ∧
    (tag.data.any isUnsafeChar = true →
      sanitizeElementName tag = ⟨(jsTrim tag).data.takeWhile fun c => !isUnsafeChar c⟩ ∧
      sanitizeElementName tag = jsTrim ⟨(jsTrim tag).data.takeWhile fun c => !isUnsafeChar c⟩) := by
  have htrim : jsTrim (splitUnsafeFirst (jsTrim tag)) = splitUnsafeFirst (jsTrim tag) :=
    jsTrim_of_no_whitespace _ fun c hc =>
      not_whitespace_of_safe c (splitUnsafeFirst_safe _ c hc)
  refine ⟨?_, fun h => ?_, fun h => ?_⟩
  · unfold sanitizeElementName
    split
    · rename_i h
      intro c hc
      simp only [Bool.not_eq_true', List.any_eq_false] at h
      simpa using h c hc
    · rw [htrim]
      exact splitUnsafeFirst_safe _
  · simp only [sanitizeElementName, h, Bool.not_false, ↓reduceIte]
  · have hs : sanitizeElementName tag = jsTrim (splitUnsafeFirst (jsTrim tag)) := by
      simp only [sanitizeElementName, h, Bool.not_true, Bool.false_eq_true, ↓reduceIte]
    exact ⟨by rw [hs, htrim]; rfl, by rw [hs]; rfl⟩

theorem sanitizeElementName_is_safe_part_witness :
    "my-element".data.any isUnsafeChar = false ∧ sanitizeElementName "my-element" = "my-element" ∧
    " div onclick=\"x\"".data.any isUnsafeChar = true ∧
    sanitizeElementName " div onclick=\"x\"" = "div" :=
  ⟨by decide, (sanitizeElementName_is_safe_part "my-element").2.1 (by decide), by decide,
    ((sanitizeElementName_is_safe_part " div onclick=\"x\"").2.2 (by decide)).1.trans
      (by decide)⟩

/-! ## The routes -/

/-- C24. In the deserialized route table the path `/products/42` is matched
by the pattern of the route `/products/[product]`, the fourth, and by the
pattern of no route listed before it; the match captures `42`, which the
only param of the route, `product`, names; the component of the route is
`src/pages/products/[product].astro`, and `pageMap` maps it to the module
`_page3`, the page of the URL `/products/[product]`. -/
theorem products_path_dispatch :
    ∃ (pre post : List RouteData) (r : RouteData),
      manifestRoutes = some (pre ++ r :: post) ∧ pre.length = 3 ∧
      r.route = "/products/[product]" ∧ r.test "/products/42" = true ∧
      (∀ p ∈ pre, p.test "/products/42" = false) ∧
      r.exec "/products/42" = some ["42"] ∧ r.params = ["product"] ∧
      r.component = "src/pages/products/[product].astro" ∧
      pageMapGet r.component =
        some ⟨"_page3",
          some "C:/Users/Abuobida/Projects/astro-ssr/frontend/src/pages/products/[product].astro",
          some "/products/[product]"⟩ ∧
      (manifestRoutes.bind fun routes => dispatch routes "/products/42") =
        some (⟨"_page3",
          some "C:/Users/Abuobida/Projects/astro-ssr/frontend/src/pages/products/[product].astro",
          some "/products/[product]"⟩, [("product", "42")]) := by
  refine ⟨(serializedRoutes.take 3).filterMap deserializeRouteData,
    (serializedRoutes.drop 4).filterMap deserializeRouteData,
    ⟨"/products/[product]", "page",
      [.start, .lit '/', .lit 'p', .lit 'r', .lit 'o', .lit 'd', .lit 'u', .lit 'c', .lit 't',
        .lit 's', .lit '/', .lazyGroupNot '/', .optLit '/', .finish],
      ["product"], "src/pages/products/[product].astro", none⟩,
    by decide, by decide, rfl, by decide, by decide, by decide, rfl, rfl, by decide, by decide⟩

/-! ## The set of parents -/

theorem mapOutcome_ok_elim_inv {α β σ : Type} (f : α → σ → Outcome (β × σ)) (Inv : σ → Prop) :
    ∀ (xs : List α), (∀ x ∈ xs, ∀ s y s1, Inv s → f x s = .ok (y, s1) → Inv s1) →
      ∀ (s : σ) (ys : List β) (s2 : σ), Inv s → mapOutcome f xs s = .ok (ys, s2) →
        ∀ x ∈ xs, ∃ s1 y s3, Inv s1 ∧ f x s1 = .ok (y, s3) := by
  intro xs
  induction xs with
  | nil => intro _ s ys s2 _ _ x hx; simp at hx
  | cons a xs ih =>
    intro hf s ys s2 hs h x hx
    simp only [mapOutcome] at h
    cases hfa : f a s with
    | ok r =>
      obtain ⟨y, s1⟩ := r
      simp only [hfa] at h
      have hs1 := hf a (List.mem_cons_self _ _) s y s1 hs hfa
      cases hrest : mapOutcome f xs s1 with
      | ok r2 =>
        obtain ⟨ys2, s4⟩ := r2
        rcases List.mem_cons.mp hx with rfl | hx
        · exact ⟨s, y, s1, hs, hfa⟩
        · exact ih (fun x hx => hf x (List.mem_cons_of_mem _ hx)) s1 ys2 s4 hs1 hrest x hx
      | thrown n m => simp [hrest] at h
      | pending => simp [hrest] at h
    | thrown n m => simp [hfa] at h
    | pending => simp [hfa] at h

theorem serializeArray_restores_of (heap : Heap) (metadata : Metadata) (fuel : Nat)
    (ih : ∀ t st j st1, convertToSerializedForm heap metadata fuel t st = .ok (j, st1) →
      Restores st st1)
    (id : Ident) (elems : List Target) (st : SerState) (j : Json) (st1 : SerState)
    (h : serializeArray heap metadata (fuel + 1) id elems st = .ok (j, st1)) :
    Restores st st1 := by
  rw [serializeArray_succ] at h
  split at h
  · cases h
  · cases hm : mapOutcome (convertToSerializedForm heap metadata fuel) elems
        { st with parents := id :: st.parents } with
    | ok r =>
      obtain ⟨ser, s1⟩ := r
      simp only [hm, Outcome.ok.injEq, Prod.mk.injEq] at h
      have hinv := mapOutcome_invariant (convertToSerializedForm heap metadata fuel)
        (fun s => s.parents = id :: st.parents ∧ st.next ≤ s.next) elems
        (fun x _ s y s1 hs hx => by
          have := ih x s y s1 hx
          exact ⟨this.1.trans hs.1, le_trans hs.2 this.2⟩)
        { st with parents := id :: st.parents } ser s1 ⟨rfl, le_refl _⟩ hm
      rw [← h.2]
      exact ⟨by simp [hinv.1], hinv.2⟩
    | thrown n m => simp [hm] at h
    | pending => simp [hm] at h

theorem serializeObject_restores_of (heap : Heap) (metadata : Metadata) (fuel : Nat)
    (ih : ∀ t st j st1, convertToSerializedForm heap metadata fuel t st = .ok (j, st1) →
      Restores st st1)
    (id : Ident) (es : List (String × PVal)) (st : SerState) (j : Json) (st1 : SerState)
    (h : serializeObject heap metadata (fuel + 1) id es st = .ok (j, st1)) :
    Restores st st1 := by
  rw [serializeObject_succ] at h
  split at h
  · cases h
  · generalize hg : (fun (p : String × PVal) s =>
        match convertToSerializedForm heap metadata fuel (.val p.2) s with
        | .ok (j, s1) => Outcome.ok ((p.1, j), s1)
        | .thrown n m => .thrown n m
        | .pending => .pending) = g at h
    cases hm : mapOutcome g es { st with parents := id :: st.parents } with
    | ok r =>
      obtain ⟨ser, s1⟩ := r
      simp only [hm, Outcome.ok.injEq, Prod.mk.injEq] at h
      have hinv := mapOutcome_invariant g
        (fun s => s.parents = id :: st.parents ∧ st.next ≤ s.next) es
        (fun x _ s y s1 hs hx => by
          rw [← hg] at hx
          cases hc : convertToSerializedForm heap metadata fuel (.val x.2) s with
          | ok r =>
            obtain ⟨j2, s2⟩ := r
            simp only [hc, Outcome.ok.injEq, Prod.mk.injEq] at hx
            have := ih _ s j2 s2 hc
            rw [← hx.2]
            exact ⟨this.1.trans hs.1, le_trans hs.2 this.2⟩
          | thrown n m => simp [hc] at hx
          | pending => simp [hc] at hx)
        { st with parents := id :: st.parents } ser s1 ⟨rfl, le_refl _⟩ hm
      rw [← h.2]
      exact ⟨by simp [hinv.1], hinv.2⟩
    | thrown n m => simp [hm] at h
    | pending => simp [hm] at h

theorem convert_restores (heap : Heap) (metadata : Metadata) :
    ∀ fuel t st j st1, convertToSerializedForm heap metadata fuel t st = .ok (j, st1) →
      Restores st st1 := by
  intro fuel
  induction fuel using Nat.strong_induction_on with
  | _ fuel ih =>
    intro t st j st1 h
    match fuel, t with
    | 0, _ => simp [convertToSerializedForm] at h
    | 1, .array id elems => simp [convertToSerializedForm, serializeArray] at h
    | f + 2, .array id elems =>
      rw [convert_array] at h
      cases hs : serializeArray heap metadata (f + 1) (.fresh id) elems st with
      | ok r =>
        obtain ⟨j2, s2⟩ := r
        simp only [hs, Outcome.ok.injEq, Prod.mk.injEq] at h
        rw [← h.2]
        exact serializeArray_restores_of heap metadata f (ih f (by omega)) _ _ _ _ _ hs
      | thrown n m => simp [hs] at h
      | pending => simp [hs] at h
    | f + 1, .val v =>
      cases v with
      | ref a =>
        simp only [convertToSerializedForm] at h
        cases ho : heap.obj a with
        | plain es =>
          simp only [ho] at h
          match f with
          | 0 => simp [serializeObject] at h
          | f + 1 =>
            cases hs : serializeObject heap metadata (f + 1) (.heap a) es st with
            | ok r =>
              obtain ⟨j2, s2⟩ := r
              simp only [hs, Outcome.ok.injEq, Prod.mk.injEq] at h
              rw [← h.2]
              exact serializeObject_restores_of heap metadata f (ih f (by omega)) _ _ _ _ _ hs
            | thrown n m => simp [hs] at h
            | pending => simp [hs] at h
        | array xs =>
          simp only [ho] at h
          match f with
          | 0 => simp [serializeArray] at h
          | f + 1 =>
            cases hs : serializeArray heap metadata (f + 1) (.heap a) (xs.map Target.val) st with
            | ok r =>
              obtain ⟨j2, s2⟩ := r
              simp only [hs, Outcome.ok.injEq, Prod.mk.injEq] at h
              rw [← h.2]
              exact serializeArray_restores_of heap metadata f (ih f (by omega)) _ _ _ _ _ hs
            | thrown n m => simp [hs] at h
            | pending => simp [hs] at h
        | map es =>
          simp only [ho] at h
          match f with
          | 0 => simp [serializeArray] at h
          | f + 1 =>
            cases hs : serializeArray heap metadata (f + 1) (arrayFromMap es st.next).1.items.1
                (arrayFromMap es st.next).1.items.2
                { st with next := (arrayFromMap es st.next).2 } with
            | ok r =>
              obtain ⟨j2, s2⟩ := r
              simp only [hs, Outcome.ok.injEq, Prod.mk.injEq] at h
              rw [← h.2]
              have := serializeArray_restores_of heap metadata f (ih f (by omega)) _ _ _ _ _ hs
              exact ⟨this.1, le_trans (by simp [arrayFromMap]; omega) this.2⟩
            | thrown n m => simp [hs] at h
            | pending => simp [hs] at h
        | set xs =>
          simp only [ho] at h
          match f with
          | 0 => simp [serializeArray] at h
          | f + 1 =>
            cases hs : serializeArray heap metadata (f + 1) (arrayFromSet xs st.next).1.items.1
                (arrayFromSet xs st.next).1.items.2
                { st with next := (arrayFromSet xs st.next).2 } with
            | ok r =>
              obtain ⟨j2, s2⟩ := r
              simp only [hs, Outcome.ok.injEq, Prod.mk.injEq] at h
              rw [← h.2]
              have := serializeArray_restores_of heap metadata f (ih f (by omega)) _ _ _ _ _ hs
              exact ⟨this.1, le_trans (by simp [arrayFromSet]) this.2⟩
            | thrown n m => simp [hs] at h
            | pending => simp [hs] at h
        | date iso =>
          cases iso with
          | none => simp [ho] at h
          | some s =>
            simp only [ho, Outcome.ok.injEq, Prod.mk.injEq] at h
            rw [← h.2]
            exact ⟨rfl, le_refl _⟩
        | regexp s fl =>
          simp only [ho, Outcome.ok.injEq, Prod.mk.injEq] at h
          rw [← h.2]
          exact ⟨rfl, le_refl _⟩
        | url s =>
          simp only [ho, Outcome.ok.injEq, Prod.mk.injEq] at h
          rw [← h.2]
          exact ⟨rfl, le_refl _⟩
        | uint8Array xs =>
          simp only [ho, Outcome.ok.injEq, Prod.mk.injEq] at h
          rw [← h.2]
          exact ⟨rfl, le_refl _⟩
        | uint16Array xs =>
          simp only [ho, Outcome.ok.injEq, Prod.mk.injEq] at h
          rw [← h.2]
          exact ⟨rfl, le_refl _⟩
        | uint32Array xs =>
          simp only [ho, Outcome.ok.injEq, Prod.mk.injEq] at h
          rw [← h.2]
          exact ⟨rfl, le_refl _⟩
      | _ =>
        simp only [convertToSerializedForm, Outcome.ok.injEq, Prod.mk.injEq] at h
        rw [← h.2]
        exact ⟨rfl, le_refl _⟩

theorem serializeArray_thrown_of (heap : Heap) (metadata : Metadata) (fuel : Nat)
    (ih : ∀ t st n m, convertToSerializedForm heap metadata fuel t st = .thrown n m →
      n = "Error" ∧ m = cyclicMessage metadata)
    (id : Ident) (elems : List Target) (st : SerState) (n m : String)
    (h : serializeArray heap metadata (fuel + 1) id elems st = .thrown n m) :
    n = "Error" ∧ m = cyclicMessage metadata := by
  rw [serializeArray_succ] at h
  split at h
  · simp only [Outcome.thrown.injEq] at h
    exact ⟨h.1.symm, h.2.symm⟩
  · cases hm : mapOutcome (convertToSerializedForm heap metadata fuel) elems
        { st with parents := id :: st.parents } with
    | ok r => simp [hm] at h
    | thrown n2 m2 =>
      simp only [hm, Outcome.thrown.injEq] at h
      obtain ⟨x, _, s1, hx⟩ := mapOutcome_thrown_elim _ _ _ _ _ hm
      have := ih x s1 n2 m2 hx
      exact ⟨h.1 ▸ this.1, h.2 ▸ this.2⟩
    | pending => simp [hm] at h

theorem serializeObject_thrown_of (heap : Heap) (metadata : Metadata) (fuel : Nat)
    (ih : ∀ t st n m, convertToSerializedForm heap metadata fuel t st = .thrown n m →
      n = "Error" ∧ m = cyclicMessage metadata)
    (id : Ident) (es : List (String × PVal)) (st : SerState) (n m : String)
    (h : serializeObject heap metadata (fuel + 1) id es st = .thrown n m) :
    n = "Error" ∧ m = cyclicMessage metadata := by
  rw [serializeObject_succ] at h
  split at h
  · simp only [Outcome.thrown.injEq] at h
    exact ⟨h.1.symm, h.2.symm⟩
  · generalize hg : (fun (p : String × PVal) s =>
        match convertToSerializedForm heap metadata fuel (.val p.2) s with
        | .ok (j, s1) => Outcome.ok ((p.1, j), s1)
        | .thrown n m => .thrown n m
        | .pending => .pending) = g at h
    cases hm : mapOutcome g es { st with parents := id :: st.parents } with
    | ok r => simp [hm] at h
    | thrown n2 m2 =>
      simp only [hm, Outcome.thrown.injEq] at h
      obtain ⟨x, _, s1, hx⟩ := mapOutcome_thrown_elim _ _ _ _ _ hm
      rw [← hg] at hx
      cases hc : convertToSerializedForm heap metadata fuel (.val x.2) s1 with
      | ok r => simp [hc] at hx
      | thrown n3 m3 =>
        simp only [hc, Outcome.thrown.injEq] at hx
        have := ih _ s1 n3 m3 hc
        exact ⟨h.1 ▸ hx.1 ▸ this.1, h.2 ▸ hx.2 ▸ this.2⟩
      | pending => simp [hc] at hx
    | pending => simp [hm] at h

theorem convert_thrown_is_cyclic (heap : Heap) (metadata : Metadata)
    (hd : ∀ b, heap.obj b ≠ .date none) :
    ∀ fuel t st n m, convertToSerializedForm heap metadata fuel t st = .thrown n m →
      n = "Error" ∧ m = cyclicMessage metadata := by
  intro fuel
  induction fuel using Nat.strong_induction_on with
  | _ fuel ih =>
    intro t st n m h
    match fuel, t with
    | 0, _ => simp [convertToSerializedForm] at h
    | 1, .array id elems => simp [convertToSerializedForm, serializeArray] at h
    | f + 2, .array id elems =>
      rw [convert_array] at h
      cases hs : serializeArray heap metadata (f + 1) (.fresh id) elems st with
      | ok r => simp [hs] at h
      | thrown n2 m2 =>
        simp only [hs, Outcome.thrown.injEq] at h
        have := serializeArray_thrown_of heap metadata f (ih f (by omega)) _ _ _ _ _ hs
        exact ⟨h.1 ▸ this.1, h.2 ▸ this.2⟩
      | pending => simp [hs] at h
    | f + 1, .val v =>
      cases v with
      | ref a =>
        simp only [convertToSerializedForm] at h
        cases ho : heap.obj a with
        | plain es =>
          simp only [ho] at h
          match f with
          | 0 => simp [serializeObject] at h
          | f + 1 =>
            cases hs : serializeObject heap metadata (f + 1) (.heap a) es st with
            | ok r => simp [hs] at h
            | thrown n2 m2 =>
              simp only [hs, Outcome.thrown.injEq] at h
              have := serializeObject_thrown_of heap metadata f (ih f (by omega)) _ _ _ _ _ hs
              exact ⟨h.1 ▸ this.1, h.2 ▸ this.2⟩
            | pending => simp [hs] at h
        | array xs =>
          simp only [ho] at h
          match f with
          | 0 => simp [serializeArray] at h
          | f + 1 =>
            cases hs : serializeArray heap metadata (f + 1) (.heap a) (xs.map Target.val) st with
            | ok r => simp [hs] at h
            | thrown n2 m2 =>
              simp only [hs, Outcome.thrown.injEq] at h
              have := serializeArray_thrown_of heap metadata f (ih f (by omega)) _ _ _ _ _ hs
              exact ⟨h.1 ▸ this.1, h.2 ▸ this.2⟩
            | pending => simp [hs] at h
        | map es =>
          simp only [ho] at h
          match f with
          | 0 => simp [serializeArray] at h
          | f + 1 =>
            cases hs : serializeArray heap metadata (f + 1) (arrayFromMap es st.next).1.items.1
                (arrayFromMap es st.next).1.items.2
                { st with next := (arrayFromMap es st.next).2 } with
            | ok r => simp [hs] at h
            | thrown n2 m2 =>
              simp only [hs, Outcome.thrown.injEq] at h
              have := serializeArray_thrown_of heap metadata f (ih f (by omega)) _ _ _ _ _ hs
              exact ⟨h.1 ▸ this.1, h.2 ▸ this.2⟩
            | pending => simp [hs] at h
        | set xs =>
          simp only [ho] at h
          match f with
          | 0 => simp [serializeArray] at h
          | f + 1 =>
            cases hs : serializeArray heap metadata (f + 1) (arrayFromSet xs st.next).1.items.1
                (arrayFromSet xs st.next).1.items.2
                { st with next := (arrayFromSet xs st.next).2 } with
            | ok r => simp [hs] at h
            | thrown n2 m2 =>
              simp only [hs, Outcome.thrown.injEq] at h
              have := serializeArray_thrown_of heap metadata f (ih f (by omega)) _ _ _ _ _ hs
              exact ⟨h.1 ▸ this.1, h.2 ▸ this.2⟩
            | pending => simp [hs] at h
        | date iso =>
          cases iso with
          | none => exact absurd ho (hd a)
          | some s => simp [ho] at h
        | regexp s fl => simp [ho] at h
        | url s => simp [ho] at h
        | uint8Array xs => simp [ho] at h
        | uint16Array xs => simp [ho] at h
        | uint32Array xs => simp [ho] at h
      | _ => simp [convertToSerializedForm] at h

/-- What a call on a plain object or an array that returns tells of the
values that the object holds: each was converted, with less fuel, in a state
in which the object is a member of `parents` beside those before the call. -/
theorem convert_ok_children (heap : Heap) (metadata : Metadata) (fuel a : Nat) (st : SerState)
    (j : Json) (st1 : SerState) (hpa : (heap.obj a).isPlainOrArray = true)
    (h : convertToSerializedForm heap metadata fuel (.val (.ref a)) st = .ok (j, st1)) :
    Ident.heap a ∉ st.parents ∧
    ∀ v ∈ (heap.obj a).values, ∃ f, f < fuel ∧ ∃ s j1 s1,
      s.parents = Ident.heap a :: st.parents ∧
      convertToSerializedForm heap metadata f (.val v) s = .ok (j1, s1) := by
  match fuel with
  | 0 => simp [convertToSerializedForm] at h
  | 1 =>
    simp only [convertToSerializedForm] at h
    cases ho : heap.obj a with
    | plain es => simp [ho, serializeObject] at h
    | array xs => simp [ho, serializeArray] at h
    | _ => simp [ho, HObj.isPlainOrArray] at hpa
  | f + 2 =>
    simp only [convertToSerializedForm] at h
    cases ho : heap.obj a with
    | plain es =>
      simp only [ho] at h
      cases hs : serializeObject heap metadata (f + 1) (.heap a) es st with
      | ok r =>
        obtain ⟨j2, s2⟩ := r
        rw [serializeObject_succ] at hs
        split at hs
        · cases hs
        · rename_i hcon
          generalize hg : (fun (p : String × PVal) s =>
              match convertToSerializedForm heap metadata f (.val p.2) s with
              | .ok (j, s1) => Outcome.ok ((p.1, j), s1)
              | .thrown n m => .thrown n m
              | .pending => .pending) = g at hs
          have hpres : ∀ x ∈ es, ∀ s y s1, s.parents = Ident.heap a :: st.parents →
              g x s = .ok (y, s1) → s1.parents = Ident.heap a :: st.parents := by
            intro x _ s y s1 hsp hx
            rw [← hg] at hx
            cases hc : convertToSerializedForm heap metadata f (.val x.2) s with
            | ok r =>
              obtain ⟨j3, s3⟩ := r
              simp only [hc, Outcome.ok.injEq, Prod.mk.injEq] at hx
              rw [← hx.2]
              exact (convert_restores heap metadata f _ s j3 s3 hc).1.trans hsp
            | thrown n m => simp [hc] at hx
            | pending => simp [hc] at hx
          cases hm : mapOutcome g es { st with parents := Ident.heap a :: st.parents } with
          | ok r2 =>
            obtain ⟨ser, s3⟩ := r2
            refine ⟨by simpa using hcon, fun v hv => ?_⟩
            simp only [HObj.values, List.mem_map] at hv
            obtain ⟨p, hp, hpv⟩ := hv
            obtain ⟨s, y, s4, hsp, hx⟩ := mapOutcome_ok_elim_inv g
              (fun s => s.parents = Ident.heap a :: st.parents) es hpres
              { st with parents := Ident.heap a :: st.parents } ser s3 rfl hm p hp
            rw [← hg] at hx
            cases hc : convertToSerializedForm heap metadata f (.val p.2) s with
            | ok r =>
              obtain ⟨j3, s5⟩ := r
              exact ⟨f, by omega, s, j3, s5, hsp, hpv ▸ hc⟩
            | thrown n m => simp [hc] at hx
            | pending => simp [hc] at hx
          | thrown n m => simp [hm] at hs
          | pending => simp [hm] at hs
      | thrown n m => simp [hs] at h
      | pending => simp [hs] at h
    | array xs =>
      simp only [ho] at h
      cases hs : serializeArray heap metadata (f + 1) (.heap a) (xs.map Target.val) st with
      | ok r =>
        obtain ⟨j2, s2⟩ := r
        rw [serializeArray_succ] at hs
        split at hs
        · cases hs
        · rename_i hcon
          have hpres : ∀ x ∈ xs.map Target.val, ∀ s y s1,
              s.parents = Ident.heap a :: st.parents →
              convertToSerializedForm heap metadata f x s = .ok (y, s1) →
              s1.parents = Ident.heap a :: st.parents := by
            intro x _ s y s1 hsp hx
            exact (convert_restores heap metadata f _ s y s1 hx).1.trans hsp
          cases hm : mapOutcome (convertToSerializedForm heap metadata f) (xs.map Target.val)
              { st with parents := Ident.heap a :: st.parents } with
          | ok r2 =>
            obtain ⟨ser, s3⟩ := r2
            refine ⟨by simpa using hcon, fun v hv => ?_⟩
            simp only [HObj.values] at hv
            obtain ⟨s, y, s4, hsp, hx⟩ := mapOutcome_ok_elim_inv
              (convertToSerializedForm heap metadata f)
              (fun s => s.parents = Ident.heap a :: st.parents) (xs.map Target.val) hpres
              { st with parents := Ident.heap a :: st.parents } ser s3 rfl hm (.val v)
              (List.mem_map_of_mem _ hv)
            exact ⟨f, by omega, s, y, s4, hsp, hx⟩
          | thrown n m => simp [hm] at hs
          | pending => simp [hm] at hs
      | thrown n m => simp [hs] at h
      | pending => simp [hs] at h
    | _ => simp [ho, HObj.isPlainOrArray] at hpa

/-- What a call of `serializeArray` that returns tells of the items: the
array was no member of `parents`, and each item was converted, with less
fuel, in a state whose `parents` are the array and those before the call. -/
theorem serializeArray_ok_items (heap : Heap) (metadata : Metadata) (fuel : Nat) (id : Ident)
    (elems : List Target) (st : SerState) (j : Json) (st1 : SerState)
    (h : serializeArray heap metadata fuel id elems st = .ok (j, st1)) :
    id ∉ st.parents ∧
    ∀ t ∈ elems, ∃ f, f < fuel ∧ ∃ s y s1, s.parents = id :: st.parents ∧
      convertToSerializedForm heap metadata f t s = .ok (y, s1) := by
  match fuel with
  | 0 => simp [serializeArray] at h
  | f + 1 =>
    rw [serializeArray_succ] at h
    split at h
    · cases h
    · rename_i hcon
      have hpres : ∀ x ∈ elems, ∀ s y s1, s.parents = id :: st.parents →
          convertToSerializedForm heap metadata f x s = .ok (y, s1) →
          s1.parents = id :: st.parents := by
        intro x _ s y s1 hsp hx
        exact (convert_restores heap metadata f _ s y s1 hx).1.trans hsp
      cases hm : mapOutcome (convertToSerializedForm heap metadata f) elems
          { st with parents := id :: st.parents } with
      | ok r2 =>
        obtain ⟨ser, s3⟩ := r2
        refine ⟨by simpa using hcon, fun t ht => ?_⟩
        obtain ⟨s, y, s4, hsp, hx⟩ := mapOutcome_ok_elim_inv
          (convertToSerializedForm heap metadata f)
          (fun s => s.parents = id :: st.parents) elems hpres
          { st with parents := id :: st.parents } ser s3 rfl hm t ht
        exact ⟨f, by omega, s, y, s4, hsp, hx⟩
      | thrown n m => simp [hm] at h
      | pending => simp [hm] at h

theorem mem_enumFrom_of_mem {α : Type} (p : α) :
    ∀ (xs : List α) (n : Nat), p ∈ xs → ∃ i, (i, p) ∈ xs.enumFrom n := by
  intro xs
  induction xs with
  | nil => intro n h; simp at h
  | cons x xs ih =>
    intro n h
    rcases List.mem_cons.mp h with rfl | h
    · exact ⟨n, by simp [List.enumFrom]⟩
    · obtain ⟨i, hi⟩ := ih (n + 1) h
      exact ⟨i, by simp [List.enumFrom, hi]⟩

/-- What a call on an object that returns tells of the values that the object
holds, for a plain object, an array, a Map and a Set alike: each was
converted, with less fuel, in a state whose `parents` hold those before the
call and, for a plain object or an array, the object itself. -/
theorem convert_ok_values (heap : Heap) (metadata : Metadata) (fuel a : Nat) (st : SerState)
    (j : Json) (st1 : SerState)
    (h : convertToSerializedForm heap metadata fuel (.val (.ref a)) st = .ok (j, st1)) :
    ∀ v ∈ (heap.obj a).values, ∃ f, f < fuel ∧ ∃ s j1 s1,
      (∀ b, Ident.heap b ∈ st.parents → Ident.heap b ∈ s.parents) ∧
      ((heap.obj a).isPlainOrArray = true → Ident.heap a ∈ s.parents) ∧
      convertToSerializedForm heap metadata f (.val v) s = .ok (j1, s1) := by
  have hpa : (heap.obj a).isPlainOrArray = true →
      ∀ v ∈ (heap.obj a).values, ∃ f, f < fuel ∧ ∃ s j1 s1,
      (∀ b, Ident.heap b ∈ st.parents → Ident.heap b ∈ s.parents) ∧
      ((heap.obj a).isPlainOrArray = true → Ident.heap a ∈ s.parents) ∧
      convertToSerializedForm heap metadata f (.val v) s = .ok (j1, s1) := by
    intro hpa v hv
    obtain ⟨_, hch⟩ := convert_ok_children heap metadata fuel a st j st1 hpa h
    obtain ⟨f, hf, s, j1, s1, hsp, hc⟩ := hch v hv
    exact ⟨f, hf, s, j1, s1, fun b hb => by rw [hsp]; exact List.mem_cons_of_mem _ hb,
      fun _ => by rw [hsp]; exact List.mem_cons_self _ _, hc⟩
  cases fuel with
  | zero => simp [convertToSerializedForm] at h
  | succ fuel =>
    cases ho : heap.obj a with
    | plain es => rw [ho] at hpa; exact hpa rfl
    | array xs => rw [ho] at hpa; exact hpa rfl
    | map es =>
      intro v hv
      simp only [HObj.values, List.mem_flatMap] at hv
      obtain ⟨p, hp, hv⟩ := hv
      simp only [convertToSerializedForm, ho] at h
      cases hs : serializeArray heap metadata fuel (arrayFromMap es st.next).1.items.1
          (arrayFromMap es st.next).1.items.2
          { st with next := (arrayFromMap es st.next).2 } with
      | ok r =>
        obtain ⟨j2, s2⟩ := r
        obtain ⟨_, hitems⟩ := serializeArray_ok_items heap metadata fuel _ _ _ j2 s2 hs
        obtain ⟨i, hi⟩ := mem_enumFrom_of_mem p es 0 hp
        have hmem : Target.array (st.next + 1 + i) [.val p.1, .val p.2] ∈
            (arrayFromMap es st.next).1.items.2 := by
          simp only [arrayFromMap, Target.items, List.mem_map]
          exact ⟨(i, p), hi, rfl⟩
        obtain ⟨f1, hf1, s, y, s1, hsp, hc⟩ := hitems _ hmem
        match f1 with
        | 0 => simp [convertToSerializedForm] at hc
        | f2 + 1 =>
          rw [convert_array] at hc
          cases hs2 : serializeArray heap metadata f2 (.fresh (st.next + 1 + i))
              [.val p.1, .val p.2] s with
          | ok r =>
            obtain ⟨j3, s3⟩ := r
            obtain ⟨_, hitems2⟩ := serializeArray_ok_items heap metadata f2 _ _ _ j3 s3 hs2
            obtain ⟨f3, hf3, s4, y4, s5, hsp4, hc4⟩ := hitems2 (.val v) (by
              simp only [List.mem_cons, List.not_mem_nil, or_false] at hv
              rcases hv with rfl | rfl <;> simp)
            refine ⟨f3, by omega, s4, y4, s5, fun b hb => ?_, fun hx => ?_, hc4⟩
            · rw [hsp4, hsp]
              exact List.mem_cons_of_mem _ (List.mem_cons_of_mem _ hb)
            · simp [HObj.isPlainOrArray] at hx
          | thrown n m => simp [hs2] at hc
          | pending => simp [hs2] at hc
      | thrown n m => simp [hs] at h
      | pending => simp [hs] at h
    | set xs =>
      intro v hv
      simp only [HObj.values] at hv
      simp only [convertToSerializedForm, ho] at h
      cases hs : serializeArray heap metadata fuel (arrayFromSet xs st.next).1.items.1
          (arrayFromSet xs st.next).1.items.2
          { st with next := (arrayFromSet xs st.next).2 } with
      | ok r =>
        obtain ⟨j2, s2⟩ := r
        obtain ⟨_, hitems⟩ := serializeArray_ok_items heap metadata fuel _ _ _ j2 s2 hs
        obtain ⟨f1, hf1, s, y, s1, hsp, hc⟩ := hitems (.val v) (by
          simp only [arrayFromSet, Target.items, List.mem_map]
          exact ⟨v, hv, rfl⟩)
        refine ⟨f1, by omega, s, y, s1, fun b hb => ?_, fun hx => ?_, hc⟩
        · rw [hsp]
          exact List.mem_cons_of_mem _ hb
        · simp [HObj.isPlainOrArray] at hx
      | thrown n m => simp [hs] at h
      | pending => simp [hs] at h
    | _ => intro v hv; simp [HObj.values] at hv

/-- A call on an object that returns has met, on its way through plain
objects, arrays, Maps and Sets, no plain object or array that is a member of
`parents` and none that is reachable from itself. -/
theorem convert_ok_no_cycle_reached (heap : Heap) (metadata : Metadata) :
    ∀ fuel a st j st1,
      convertToSerializedForm heap metadata fuel (.val (.ref a)) st = .ok (j, st1) →
      ∀ b, Relation.ReflTransGen (Edge heap) a b → (heap.obj b).isPlainOrArray = true →
        Ident.heap b ∉ st.parents ∧ ¬ Relation.TransGen (Edge heap) b b := by
  intro fuel
  induction fuel using Nat.strong_induction_on with
  | _ fuel ih =>
    intro a st j st1 h
    have hval := convert_ok_values heap metadata fuel a st j st1 h
    intro b hab hb
    rcases Relation.ReflTransGen.cases_head hab with rfl | ⟨c, hac, hcb⟩
    · refine ⟨(convert_ok_children heap metadata fuel a st j st1 hb h).1, fun hcyc => ?_⟩
      obtain ⟨c, hac, hca⟩ := Relation.TransGen.head'_iff.mp hcyc
      obtain ⟨f, hf, s, j1, s1, _, hself, hconv⟩ := hval (.ref c) hac
      exact (ih f hf c s j1 s1 hconv a hca hb).1 (hself hb)
    · obtain ⟨f, hf, s, j1, s1, hsub, _, hconv⟩ := hval (.ref c) hac
      have := ih f hf c s j1 s1 hconv b hcb hb
      exact ⟨fun hmem => this.1 (hsub b hmem), this.2⟩

/-! ## The end of a serialization -/

theorem freeCount_fresh (heap : Heap) (n : Nat) (parents : List Ident) :
    freeCount heap (Ident.fresh n :: parents) = freeCount heap parents := by
  unfold freeCount
  congr 1
  apply Finset.filter_congr
  intro a _
  simp

theorem freeCount_heap_lt (heap : Heap) (a : Nat) (parents : List Ident) (ha : a < heap.length)
    (hn : Ident.heap a ∉ parents) :
    freeCount heap (Ident.heap a :: parents) < freeCount heap parents := by
  unfold freeCount
  apply Finset.card_lt_card
  rw [Finset.ssubset_iff_of_subset]
  · exact ⟨a, by simp [ha, hn], by simp⟩
  · intro b hb
    simp only [Finset.mem_filter, List.mem_cons, not_or] at hb ⊢
    exact ⟨hb.1, hb.2.2⟩

theorem exists_fuel_bound {α : Type} (Q : α → Nat → Prop) (l : List α)
    (h : ∀ x ∈ l, ∃ F, ∀ fuel, F ≤ fuel → Q x fuel) :
    ∃ F, ∀ x ∈ l, ∀ fuel, F ≤ fuel → Q x fuel := by
  induction l with
  | nil => exact ⟨0, fun x hx => by simp at hx⟩
  | cons a l ih =>
    obtain ⟨F1, h1⟩ := h a (List.mem_cons_self _ _)
    obtain ⟨F2, h2⟩ := ih (fun x hx => h x (List.mem_cons_of_mem _ hx))
    refine ⟨max F1 F2, fun x hx fuel hf => ?_⟩
    rcases List.mem_cons.mp hx with rfl | hx
    · exact h1 fuel (le_trans (le_max_left _ _) hf)
    · exact h2 x hx fuel (le_trans (le_max_right _ _) hf)

theorem serializeArray_not_pending (heap : Heap) (metadata : Metadata) (fuel : Nat) (id : Ident)
    (elems : List Target) (st : SerState)
    (h : ∀ t ∈ elems, ∀ s, s.parents = id :: st.parents →
      convertToSerializedForm heap metadata fuel t s ≠ .pending) :
    serializeArray heap metadata (fuel + 1) id elems st ≠ .pending := by
  rw [serializeArray_succ]
  split
  · simp
  · have := mapOutcome_not_pending (convertToSerializedForm heap metadata fuel)
      (fun s => s.parents = id :: st.parents) elems
      (fun x _ s y s1 hs hx => (convert_restores heap metadata fuel x s y s1 hx).1.trans hs)
      h { st with parents := id :: st.parents } rfl
    cases hm : mapOutcome (convertToSerializedForm heap metadata fuel) elems
        { st with parents := id :: st.parents } with
    | ok r => simp
    | thrown n m => simp
    | pending => exact absurd hm this

theorem serializeObject_not_pending (heap : Heap) (metadata : Metadata) (fuel : Nat) (id : Ident)
    (es : List (String × PVal)) (st : SerState)
    (h : ∀ p ∈ es, ∀ s, s.parents = id :: st.parents →
      convertToSerializedForm heap metadata fuel (.val p.2) s ≠ .pending) :
    serializeObject heap metadata (fuel + 1) id es st ≠ .pending := by
  rw [serializeObject_succ]
  split
  · simp
  · generalize hg : (fun (p : String × PVal) s =>
        match convertToSerializedForm heap metadata fuel (.val p.2) s with
        | .ok (j, s1) => Outcome.ok ((p.1, j), s1)
        | .thrown n m => .thrown n m
        | .pending => .pending) = g
    have := mapOutcome_not_pending g (fun s => s.parents = id :: st.parents) es
      (fun x _ s y s1 hs hx => by
        rw [← hg] at hx
        cases hc : convertToSerializedForm heap metadata fuel (.val x.2) s with
        | ok r =>
          obtain ⟨j3, s3⟩ := r
          simp only [hc, Outcome.ok.injEq, Prod.mk.injEq] at hx
          rw [← hx.2]
          exact (convert_restores heap metadata fuel _ s j3 s3 hc).1.trans hs
        | thrown n m => simp [hc] at hx
        | pending => simp [hc] at hx)
      (fun x hx s hs => by
        rw [← hg]
        have := h x hx s hs
        cases hc : convertToSerializedForm heap metadata fuel (.val x.2) s with
        | ok r => simp [hc]
        | thrown n m => simp [hc]
        | pending => exact absurd hc this)
      { st with parents := id :: st.parents } rfl
    cases hm : mapOutcome g es { st with parents := id :: st.parents } with
    | ok r => simp
    | thrown n m => simp
    | pending => exact absurd hm this

theorem obj_beyond_heap (heap : Heap) (a : Nat) (ha : ¬ a < heap.length) :
    heap.obj a = .plain [] := by
  unfold Heap.obj
  exact List.getD_eq_default _ _ (by omega)

theorem convert_plain_not_pending (heap : Heap) (metadata : Metadata) (f a : Nat)
    (es : List (String × PVal)) (st : SerState) (ho : heap.obj a = .plain es)
    (h : serializeObject heap metadata f (.heap a) es st ≠ .pending) :
    convertToSerializedForm heap metadata (f + 1) (.val (.ref a)) st ≠ .pending := by
  simp only [convertToSerializedForm, ho]
  cases hs : serializeObject heap metadata f (.heap a) es st with
  | ok r => simp
  | thrown n m => simp
  | pending => exact absurd hs h

theorem convert_heap_array_not_pending (heap : Heap) (metadata : Metadata) (f a : Nat)
    (xs : List PVal) (st : SerState) (ho : heap.obj a = .array xs)
    (h : serializeArray heap metadata f (.heap a) (xs.map Target.val) st ≠ .pending) :
    convertToSerializedForm heap metadata (f + 1) (.val (.ref a)) st ≠ .pending := by
  simp only [convertToSerializedForm, ho]
  cases hs : serializeArray heap metadata f (.heap a) (xs.map Target.val) st with
  | ok r => simp
  | thrown n m => simp
  | pending => exact absurd hs h

theorem convert_map_not_pending (heap : Heap) (metadata : Metadata) (f a : Nat)
    (es : List (PVal × PVal)) (st : SerState) (ho : heap.obj a = .map es)
    (h : serializeArray heap metadata f (arrayFromMap es st.next).1.items.1
      (arrayFromMap es st.next).1.items.2 { st with next := (arrayFromMap es st.next).2 } ≠
        .pending) :
    convertToSerializedForm heap metadata (f + 1) (.val (.ref a)) st ≠ .pending := by
  simp only [convertToSerializedForm, ho]
  cases hs : serializeArray heap metadata f (arrayFromMap es st.next).1.items.1
      (arrayFromMap es st.next).1.items.2 { st with next := (arrayFromMap es st.next).2 } with
  | ok r => simp
  | thrown n m => simp
  | pending => exact absurd hs h

theorem convert_set_not_pending (heap : Heap) (metadata : Metadata) (f a : Nat)
    (xs : List PVal) (st : SerState) (ho : heap.obj a = .set xs)
    (h : serializeArray heap metadata f (arrayFromSet xs st.next).1.items.1
      (arrayFromSet xs st.next).1.items.2 { st with next := (arrayFromSet xs st.next).2 } ≠
        .pending) :
    convertToSerializedForm heap metadata (f + 1) (.val (.ref a)) st ≠ .pending := by
  simp only [convertToSerializedForm, ho]
  cases hs : serializeArray heap metadata f (arrayFromSet xs st.next).1.items.1
      (arrayFromSet xs st.next).1.items.2 { st with next := (arrayFromSet xs st.next).2 } with
  | ok r => simp
  | thrown n m => simp
  | pending => exact absurd hs h

theorem convert_array_not_pending (heap : Heap) (metadata : Metadata) (f id : Nat)
    (elems : List Target) (st : SerState)
    (h : serializeArray heap metadata f (.fresh id) elems st ≠ .pending) :
    convertToSerializedForm heap metadata (f + 1) (.array id elems) st ≠ .pending := by
  rw [convert_array]
  cases hs : serializeArray heap metadata f (.fresh id) elems st with
  | ok r => simp
  | thrown n m => simp
  | pending => exact absurd hs h

/-- The conversion of every value ends, with enough fuel, when no Map or Set
is reached from itself through Maps and Sets: the objects of the heap that
are not members of `parents` become fewer along plain objects and arrays,
and the Maps and Sets between two of them are well-founded. -/
theorem convert_terminates (heap : Heap) (metadata : Metadata)
    (hwf : WellFounded fun b a => MapEdge heap a b) :
    ∀ k v, ∃ F, ∀ fuel, F ≤ fuel → ∀ st, freeCount heap st.parents ≤ k →
      convertToSerializedForm heap metadata fuel (.val v) st ≠ .pending := by
  intro k
  induction k using Nat.strong_induction_on with
  | _ k ih =>
    have children : ∀ vs : List PVal, ∃ F, ∀ v ∈ vs, ∀ fuel, F ≤ fuel →
        ∀ st, freeCount heap st.parents < k →
          convertToSerializedForm heap metadata fuel (.val v) st ≠ .pending := by
      intro vs
      apply exists_fuel_bound (fun v fuel => ∀ st, freeCount heap st.parents < k →
          convertToSerializedForm heap metadata fuel (.val v) st ≠ .pending) vs
      intro v _
      by_cases hk : k = 0
      · exact ⟨0, fun fuel _ st hst => by omega⟩
      · obtain ⟨F, hF⟩ := ih (k - 1) (by omega) v
        exact ⟨F, fun fuel hf st hst => hF fuel hf st (by omega)⟩
    have stepA : ∀ v, (∀ a, v = .ref a → (heap.obj a).isMapOrSet = false) →
        ∃ F, ∀ fuel, F ≤ fuel → ∀ st, freeCount heap st.parents ≤ k →
          convertToSerializedForm heap metadata fuel (.val v) st ≠ .pending := by
      intro v hv
      have leaf : (∀ f st, convertToSerializedForm heap metadata (f + 1) (.val v) st ≠
          .pending) → ∃ F, ∀ fuel, F ≤ fuel → ∀ st, freeCount heap st.parents ≤ k →
          convertToSerializedForm heap metadata fuel (.val v) st ≠ .pending := by
        intro hl
        refine ⟨1, fun fuel hf st _ => ?_⟩
        obtain ⟨f, rfl⟩ : ∃ f, fuel = f + 1 := ⟨fuel - 1, by omega⟩
        exact hl f st
      cases v with
      | ref a =>
        cases ho : heap.obj a with
        | plain es =>
          obtain ⟨F0, hF0⟩ := children (es.map Prod.snd)
          refine ⟨F0 + 2, fun fuel hf st hst => ?_⟩
          obtain ⟨f, rfl⟩ : ∃ f, fuel = f + 2 := ⟨fuel - 2, by omega⟩
          apply convert_plain_not_pending heap metadata (f + 1) a es st ho
          by_cases hmem : Ident.heap a ∈ st.parents
          · rw [serializeObject_succ]
            simp [hmem]
          · apply serializeObject_not_pending
            intro p hp s hs
            apply hF0 p.2 (List.mem_map_of_mem _ hp) f (by omega) s
            rw [hs]
            have ha : a < heap.length := by
              by_contra hge
              rw [obj_beyond_heap heap a hge] at ho
              injection ho with ho
              subst ho
              simp at hp
            exact lt_of_lt_of_le (freeCount_heap_lt heap a _ ha hmem) hst
        | array xs =>
          obtain ⟨F0, hF0⟩ := children xs
          refine ⟨F0 + 2, fun fuel hf st hst => ?_⟩
          obtain ⟨f, rfl⟩ : ∃ f, fuel = f + 2 := ⟨fuel - 2, by omega⟩
          apply convert_heap_array_not_pending heap metadata (f + 1) a xs st ho
          by_cases hmem : Ident.heap a ∈ st.parents
          · rw [serializeArray_succ]
            simp [hmem]
          · apply serializeArray_not_pending
            intro t ht s hs
            obtain ⟨v, hv, rfl⟩ := List.mem_map.mp ht
            apply hF0 v hv f (by omega) s
            rw [hs]
            have ha : a < heap.length := by
              by_contra hge
              rw [obj_beyond_heap heap a hge] at ho
              cases ho
            exact lt_of_lt_of_le (freeCount_heap_lt heap a _ ha hmem) hst
        | map es => simpa [ho, HObj.isMapOrSet] using hv a rfl
        | set xs => simpa [ho, HObj.isMapOrSet] using hv a rfl
        | date iso =>
          apply leaf
          intro f st
          cases iso <;> simp [convertToSerializedForm, ho]
        | regexp s fl => exact leaf fun f st => by simp [convertToSerializedForm, ho]
        | url s => exact leaf fun f st => by simp [convertToSerializedForm, ho]
        | uint8Array xs => exact leaf fun f st => by simp [convertToSerializedForm, ho]
        | uint16Array xs => exact leaf fun f st => by simp [convertToSerializedForm, ho]
        | uint32Array xs => exact leaf fun f st => by simp [convertToSerializedForm, ho]
      | _ => exact leaf fun f st => by simp [convertToSerializedForm]
    have stepM : ∀ a, ∃ F, ∀ fuel, F ≤ fuel → ∀ st, freeCount heap st.parents ≤ k →
        convertToSerializedForm heap metadata fuel (.val (.ref a)) st ≠ .pending := by
      intro a
      induction a using hwf.induction with
      | _ a iha =>
        by_cases hms : (heap.obj a).isMapOrSet = true
        · have hvals : ∀ v ∈ (heap.obj a).values, ∃ F, ∀ fuel, F ≤ fuel →
              ∀ st, freeCount heap st.parents ≤ k →
                convertToSerializedForm heap metadata fuel (.val v) st ≠ .pending := by
            intro v hv
            by_cases hvm : ∃ b, v = .ref b ∧ (heap.obj b).isMapOrSet = true
            · obtain ⟨b, rfl, hb⟩ := hvm
              exact iha b ⟨hms, hv, hb⟩
            · apply stepA
              intro b hb
              by_contra hne
              exact hvm ⟨b, hb, by simpa using hne⟩
          obtain ⟨F0, hF0⟩ := exists_fuel_bound (fun v fuel =>
            ∀ st, freeCount heap st.parents ≤ k →
              convertToSerializedForm heap metadata fuel (.val v) st ≠ .pending) _ hvals
          cases ho : heap.obj a with
          | map es =>
            refine ⟨F0 + 5, fun fuel hf st hst => ?_⟩
            obtain ⟨f, rfl⟩ : ∃ f, fuel = f + 5 := ⟨fuel - 5, by omega⟩
            apply convert_map_not_pending heap metadata (f + 4) a es st ho
            apply serializeArray_not_pending
            intro t ht s hs
            simp only [arrayFromMap, Target.items, List.mem_map] at ht
            obtain ⟨⟨i, p⟩, hip, rfl⟩ := ht
            have hp : p ∈ es := by
              have := List.mem_map_of_mem Prod.snd hip
              rwa [List.enum_map_snd] at this
            apply convert_array_not_pending heap metadata (f + 2)
            apply serializeArray_not_pending
            intro t2 ht2 s2 hs2
            have hfc : freeCount heap s2.parents ≤ k := by
              rw [hs2, hs]
              simp only [arrayFromMap, Target.items, freeCount_fresh]
              exact hst
            simp only [List.mem_cons, List.mem_singleton, List.not_mem_nil, or_false] at ht2
            rcases ht2 with rfl | rfl
            · exact hF0 p.1 (by
                rw [ho]
                simp only [HObj.values, List.mem_flatMap]
                exact ⟨p, hp, by simp⟩) (f + 1) (by omega) s2 hfc
            · exact hF0 p.2 (by
                rw [ho]
                simp only [HObj.values, List.mem_flatMap]
                exact ⟨p, hp, by simp⟩) (f + 1) (by omega) s2 hfc
          | set xs =>
            refine ⟨F0 + 3, fun fuel hf st hst => ?_⟩
            obtain ⟨f, rfl⟩ : ∃ f, fuel = f + 3 := ⟨fuel - 3, by omega⟩
            apply convert_set_not_pending heap metadata (f + 2) a xs st ho
            apply serializeArray_not_pending
            intro t ht s hs
            simp only [arrayFromSet, Target.items, List.mem_map] at ht
            obtain ⟨v, hv, rfl⟩ := ht
            have hfc : freeCount heap s.parents ≤ k := by
              rw [hs]
              simp only [arrayFromSet, Target.items, freeCount_fresh]
              exact hst
            exact hF0 v (by rw [ho]; exact hv) (f + 1) (by omega) s hfc
          | _ => simp [ho, HObj.isMapOrSet] at hms
        · exact stepA (.ref a) fun b hb => by
            injection hb with hb
            subst hb
            simpa using hms
    intro v
    cases v with
    | ref a => exact stepM a
    | _ => exact stepA _ fun a h => by cases h

/-! ## The cyclic-reference error -/

/-- C3 (as claimed, refuted). The props `\x7b d: new Date(NaN), c \x7d`, where
`c` is a plain object with `c.self = c`: the object `c` is reachable from
itself through plain objects, yet `serializeProps` does not fail with the
cyclic-reference error; the conversion of the invalid date, which comes
first, throws a `RangeError`. -/
theorem cyclic_props_with_invalid_date :
    Relation.ReflTransGen
      (Child [.plain [("d", .ref 1), ("c", .ref 2)], .date none, .plain [("self", .ref 2)]]) 0 2 ∧
    Relation.TransGen
      (Child [.plain [("d", .ref 1), ("c", .ref 2)], .date none, .plain [("self", .ref 2)]]) 2 2 ∧
    ∀ fuel, serializeProps
      [.plain [("d", .ref 1), ("c", .ref 2)], .date none, .plain [("self", .ref 2)]]
      (fuel + 2) 0 ⟨"Counter", "load"⟩ = .thrown "RangeError" "Invalid time value" := by
  refine ⟨Relation.ReflTransGen.single ⟨rfl, ?_⟩, Relation.TransGen.single ⟨rfl, ?_⟩, ?_⟩
  · simp [Edge, Heap.obj, HObj.values]
  · simp [Edge, Heap.obj, HObj.values]
  · intro fuel
    simp [serializeProps, serializeObject, Heap.obj, HObj.entries, mapOutcome,
      convertToSerializedForm]

/-- C3 (amended). For every props value that is a plain object from which a
plain object or array is reached, through plain objects, arrays, Maps and
Sets, that is reachable from itself through plain objects, arrays, Maps and
Sets (so also through plain objects and arrays alone): when no object of the
heap is an invalid `Date` and no Map or Set is reachable from itself through
Maps and Sets alone, `serializeProps` fails, with enough room on the call
stack, with the cyclic-reference error that names `metadata.displayName` and
`metadata.hydrate`, and does not recurse without end. -/
theorem cyclic_reference_detected (heap : Heap) (metadata : Metadata) (props a : Nat)
    (es : List (String × PVal)) (hplain : heap.obj props = .plain es)
    (hreach : Relation.ReflTransGen (Edge heap) props a)
    (hpa : (heap.obj a).isPlainOrArray = true)
    (hcycle : Relation.TransGen (Edge heap) a a)
    (hdate : ∀ b, heap.obj b ≠ .date none)
    (hmaps : WellFounded fun b a => MapEdge heap a b) :
    ∃ F, ∀ fuel, F ≤ fuel →
      serializeProps heap fuel props metadata = .thrown "Error" (cyclicMessage metadata) := by
  obtain ⟨F, hF⟩ := convert_terminates heap metadata hmaps (freeCount heap []) (.ref props)
  refine ⟨F, fun fuel hf => ?_⟩
  have hnp := hF (fuel + 1) (by omega) ⟨[], 0⟩ (le_refl _)
  have hconv : convertToSerializedForm heap metadata (fuel + 1) (.val (.ref props)) ⟨[], 0⟩ =
      match serializeObject heap metadata fuel (.heap props) es ⟨[], 0⟩ with
      | .ok (j, st1) => .ok (tagged .Value j, st1)
      | .thrown n m => .thrown n m
      | .pending => .pending := by
    simp only [convertToSerializedForm, hplain]
  unfold serializeProps
  rw [hplain]
  simp only [HObj.entries]
  cases hs : serializeObject heap metadata fuel (.heap props) es ⟨[], 0⟩ with
  | ok r =>
    obtain ⟨j, st1⟩ := r
    rw [hs] at hconv
    exact absurd hcycle
      (convert_ok_no_cycle_reached heap metadata (fuel + 1) props _ _ _ hconv a hreach hpa).2
  | thrown n m =>
    rw [hs] at hconv
    obtain ⟨hn, hm⟩ := convert_thrown_is_cyclic heap metadata hdate (fuel + 1) _ _ n m hconv
    simp only [hn, hm]
  | pending =>
    rw [hs] at hconv
    exact absurd hconv hnp

theorem cyclic_reference_detected_witness :
    ∃ F, ∀ fuel, F ≤ fuel →
      serializeProps [.plain [("m", .ref 1)], .map [(.str "k", .ref 2)],
          .array [.num 1, .ref 3], .plain [("list", .ref 2)]] fuel 0
        ⟨"Counter", "load"⟩ = .thrown "Error" (cyclicMessage ⟨"Counter", "load"⟩) :=
  cyclic_reference_detected [.plain [("m", .ref 1)], .map [(.str "k", .ref 2)],
      .array [.num 1, .ref 3], .plain [("list", .ref 2)]]
    ⟨"Counter", "load"⟩ 0 2 [("m", .ref 1)] rfl
    (Relation.ReflTransGen.head (b := 1) (by simp [Edge, Heap.obj, HObj.values])
      (Relation.ReflTransGen.single (by simp [Edge, Heap.obj, HObj.values])))
    rfl
    (Relation.TransGen.head (b := 3) (by simp [Edge, Heap.obj, HObj.values])
      (Relation.TransGen.single (by simp [Edge, Heap.obj, HObj.values])))
    (by
      intro b
      match b with
      | 0 => simp [Heap.obj]
      | 1 => simp [Heap.obj]
      | 2 => simp [Heap.obj]
      | 3 => simp [Heap.obj]
      | b + 4 => simp [Heap.obj])
    ⟨fun x => Acc.intro x fun y h => by
      have h0 := h.1
      have h1 := h.2.1
      have h2 := h.2.2
      match x with
      | 0 => simp [Heap.obj, HObj.isMapOrSet] at h0
      | 1 =>
        simp [Edge, Heap.obj, HObj.values] at h1
        subst h1
        simp [Heap.obj, HObj.isMapOrSet] at h2
      | 2 => simp [Heap.obj, HObj.isMapOrSet] at h0
      | 3 => simp [Heap.obj, HObj.isMapOrSet] at h0
      | x + 4 => simp [Heap.obj, HObj.isMapOrSet] at h0⟩

/-! ## Shared values -/

theorem mapOption_forall₂ {α β : Type} (f : α → Option β) :
    ∀ xs ys, mapOption f xs = some ys → List.Forall₂ (fun x y => f x = some y) xs ys := by
  intro xs
  induction xs with
  | nil =>
    intro ys h
    simp only [mapOption, Option.some.injEq] at h
    subst h
    exact List.Forall₂.nil
  | cons x xs ih =>
    intro ys h
    simp only [mapOption] at h
    cases hx : f x with
    | none => simp [hx] at h
    | some y =>
      cases hr : mapOption f xs with
      | none => simp [hx, hr] at h
      | some r =>
        simp only [hx, hr, Option.some.injEq] at h
        subst h
        exact List.Forall₂.cons hx (ih r hr)

theorem mapOption_of_forall₂ {α β : Type} (f : α → Option β) :
    ∀ xs ys, List.Forall₂ (fun x y => f x = some y) xs ys → mapOption f xs = some ys := by
  intro xs ys h
  induction h with
  | nil => rfl
  | cons h1 _ ih => simp only [mapOption, h1, ih]

theorem mapOption_congr_some {α β : Type} (f g : α → Option β) (xs : List α) (ys : List β)
    (h : mapOption f xs = some ys) (hfg : ∀ x ∈ xs, ∀ y, f x = some y → g x = some y) :
    mapOption g xs = some ys := by
  apply mapOption_of_forall₂
  have := mapOption_forall₂ f xs ys h
  clear h
  induction this with
  | nil => exact List.Forall₂.nil
  | cons h1 _ ih =>
    exact List.Forall₂.cons (hfg _ (List.mem_cons_self _ _) _ h1)
      (ih fun x hx => hfg x (List.mem_cons_of_mem _ hx))

theorem unfold_mono (heap : Heap) :
    ∀ n v d, unfold heap n v = some d → unfold heap (n + 1) v = some d := by
  intro n
  induction n with
  | zero =>
    intro v d h
    cases v <;> first | exact h | simp [unfold] at h
  | succ n ih =>
    intro v d h
    cases v with
    | ref a =>
      simp only [unfold] at h ⊢
      cases ho : heap.obj a with
      | plain es =>
        simp only [ho, Option.map_eq_some'] at h ⊢
        obtain ⟨ms, hms, hd⟩ := h
        refine ⟨ms, mapOption_congr_some _ _ es ms hms fun p _ y hy => ?_, hd⟩
        simp only [Option.map_eq_some'] at hy ⊢
        obtain ⟨dp, hdp, hy⟩ := hy
        exact ⟨dp, ih _ _ hdp, hy⟩
      | array xs =>
        simp only [ho, Option.map_eq_some'] at h ⊢
        obtain ⟨ms, hms, hd⟩ := h
        exact ⟨ms, mapOption_congr_some _ _ xs ms hms fun p _ y hy => ih _ _ hy, hd⟩
      | map es =>
        simp only [ho, Option.map_eq_some'] at h ⊢
        obtain ⟨ms, hms, hd⟩ := h
        refine ⟨ms, mapOption_congr_some _ _ es ms hms fun p _ y hy => ?_, hd⟩
        cases h1 : unfold heap n p.1 with
        | none => simp [h1] at hy
        | some k =>
          cases h2 : unfold heap n p.2 with
          | none => simp [h1, h2] at hy
          | some v =>
            simp only [h1, h2] at hy
            simp only [ih _ _ h1, ih _ _ h2]
            exact hy
      | set xs =>
        simp only [ho, Option.map_eq_some'] at h ⊢
        obtain ⟨ms, hms, hd⟩ := h
        exact ⟨ms, mapOption_congr_some _ _ xs ms hms fun p _ y hy => ih _ _ hy, hd⟩
      | _ =>
        simp only [ho] at h ⊢
        exact h
    | _ => exact h

theorem unfold_none_of_succ (heap : Heap) (n : Nat) (v : PVal)
    (h : unfold heap (n + 1) v = none) : unfold heap n v = none := by
  cases hn : unfold heap n v with
  | none => rfl
  | some d =>
    rw [unfold_mono heap n v d hn] at h
    cases h

theorem mapOutcome_ok_of {α β σ : Type} (f : α → σ → Outcome (β × σ)) (Inv : σ → Prop)
    (out : α → β) :
    ∀ xs, (∀ x ∈ xs, ∀ s, Inv s → ∃ s1, f x s = .ok (out x, s1) ∧ Inv s1) →
      ∀ s, Inv s → ∃ s2, mapOutcome f xs s = .ok (xs.map out, s2) ∧ Inv s2 := by
  intro xs
  induction xs with
  | nil => intro _ s hs; exact ⟨s, rfl, hs⟩
  | cons x xs ih =>
    intro h s hs
    obtain ⟨s1, hx, hs1⟩ := h x (List.mem_cons_self _ _) s hs
    obtain ⟨s2, hr, hs2⟩ := ih (fun y hy => h y (List.mem_cons_of_mem _ hy)) s1 hs1
    exact ⟨s2, by simp only [mapOutcome, hx, hr, List.map_cons], hs2⟩

theorem serializeArray_ok_of (heap : Heap) (metadata : Metadata) (fuel : Nat) (id : Ident)
    (elems : List Target) (st : SerState) (out : Target → Json) (hid : id ∉ st.parents)
    (h : ∀ t ∈ elems, ∀ s, s.parents = id :: st.parents → st.next ≤ s.next →
      ∃ s1, convertToSerializedForm heap metadata fuel t s = .ok (out t, s1)) :
    ∃ st1, serializeArray heap metadata (fuel + 1) id elems st =
      .ok (.arr (elems.map out), st1) ∧ Restores st st1 := by
  obtain ⟨s2, hm, hs2⟩ := mapOutcome_ok_of (convertToSerializedForm heap metadata fuel)
    (fun s => s.parents = id :: st.parents ∧ st.next ≤ s.next) out elems
    (fun t ht s hs => by
      obtain ⟨s1, hc⟩ := h t ht s hs.1 hs.2
      have hr := convert_restores heap metadata fuel t s _ s1 hc
      exact ⟨s1, hc, hr.1.trans hs.1, le_trans hs.2 hr.2⟩)
    { st with parents := id :: st.parents } ⟨rfl, le_refl _⟩
  refine ⟨{ s2 with parents := s2.parents.erase id }, ?_, ?_, hs2.2⟩
  · rw [serializeArray_succ, if_neg (by simpa using hid)]
    simp only [hm]
  · simp [hs2.1]

theorem serializeObject_ok_of (heap : Heap) (metadata : Metadata) (fuel : Nat) (id : Ident)
    (es : List (String × PVal)) (st : SerState) (out : PVal → Json) (hid : id ∉ st.parents)
    (h : ∀ p ∈ es, ∀ s, s.parents = id :: st.parents → st.next ≤ s.next →
      ∃ s1, convertToSerializedForm heap metadata fuel (.val p.2) s = .ok (out p.2, s1)) :
    ∃ st1, serializeObject heap metadata (fuel + 1) id es st =
      .ok (.obj (objectFromEntries (es.map fun p => (p.1, out p.2))), st1) ∧
      Restores st st1 := by
  obtain ⟨s2, hm, hs2⟩ := mapOutcome_ok_of (fun (p : String × PVal) s =>
      match convertToSerializedForm heap metadata fuel (.val p.2) s with
      | .ok (j, s1) => Outcome.ok ((p.1, j), s1)
      | .thrown n m => .thrown n m
      | .pending => .pending)
    (fun s => s.parents = id :: st.parents ∧ st.next ≤ s.next) (fun p => (p.1, out p.2)) es
    (fun p hp s hs => by
      obtain ⟨s1, hc⟩ := h p hp s hs.1 hs.2
      have hr := convert_restores heap metadata fuel _ s _ s1 hc
      exact ⟨s1, by simp only [hc], hr.1.trans hs.1, le_trans hs.2 hr.2⟩)
    { st with parents := id :: st.parents } ⟨rfl, le_refl _⟩
  refine ⟨{ s2 with parents := s2.parents.erase id }, ?_, ?_, hs2.2⟩
  · rw [serializeObject_succ, if_neg (by simpa using hid)]
    simp only [hm]
  · simp [hs2.1]

theorem copyForms_eq_map (heap : Heap) (n : Nat) (ts : List Target) :
    Target.copyForms heap n ts = ts.map (Target.copyForm heap n) := by
  induction ts with
  | nil => rfl
  | cons t ts ih => simp only [Target.copyForms, ih, List.map_cons]

theorem forall₂_left_exists {α β : Type} (R : α → β → Prop) (xs : List α) (ys : List β)
    (h : List.Forall₂ R xs ys) : ∀ x ∈ xs, ∃ y, R x y := by
  induction h with
  | nil => intro x hx; simp at hx
  | cons h1 _ ih =>
    intro x hx
    rcases List.mem_cons.mp hx with rfl | hx
    · exact ⟨_, h1⟩
    · exact ih x hx

theorem copyForm_items (heap : Heap) (n : Nat) (xs : List PVal) (ys : List Data)
    (h : List.Forall₂ (fun x y => unfold heap n x = some y) xs ys) :
    xs.map (copyForm heap n) = Data.serializedItems ys := by
  induction h with
  | nil => rfl
  | cons h1 _ ih =>
    rw [List.map_cons, ih]
    simp only [Data.serializedItems, copyForm, h1, Option.getD]

theorem copyForm_members (heap : Heap) (n : Nat) (es : List (String × PVal))
    (ms : List (String × Data))
    (h : List.Forall₂ (fun (p : String × PVal) (q : String × Data) =>
      (unfold heap n p.2).map (fun d => (p.1, d)) = some q) es ms) :
    (es.map fun p => (p.1, copyForm heap n p.2)) = Data.serializedMembers ms := by
  induction h with
  | nil => rfl
  | @cons p q _ _ h1 _ ih =>
    obtain ⟨k, v⟩ := q
    simp only [Option.map_eq_some', Prod.mk.injEq] at h1
    obtain ⟨d, hd, hk, hv⟩ := h1
    subst hk hv
    rw [List.map_cons, ih]
    simp only [Data.serializedMembers, copyForm, hd, Option.getD]

theorem copyForm_entries (heap : Heap) (n : Nat) (es : List (PVal × PVal))
    (ms : List (Data × Data))
    (h : List.Forall₂ (fun (p : PVal × PVal) (q : Data × Data) =>
      unfold heap n p.1 = some q.1 ∧ unfold heap n p.2 = some q.2) es ms) :
    (es.map fun p => tagged .JSON (.str (jsonText (.arr [copyForm heap n p.1,
      copyForm heap n p.2])))) = Data.serializedEntries ms := by
  induction h with
  | nil => rfl
  | @cons p q _ _ h1 _ ih =>
    obtain ⟨k, v⟩ := q
    rw [List.map_cons, ih]
    simp only [Data.serializedEntries, copyForm, h1.1, h1.2, Option.getD]

theorem convert_leaf_value (heap : Heap) (metadata : Metadata) (v : PVal)
    (hv : ∀ a, v ≠ .ref a) (n f : Nat) (st : SerState) (d : Data)
    (h : unfold heap n v = some d) :
    convertToSerializedForm heap metadata (f + 1) (.val v) st = .ok (d.serialized, st) := by
  cases v with
  | ref a => exact absurd rfl (hv a)
  | _ =>
    simp only [unfold, Option.some.injEq] at h
    subst h
    simp only [convertToSerializedForm, Data.serialized, PVal.toJson]

theorem freshBelow_cons_heap (st s : SerState) (a : Nat) (h : FreshBelow st)
    (hs : s.parents = Ident.heap a :: st.parents) (hn : st.next ≤ s.next) : FreshBelow s := by
  intro m hm
  rw [hs] at hm
  simp only [List.mem_cons] at hm
  rcases hm with hm | hm
  · cases hm
  · exact lt_of_lt_of_le (h m hm) hn

theorem freshBelow_cons_fresh (st s : SerState) (k : Nat) (h : FreshBelow st)
    (hs : s.parents = Ident.fresh k :: st.parents) (hk : k < s.next) (hn : st.next ≤ s.next) :
    FreshBelow s := by
  intro m hm
  rw [hs] at hm
  simp only [List.mem_cons] at hm
  rcases hm with hm | hm
  · injection hm with hm
    subst hm
    exact hk
  · exact lt_of_lt_of_le (h m hm) hn

/-- The conversion of a value that denotes a tree, in a state whose parents
are not within the tree: with enough fuel it returns the serialized form of
the tree, whatever is shared between its parts. -/
theorem convert_acyclic (heap : Heap) (metadata : Metadata)
    (hdate : ∀ b, heap.obj b ≠ .date none) :
    ∀ n v d, unfold heap n v = some d →
      ∃ F, ∀ fuel, F ≤ fuel → ∀ st, FreshBelow st →
        (∀ b, Ident.heap b ∈ st.parents → unfold heap n (.ref b) = none) →
        ∃ st1, convertToSerializedForm heap metadata fuel (.val v) st =
          .ok (d.serialized, st1) := by
  intro n
  induction n with
  | zero =>
    intro v d h
    have hv : ∀ a, v ≠ .ref a := by
      intro a ha
      subst ha
      simp [unfold] at h
    refine ⟨1, fun fuel hf st _ _ => ⟨st, ?_⟩⟩
    obtain ⟨f, rfl⟩ : ∃ f, fuel = f + 1 := ⟨fuel - 1, by omega⟩
    exact convert_leaf_value heap metadata v hv 0 f st d h
  | succ n ih =>
    intro v d h
    by_cases hv : ∀ a, v ≠ .ref a
    · refine ⟨1, fun fuel hf st _ _ => ⟨st, ?_⟩⟩
      obtain ⟨f, rfl⟩ : ∃ f, fuel = f + 1 := ⟨fuel - 1, by omega⟩
      exact convert_leaf_value heap metadata v hv (n + 1) f st d h
    · push_neg at hv
      obtain ⟨a, rfl⟩ := hv
      cases hprev : unfold heap n (.ref a) with
      | some d1 =>
        have hd : d1 = d := by
          have := unfold_mono heap n _ d1 hprev
          rw [h] at this
          injection this with this
          exact this.symm
        subst hd
        obtain ⟨F, hF⟩ := ih _ _ hprev
        exact ⟨F, fun fuel hf st hfb hpar =>
          hF fuel hf st hfb fun b hb => unfold_none_of_succ heap n _ (hpar b hb)⟩
      | none =>
        have hchild : ∀ vs : List PVal, (∀ v ∈ vs, ∃ dv, unfold heap n v = some dv) →
            ∃ F, ∀ v ∈ vs, ∀ fuel, F ≤ fuel → ∀ s, FreshBelow s →
              (∀ b, Ident.heap b ∈ s.parents → unfold heap n (.ref b) = none) →
              ∃ s1, convertToSerializedForm heap metadata fuel (.val v) s =
                .ok (copyForm heap n v, s1) := by
          intro vs hvs
          apply exists_fuel_bound (fun v fuel => ∀ s, FreshBelow s →
            (∀ b, Ident.heap b ∈ s.parents → unfold heap n (.ref b) = none) →
            ∃ s1, convertToSerializedForm heap metadata fuel (.val v) s =
              .ok (copyForm heap n v, s1)) vs
          intro v hv
          obtain ⟨dv, hdv⟩ := hvs v hv
          obtain ⟨F, hF⟩ := ih v dv hdv
          refine ⟨F, fun fuel hf s hfb hpar => ?_⟩
          obtain ⟨s1, hs1⟩ := hF fuel hf s hfb hpar
          exact ⟨s1, by rw [hs1]; simp [copyForm, hdv]⟩
        have h0 := h
        simp only [unfold] at h
        cases ho : heap.obj a with
        | plain es =>
          simp only [ho, Option.map_eq_some'] at h
          obtain ⟨ms, hms, rfl⟩ := h
          have hfa := mapOption_forall₂ _ _ _ hms
          obtain ⟨F0, hF0⟩ := hchild (es.map Prod.snd) (by
            intro v hv
            obtain ⟨p, hp, rfl⟩ := List.mem_map.mp hv
            obtain ⟨q, hq⟩ := forall₂_left_exists _ _ _ hfa p hp
            simp only [Option.map_eq_some'] at hq
            obtain ⟨dv, hdv, _⟩ := hq
            exact ⟨dv, hdv⟩)
          refine ⟨F0 + 2, fun fuel hf st hfb hpar => ?_⟩
          obtain ⟨f, rfl⟩ : ∃ f, fuel = f + 2 := ⟨fuel - 2, by omega⟩
          have hid : Ident.heap a ∉ st.parents := by
            intro hmem
            rw [hpar a hmem] at h0
            cases h0
          obtain ⟨st1, hso, _⟩ := serializeObject_ok_of heap metadata f (.heap a) es st
            (copyForm heap n) hid (fun p hp s hs hnext =>
              hF0 p.2 (List.mem_map_of_mem _ hp) f (by omega) s
                (freshBelow_cons_heap st s a hfb hs hnext) (by
                  intro b hb
                  rw [hs] at hb
                  rcases List.mem_cons.mp hb with hb | hb
                  · injection hb with hb
                    subst hb
                    exact hprev
                  · exact unfold_none_of_succ heap n _ (hpar b hb)))
          refine ⟨st1, ?_⟩
          simp only [convertToSerializedForm, ho, hso, Data.serialized]
          rw [copyForm_members heap n es ms hfa]
        | array xs =>
          simp only [ho, Option.map_eq_some'] at h
          obtain ⟨ms, hms, rfl⟩ := h
          have hfa := mapOption_forall₂ _ _ _ hms
          obtain ⟨F0, hF0⟩ := hchild xs (forall₂_left_exists _ _ _ hfa)
          refine ⟨F0 + 2, fun fuel hf st hfb hpar => ?_⟩
          obtain ⟨f, rfl⟩ : ∃ f, fuel = f + 2 := ⟨fuel - 2, by omega⟩
          have hid : Ident.heap a ∉ st.parents := by
            intro hmem
            rw [hpar a hmem] at h0
            cases h0
          obtain ⟨st1, hso, _⟩ := serializeArray_ok_of heap metadata f (.heap a)
            (xs.map Target.val) st (Target.copyForm heap n) hid (fun t ht s hs hnext => by
              obtain ⟨v, hv, rfl⟩ := List.mem_map.mp ht
              exact hF0 v hv f (by omega) s
                (freshBelow_cons_heap st s a hfb hs hnext) (by
                  intro b hb
                  rw [hs] at hb
                  rcases List.mem_cons.mp hb with hb | hb
                  · injection hb with hb
                    subst hb
                    exact hprev
                  · exact unfold_none_of_succ heap n _ (hpar b hb)))
          refine ⟨st1, ?_⟩
          simp only [convertToSerializedForm, ho, hso, Data.serialized]
          rw [List.map_map, ← copyForm_items heap n xs ms hfa]
          rfl
        | map es =>
          simp only [ho, Option.map_eq_some'] at h
          obtain ⟨ms, hms, rfl⟩ := h
          have hfa := mapOption_forall₂ _ _ _ hms
          have hfa2 : List.Forall₂ (fun (p : PVal × PVal) (q : Data × Data) =>
              unfold heap n p.1 = some q.1 ∧ unfold heap n p.2 = some q.2) es ms := by
            refine List.Forall₂.imp (fun p q hpq => ?_) hfa
            cases h1 : unfold heap n p.1 with
            | none => simp [h1] at hpq
            | some k =>
              cases h2 : unfold heap n p.2 with
              | none => simp [h1, h2] at hpq
              | some v =>
                simp only [h1, h2, Option.some.injEq] at hpq
                subst hpq
                exact ⟨rfl, rfl⟩
          obtain ⟨F0, hF0⟩ := hchild (es.flatMap fun p => [p.1, p.2]) (by
            intro v hv
            obtain ⟨p, hp, hvp⟩ := List.mem_flatMap.mp hv
            obtain ⟨q, hq⟩ := forall₂_left_exists _ _ _ hfa2 p hp
            simp only [List.mem_cons, List.mem_singleton, List.not_mem_nil, or_false] at hvp
            rcases hvp with rfl | rfl
            · exact ⟨q.1, hq.1⟩
            · exact ⟨q.2, hq.2⟩)
          refine ⟨F0 + 5, fun fuel hf st hfb hpar => ?_⟩
          obtain ⟨f, rfl⟩ : ∃ f, fuel = f + 5 := ⟨fuel - 5, by omega⟩
          obtain ⟨st1, hso, _⟩ := serializeArray_ok_of heap metadata (f + 3)
            (arrayFromMap es st.next).1.items.1 (arrayFromMap es st.next).1.items.2
            { st with next := (arrayFromMap es st.next).2 } (Target.copyForm heap n)
            (by
              simp only [arrayFromMap, Target.items]
              exact freshBelow_not_mem st hfb st.next le_rfl)
            (fun t ht s hs hnext => by
              simp only [arrayFromMap, Target.items, List.mem_map] at ht hs hnext
              obtain ⟨⟨i, p⟩, hip, rfl⟩ := ht
              have hi : i < es.length := List.fst_lt_of_mem_enum hip
              have hp : p ∈ es := List.snd_mem_of_mem_enum hip
              have hfs : FreshBelow s := freshBelow_cons_fresh st s st.next hfb hs
                (by omega) (by omega)
              obtain ⟨s1, hsa, _⟩ := serializeArray_ok_of heap metadata (f + 1)
                (.fresh (st.next + 1 + i)) [.val p.1, .val p.2] s (Target.copyForm heap n)
                (by
                  rw [hs]
                  simp only [List.mem_cons, Ident.fresh.injEq, not_or]
                  exact ⟨by omega, freshBelow_not_mem st hfb _ (by omega)⟩)
                (fun t2 ht2 s2 hs2 hnext2 => by
                  have hfs2 : FreshBelow s2 := freshBelow_cons_fresh s s2 _ hfs hs2
                    (by omega) hnext2
                  have hpar2 : ∀ b, Ident.heap b ∈ s2.parents →
                      unfold heap n (.ref b) = none := by
                    intro b hb
                    rw [hs2, hs] at hb
                    simp only [List.mem_cons] at hb
                    rcases hb with hb | hb | hb
                    · cases hb
                    · cases hb
                    · exact unfold_none_of_succ heap n _ (hpar b hb)
                  simp only [List.mem_cons, List.mem_singleton, List.not_mem_nil,
                    or_false] at ht2
                  rcases ht2 with rfl | rfl
                  · exact hF0 p.1 (List.mem_flatMap.mpr ⟨p, hp, by simp⟩) (f + 1) (by omega)
                      s2 hfs2 hpar2
                  · exact hF0 p.2 (List.mem_flatMap.mpr ⟨p, hp, by simp⟩) (f + 1) (by omega)
                      s2 hfs2 hpar2)
              refine ⟨s1, ?_⟩
              rw [convert_array]
              simp only [hsa, Target.copyForm, copyForms_eq_map])
          refine ⟨st1, ?_⟩
          simp only [convertToSerializedForm, ho, hso, Data.serialized]
          rw [← copyForm_entries heap n es ms hfa2]
          simp only [arrayFromMap, Target.items, List.map_map]
          rw [← List.enum_map_snd es, List.map_map]
          simp only [List.enum_map_snd]
          rfl
        | set xs =>
          simp only [ho, Option.map_eq_some'] at h
          obtain ⟨ms, hms, rfl⟩ := h
          have hfa := mapOption_forall₂ _ _ _ hms
          obtain ⟨F0, hF0⟩ := hchild xs (forall₂_left_exists _ _ _ hfa)
          refine ⟨F0 + 3, fun fuel hf st hfb hpar => ?_⟩
          obtain ⟨f, rfl⟩ : ∃ f, fuel = f + 3 := ⟨fuel - 3, by omega⟩
          obtain ⟨st1, hso, _⟩ := serializeArray_ok_of heap metadata (f + 1)
            (arrayFromSet xs st.next).1.items.1 (arrayFromSet xs st.next).1.items.2
            { st with next := (arrayFromSet xs st.next).2 } (Target.copyForm heap n)
            (by
              simp only [arrayFromSet, Target.items]
              exact freshBelow_not_mem st hfb st.next le_rfl)
            (fun t ht s hs hnext => by
              simp only [arrayFromSet, Target.items, List.mem_map] at ht hs hnext
              obtain ⟨v, hv, rfl⟩ := ht
              exact hF0 v hv (f + 1) (by omega) s
                (freshBelow_cons_fresh st s st.next hfb hs (by omega) (by omega)) (by
                  intro b hb
                  rw [hs] at hb
                  simp only [List.mem_cons] at hb
                  rcases hb with hb | hb
                  · cases hb
                  · exact unfold_none_of_succ heap n _ (hpar b hb)))
          refine ⟨st1, ?_⟩
          simp only [convertToSerializedForm, ho, hso, Data.serialized]
          rw [← copyForm_items heap n xs ms hfa]
          simp only [arrayFromSet, Target.items, List.map_map]
          rfl
        | date iso =>
          cases iso with
          | none => exact absurd ho (hdate a)
          | some s =>
            simp only [ho, Option.some.injEq] at h
            subst h
            refine ⟨1, fun fuel hf st _ _ => ⟨st, ?_⟩⟩
            obtain ⟨f, rfl⟩ : ∃ f, fuel = f + 1 := ⟨fuel - 1, by omega⟩
            simp [convertToSerializedForm, ho, Data.serialized]
        | regexp s fl =>
          simp only [ho, Option.some.injEq] at h
          subst h
          refine ⟨1, fun fuel hf st _ _ => ⟨st, ?_⟩⟩
          obtain ⟨f, rfl⟩ : ∃ f, fuel = f + 1 := ⟨fuel - 1, by omega⟩
          simp [convertToSerializedForm, ho, Data.serialized]
        | url s =>
          simp only [ho, Option.some.injEq] at h
          subst h
          refine ⟨1, fun fuel hf st _ _ => ⟨st, ?_⟩⟩
          obtain ⟨f, rfl⟩ : ∃ f, fuel = f + 1 := ⟨fuel - 1, by omega⟩
          simp [convertToSerializedForm, ho, Data.serialized]
        | uint8Array xs =>
          simp only [ho, Option.some.injEq] at h
          subst h
          refine ⟨1, fun fuel hf st _ _ => ⟨st, ?_⟩⟩
          obtain ⟨f, rfl⟩ : ∃ f, fuel = f + 1 := ⟨fuel - 1, by omega⟩
          simp [convertToSerializedForm, ho, Data.serialized]
        | uint16Array xs =>
          simp only [ho, Option.some.injEq] at h
          subst h
          refine ⟨1, fun fuel hf st _ _ => ⟨st, ?_⟩⟩
          obtain ⟨f, rfl⟩ : ∃ f, fuel = f + 1 := ⟨fuel - 1, by omega⟩
          simp [convertToSerializedForm, ho, Data.serialized]
        | uint32Array xs =>
          simp only [ho, Option.some.injEq] at h
          subst h
          refine ⟨1, fun fuel hf st _ _ => ⟨st, ?_⟩⟩
          obtain ⟨f, rfl⟩ : ∃ f, fuel = f + 1 := ⟨fuel - 1, by omega⟩
          simp [convertToSerializedForm, ho, Data.serialized]

theorem mapOutcome_thrown_elim_inv {α β σ : Type} (f : α → σ → Outcome (β × σ))
    (Inv : σ → Prop) :
    ∀ (xs : List α), (∀ x ∈ xs, ∀ s y s1, Inv s → f x s = .ok (y, s1) → Inv s1) →
      ∀ (s : σ) (n m : String), Inv s → mapOutcome f xs s = .thrown n m →
        ∃ x ∈ xs, ∃ s1, Inv s1 ∧ f x s1 = .thrown n m := by
  intro xs
  induction xs with
  | nil => intro _ s n m _ h; simp [mapOutcome] at h
  | cons a xs ih =>
    intro hf s n m hs h
    simp only [mapOutcome] at h
    cases hfa : f a s with
    | ok r =>
      obtain ⟨y, s1⟩ := r
      simp only [hfa] at h
      have hs1 := hf a (List.mem_cons_self _ _) s y s1 hs hfa
      cases hrest : mapOutcome f xs s1 with
      | ok r2 => simp [hrest] at h
      | thrown n2 m2 =>
        simp only [hrest, Outcome.thrown.injEq] at h
        obtain ⟨x, hx, s2, hs2, hx2⟩ :=
          ih (fun x hx => hf x (List.mem_cons_of_mem _ hx)) s1 n2 m2 hs1 hrest
        exact ⟨x, List.mem_cons_of_mem _ hx, s2, hs2, by rw [hx2, h.1, h.2]⟩
      | pending => simp [hrest] at h
    | thrown n2 m2 =>
      simp only [hfa, Outcome.thrown.injEq] at h
      exact ⟨a, List.mem_cons_self _ _, s, hs, by rw [hfa, h.1, h.2]⟩
    | pending => simp [hfa] at h

theorem serializeArray_thrown_elim (heap : Heap) (metadata : Metadata) (fuel : Nat) (id : Ident)
    (elems : List Target) (st : SerState) (n m : String) (hid : id ∉ st.parents)
    (h : serializeArray heap metadata (fuel + 1) id elems st = .thrown n m) :
    ∃ t ∈ elems, ∃ s, s.parents = id :: st.parents ∧ st.next ≤ s.next ∧
      convertToSerializedForm heap metadata fuel t s = .thrown n m := by
  rw [serializeArray_succ, if_neg (by simpa using hid)] at h
  cases hm : mapOutcome (convertToSerializedForm heap metadata fuel) elems
      { st with parents := id :: st.parents } with
  | ok r => simp [hm] at h
  | thrown n2 m2 =>
    simp only [hm, Outcome.thrown.injEq] at h
    obtain ⟨t, ht, s, hs, hts⟩ := mapOutcome_thrown_elim_inv
      (convertToSerializedForm heap metadata fuel)
      (fun s => s.parents = id :: st.parents ∧ st.next ≤ s.next) elems
      (fun x _ s y s1 hs hx => by
        have hr := convert_restores heap metadata fuel x s y s1 hx
        exact ⟨hr.1.trans hs.1, le_trans hs.2 hr.2⟩)
      { st with parents := id :: st.parents } n2 m2 ⟨rfl, le_refl _⟩ hm
    exact ⟨t, ht, s, hs.1, hs.2, by rw [hts, h.1, h.2]⟩
  | pending => simp [hm] at h

theorem serializeObject_thrown_elim (heap : Heap) (metadata : Metadata) (fuel : Nat)
    (id : Ident) (es : List (String × PVal)) (st : SerState) (n m : String)
    (hid : id ∉ st.parents)
    (h : serializeObject heap metadata (fuel + 1) id es st = .thrown n m) :
    ∃ p ∈ es, ∃ s, s.parents = id :: st.parents ∧ st.next ≤ s.next ∧
      convertToSerializedForm heap metadata fuel (.val p.2) s = .thrown n m := by
  rw [serializeObject_succ, if_neg (by simpa using hid)] at h
  generalize hg : (fun (p : String × PVal) s =>
      match convertToSerializedForm heap metadata fuel (.val p.2) s with
      | .ok (j, s1) => Outcome.ok ((p.1, j), s1)
      | .thrown n m => .thrown n m
      | .pending => .pending) = g at h
  cases hm : mapOutcome g es { st with parents := id :: st.parents } with
  | ok r => simp [hm] at h
  | thrown n2 m2 =>
    simp only [hm, Outcome.thrown.injEq] at h
    obtain ⟨p, hp, s, hs, hps⟩ := mapOutcome_thrown_elim_inv g
      (fun s => s.parents = id :: st.parents ∧ st.next ≤ s.next) es
      (fun x _ s y s1 hs hx => by
        rw [← hg] at hx
        cases hc : convertToSerializedForm heap metadata fuel (.val x.2) s with
        | ok r =>
          obtain ⟨j3, s3⟩ := r
          simp only [hc, Outcome.ok.injEq, Prod.mk.injEq] at hx
          have hr := convert_restores heap metadata fuel _ s j3 s3 hc
          rw [← hx.2]
          exact ⟨hr.1.trans hs.1, le_trans hs.2 hr.2⟩
        | thrown n m => simp [hc] at hx
        | pending => simp [hc] at hx)
      { st with parents := id :: st.parents } n2 m2 ⟨rfl, le_refl _⟩ hm
    rw [← hg] at hps
    cases hc : convertToSerializedForm heap metadata fuel (.val p.2) s with
    | ok r => simp [hc] at hps
    | thrown n3 m3 =>
      simp only [hc, Outcome.thrown.injEq] at hps
      exact ⟨p, hp, s, hs.1, hs.2, by rw [hc, hps.1, hps.2, h.1, h.2]⟩
    | pending => simp [hc] at hps
  | pending => simp [hm] at h

/-- The conversion of a value that denotes a tree, in a state whose parents
are not within the tree, never throws an `Error`, the cyclic-reference error
in particular, whatever is shared between the parts of the tree. -/
theorem convert_acyclic_no_error (heap : Heap) (metadata : Metadata) :
    ∀ n v d, unfold heap n v = some d →
      ∀ fuel st, FreshBelow st →
        (∀ b, Ident.heap b ∈ st.parents → unfold heap n (.ref b) = none) →
        ∀ m, convertToSerializedForm heap metadata fuel (.val v) st ≠ .thrown "Error" m := by
  intro n
  induction n with
  | zero =>
    intro v d h fuel st _ _ m
    have hv : ∀ a, v ≠ .ref a := by
      intro a ha
      subst ha
      simp [unfold] at h
    match fuel with
    | 0 => simp [convertToSerializedForm]
    | f + 1 => simp [convert_leaf_value heap metadata v hv 0 f st d h]
  | succ n ih =>
    intro v d h fuel st hfb hpar m
    by_cases hv : ∀ a, v ≠ .ref a
    · match fuel with
      | 0 => simp [convertToSerializedForm]
      | f + 1 => simp [convert_leaf_value heap metadata v hv (n + 1) f st d h]
    · push_neg at hv
      obtain ⟨a, rfl⟩ := hv
      cases hprev : unfold heap n (.ref a) with
      | some d1 =>
        exact ih _ _ hprev fuel st hfb
          (fun b hb => unfold_none_of_succ heap n _ (hpar b hb)) m
      | none =>
        have h0 := h
        have hid : Ident.heap a ∉ st.parents := by
          intro hmem
          rw [hpar a hmem] at h0
          cases h0
        have hparc : ∀ s : SerState, s.parents = Ident.heap a :: st.parents →
            ∀ b, Ident.heap b ∈ s.parents → unfold heap n (.ref b) = none := by
          intro s hs b hb
          rw [hs] at hb
          rcases List.mem_cons.mp hb with hb | hb
          · injection hb with hb
            subst hb
            exact hprev
          · exact unfold_none_of_succ heap n _ (hpar b hb)
        intro hthrow
        simp only [unfold] at h
        match fuel with
        | 0 => simp [convertToSerializedForm] at hthrow
        | f + 1 =>
          simp only [convertToSerializedForm] at hthrow
          cases ho : heap.obj a with
          | plain es =>
            simp only [ho, Option.map_eq_some'] at h hthrow
            obtain ⟨ms, hms, _⟩ := h
            have hfa := mapOption_forall₂ _ _ _ hms
            match f with
            | 0 => simp [serializeObject] at hthrow
            | f + 1 =>
              cases hs : serializeObject heap metadata (f + 1) (.heap a) es st with
              | ok r => simp [hs] at hthrow
              | pending => simp [hs] at hthrow
              | thrown n2 m2 =>
                simp only [hs, Outcome.thrown.injEq] at hthrow
                obtain ⟨p, hp, s, hsp, hnext, hc⟩ :=
                  serializeObject_thrown_elim heap metadata f _ es st n2 m2 hid hs
                obtain ⟨q, hq⟩ := forall₂_left_exists _ _ _ hfa p hp
                simp only [Option.map_eq_some'] at hq
                obtain ⟨dv, hdv, _⟩ := hq
                rw [hthrow.1, hthrow.2] at hc
                exact ih p.2 dv hdv f s (freshBelow_cons_heap st s a hfb hsp hnext)
                  (hparc s hsp) m hc
          | array xs =>
            simp only [ho, Option.map_eq_some'] at h hthrow
            obtain ⟨ms, hms, _⟩ := h
            have hfa := mapOption_forall₂ _ _ _ hms
            match f with
            | 0 => simp [serializeArray] at hthrow
            | f + 1 =>
              cases hs : serializeArray heap metadata (f + 1) (.heap a) (xs.map Target.val)
                  st with
              | ok r => simp [hs] at hthrow
              | pending => simp [hs] at hthrow
              | thrown n2 m2 =>
                simp only [hs, Outcome.thrown.injEq] at hthrow
                obtain ⟨t, ht, s, hsp, hnext, hc⟩ :=
                  serializeArray_thrown_elim heap metadata f _ _ st n2 m2 hid hs
                obtain ⟨v, hv, rfl⟩ := List.mem_map.mp ht
                obtain ⟨dv, hdv⟩ := forall₂_left_exists _ _ _ hfa v hv
                rw [hthrow.1, hthrow.2] at hc
                exact ih v dv hdv f s (freshBelow_cons_heap st s a hfb hsp hnext)
                  (hparc s hsp) m hc
          | map es =>
            simp only [ho, Option.map_eq_some'] at h hthrow
            obtain ⟨ms, hms, _⟩ := h
            have hfa := mapOption_forall₂ _ _ _ hms
            have hvals : ∀ p ∈ es, (∃ dk, unfold heap n p.1 = some dk) ∧
                ∃ dv, unfold heap n p.2 = some dv := by
              intro p hp
              obtain ⟨q, hq⟩ := forall₂_left_exists _ _ _ hfa p hp
              cases h1 : unfold heap n p.1 with
              | none => simp [h1] at hq
              | some k =>
                cases h2 : unfold heap n p.2 with
                | none => simp [h1, h2] at hq
                | some v => exact ⟨⟨k, rfl⟩, ⟨v, rfl⟩⟩
            match f with
            | 0 => simp [serializeArray] at hthrow
            | f + 1 =>
              cases hs : serializeArray heap metadata (f + 1)
                  (arrayFromMap es st.next).1.items.1 (arrayFromMap es st.next).1.items.2
                  { st with next := (arrayFromMap es st.next).2 } with
              | ok r => simp [hs] at hthrow
              | pending => simp [hs] at hthrow
              | thrown n2 m2 =>
                simp only [hs, Outcome.thrown.injEq] at hthrow
                obtain ⟨t, ht, s, hsp, hnext, hc⟩ :=
                  serializeArray_thrown_elim heap metadata f _ _ _ n2 m2 (by
                    simp only [arrayFromMap, Target.items]
                    exact freshBelow_not_mem st hfb st.next le_rfl) hs
                simp only [arrayFromMap, Target.items, List.mem_map] at ht hsp hnext
                obtain ⟨⟨i, p⟩, hip, rfl⟩ := ht
                have hi : i < es.length := List.fst_lt_of_mem_enum hip
                have hp : p ∈ es := List.snd_mem_of_mem_enum hip
                have hfs : FreshBelow s := freshBelow_cons_fresh st s st.next hfb hsp
                  (by omega) (by omega)
                rw [hthrow.1, hthrow.2] at hc
                match f with
                | 0 => simp [convertToSerializedForm] at hc
                | 1 => simp [convertToSerializedForm, serializeArray] at hc
                | f + 2 =>
                  rw [convert_array] at hc
                  cases hs2 : serializeArray heap metadata (f + 1) (.fresh (st.next + 1 + i))
                      [.val p.1, .val p.2] s with
                  | ok r => simp [hs2] at hc
                  | pending => simp [hs2] at hc
                  | thrown n3 m3 =>
                    simp only [hs2, Outcome.thrown.injEq] at hc
                    obtain ⟨t2, ht2, s2, hsp2, hnext2, hc2⟩ :=
                      serializeArray_thrown_elim heap metadata f _ _ s n3 m3 (by
                        rw [hsp]
                        simp only [List.mem_cons, Ident.fresh.injEq, not_or]
                        exact ⟨by omega, freshBelow_not_mem st hfb _ (by omega)⟩) hs2
                    have hfs2 : FreshBelow s2 := freshBelow_cons_fresh s s2 _ hfs hsp2
                      (by omega) hnext2
                    have hpar2 : ∀ b, Ident.heap b ∈ s2.parents →
                        unfold heap n (.ref b) = none := by
                      intro b hb
                      rw [hsp2, hsp] at hb
                      simp only [List.mem_cons] at hb
                      rcases hb with hb | hb | hb
                      · cases hb
                      · cases hb
                      · exact unfold_none_of_succ heap n _ (hpar b hb)
                    rw [hc.1, hc.2] at hc2
                    simp only [List.mem_cons, List.mem_singleton, List.not_mem_nil,
                      or_false] at ht2
                    rcases ht2 with rfl | rfl
                    · obtain ⟨dk, hdk⟩ := (hvals p hp).1
                      exact ih p.1 dk hdk f s2 hfs2 hpar2 m hc2
                    · obtain ⟨dv, hdv⟩ := (hvals p hp).2
                      exact ih p.2 dv hdv f s2 hfs2 hpar2 m hc2
          | set xs =>
            simp only [ho, Option.map_eq_some'] at h hthrow
            obtain ⟨ms, hms, _⟩ := h
            have hfa := mapOption_forall₂ _ _ _ hms
            match f with
            | 0 => simp [serializeArray] at hthrow
            | f + 1 =>
              cases hs : serializeArray heap metadata (f + 1)
                  (arrayFromSet xs st.next).1.items.1 (arrayFromSet xs st.next).1.items.2
                  { st with next := (arrayFromSet xs st.next).2 } with
              | ok r => simp [hs] at hthrow
              | pending => simp [hs] at hthrow
              | thrown n2 m2 =>
                simp only [hs, Outcome.thrown.injEq] at hthrow
                obtain ⟨t, ht, s, hsp, hnext, hc⟩ :=
                  serializeArray_thrown_elim heap metadata f _ _ _ n2 m2 (by
                    simp only [arrayFromSet, Target.items]
                    exact freshBelow_not_mem st hfb st.next le_rfl) hs
                simp only [arrayFromSet, Target.items, List.mem_map] at ht hsp hnext
                obtain ⟨v, hv, rfl⟩ := ht
                obtain ⟨dv, hdv⟩ := forall₂_left_exists _ _ _ hfa v hv
                rw [hthrow.1, hthrow.2] at hc
                exact ih v dv hdv f s
                  (freshBelow_cons_fresh st s st.next hfb hsp (by omega) (by omega)) (by
                    intro b hb
                    rw [hsp] at hb
                    simp only [List.mem_cons] at hb
                    rcases hb with hb | hb
                    · cases hb
                    · exact unfold_none_of_succ heap n _ (hpar b hb)) m hc
          | date iso => cases iso <;> simp [ho] at hthrow
          | regexp s fl => simp [ho] at hthrow
          | url s => simp [ho] at hthrow
          | uint8Array xs => simp [ho] at hthrow
          | uint16Array xs => simp [ho] at hthrow
          | uint32Array xs => simp [ho] at hthrow

/-- C29 (as claimed, refuted). The props `\x7b a: o, b: o, d: new Date(NaN) \x7d`
with the plain object `o = \x7b x: 1 \x7d` shared between `a` and `b`: the
props are acyclic (they denote a tree), the same object is referenced more
than once, and `serializeProps` does not succeed; it throws a `RangeError`
at the invalid date. -/
theorem shared_props_with_invalid_date :
    unfold [.plain [("a", .ref 1), ("b", .ref 1), ("d", .ref 2)], .plain [("x", .num 1)],
        .date none] 2 (.ref 0) =
      some (.obj [("a", .obj [("x", .num 1)]), ("b", .obj [("x", .num 1)]),
        ("d", .date none)]) ∧
    ∀ fuel, serializeProps
      [.plain [("a", .ref 1), ("b", .ref 1), ("d", .ref 2)], .plain [("x", .num 1)], .date none]
      (fuel + 4) 0 ⟨"Counter", "load"⟩ = .thrown "RangeError" "Invalid time value" := by
  refine ⟨rfl, fun fuel => ?_⟩
  simp [serializeProps, serializeObject, Heap.obj, HObj.entries, mapOutcome,
    convertToSerializedForm]

/-- C29 (amended). The functions `serializeArray` and `serializeObject`
leave the set `parents` as they found it when they return, so it holds the
ancestors of the value being converted only. For every acyclic props value,
one that denotes a tree of a finite depth whatever objects and arrays its
parts share, `serializeProps` never fails with the cyclic-reference error
(nor with another `Error`); and when the props hold no invalid date it
succeeds, with enough room on the call stack, and returns the text of the
tree in which every occurrence of a shared value is a copy of its own. -/
theorem shared_values_serialize_as_copies (heap : Heap) (metadata : Metadata) (props n : Nat)
    (members : List (String × Data))
    (htree : unfold heap n (.ref props) = some (.obj members)) :
    (∀ fuel id elems st j st1,
      serializeArray heap metadata fuel id elems st = .ok (j, st1) →
        st1.parents = st.parents) ∧
    (∀ fuel id entries st j st1,
      serializeObject heap metadata fuel id entries st = .ok (j, st1) →
        st1.parents = st.parents) ∧
    (∀ fuel m, serializeProps heap fuel props metadata ≠ .thrown "Error" m) ∧
    ((∀ b, heap.obj b ≠ .date none) →
      ∃ F, ∀ fuel, F ≤ fuel →
        serializeProps heap fuel props metadata = .ok (Data.propsText members)) := by
  have hplain : ∃ es, heap.obj props = .plain es := by
    match n with
    | 0 => simp [unfold] at htree
    | n + 1 =>
      simp only [unfold] at htree
      cases ho : heap.obj props with
      | plain es => exact ⟨es, rfl⟩
      | _ => simp [ho] at htree
  obtain ⟨es, hplain⟩ := hplain
  refine ⟨fun fuel id elems st j st1 h => ?_, fun fuel id entries st j st1 h => ?_,
    fun fuel m hthrow => ?_, fun hdate => ?_⟩
  · match fuel with
    | 0 => simp [serializeArray] at h
    | f + 1 =>
      exact (serializeArray_restores_of heap metadata f (convert_restores heap metadata f)
        id elems st j st1 h).1
  · match fuel with
    | 0 => simp [serializeObject] at h
    | f + 1 =>
      exact (serializeObject_restores_of heap metadata f (convert_restores heap metadata f)
        id entries st j st1 h).1
  · have hno := convert_acyclic_no_error heap metadata n (.ref props) (.obj members) htree
      (fuel + 1) ⟨[], 0⟩ freshBelow_initial (fun b hb => by simp at hb) m
    apply hno
    unfold serializeProps at hthrow
    rw [hplain] at hthrow
    simp only [HObj.entries] at hthrow
    simp only [convertToSerializedForm, hplain]
    cases hs : serializeObject heap metadata fuel (.heap props) es ⟨[], 0⟩ with
    | ok r => simp [hs] at hthrow
    | thrown n2 m2 =>
      simp only [hs, Outcome.thrown.injEq] at hthrow
      simp only [hthrow.1, hthrow.2]
    | pending => simp [hs] at hthrow
  · obtain ⟨F, hF⟩ := convert_acyclic heap metadata hdate n (.ref props) (.obj members) htree
    refine ⟨F, fun fuel hf => ?_⟩
    obtain ⟨st1, hconv⟩ := hF (fuel + 1) (by omega) ⟨[], 0⟩ freshBelow_initial
      (fun b hb => by simp at hb)
    simp only [convertToSerializedForm, hplain] at hconv
    unfold serializeProps
    rw [hplain]
    simp only [HObj.entries]
    cases hs : serializeObject heap metadata fuel (.heap props) es ⟨[], 0⟩ with
    | ok r =>
      obtain ⟨j, s1⟩ := r
      simp only [hs, Data.serialized, tagged, Outcome.ok.injEq, Prod.mk.injEq, Json.arr.injEq,
        List.cons.injEq, and_true, true_and] at hconv
      simp only [Data.propsText, hconv.1]
    | thrown n m => simp [hs] at hconv
    | pending => simp [hs] at hconv

theorem shared_values_serialize_as_copies_witness :
    unfold [.plain [("a", .ref 1), ("b", .ref 1)], .plain [("x", .num 1)]] 2 (.ref 0) =
      some (.obj [("a", .obj [("x", .num 1)]), ("b", .obj [("x", .num 1)])]) ∧
    ∃ F, ∀ fuel, F ≤ fuel →
      serializeProps [.plain [("a", .ref 1), ("b", .ref 1)], .plain [("x", .num 1)]] fuel 0
        ⟨"Counter", "load"⟩ =
      .ok (Data.propsText [("a", .obj [("x", .num 1)]), ("b", .obj [("x", .num 1)])]) :=
  ⟨rfl, (shared_values_serialize_as_copies
    [.plain [("a", .ref 1), ("b", .ref 1)], .plain [("x", .num 1)]] ⟨"Counter", "load"⟩ 0 2
    [("a", .obj [("x", .num 1)]), ("b", .obj [("x", .num 1)])] rfl).2.2.2 (by
      intro b
      match b with
      | 0 => simp [Heap.obj]
      | 1 => simp [Heap.obj]
      | b + 2 => simp [Heap.obj])⟩

end Entry
